import Mathlib

/-!
A shallow embedding of the mmap window cache in
`src/libsystemd/sd-journal/mmap-cache.c` (the non-debug build, i.e. the
`#else` branches of `ENABLE_DEBUG_MMAP_CACHE`), together with proofs about
its window-geometry arithmetic and its state machine.

Modelling conventions:
* machine integers are `Nat` with explicit `% 2^64` where the C code can
  wrap; bitwise C operators are embedded as the corresponding `Nat` bitwise
  operators;
* the page size is `2^k` for a parameter `k` (`page_size()` is a positive
  power of two);
* heap pointers are replaced by numeric identifiers: windows live in an
  association list keyed by a window id, file descriptors in an association
  list keyed by the fd number (`FD_TO_PTR`), contexts in an association
  list keyed by the context id;
* fallible allocations (`new`, `new0`, `hashmap_ensure_allocated`,
  `hashmap_put`) and the `mmap` primitive are driven by explicit oracles;
* `munmap`/`mmap` bookkeeping is recorded in a `mapped` list of
  `(address, length)` pairs so that "no mapping remains" is expressible;
* recycling an LRU window (`window_add` reuse branch) is modelled as
  unlink-and-free followed by a fresh id: pointer identity of the `Window`
  allocation across recycling is not observable through the API.
-/

set_option maxHeartbeats 1000000
set_option linter.unreachableTactic false
set_option linter.unusedTactic false
set_option linter.unusedVariables false

namespace MmapCacheModel

/-- `2^64`, the modulus of `uint64_t` arithmetic. -/
def U64 : Nat := 2 ^ 64

/-- errno value for the EIO error. -/
def EIO : Int := 5

/-- errno `ENOMEM`. -/
def ENOMEM : Int := 12

/-- errno `EADDRNOTAVAIL`. -/
def EADDRNOTAVAIL : Int := 99

/-- `#define WINDOWS_MIN 64` -/
def WINDOWS_MIN : Nat := 64

/-- `#define WINDOW_SIZE (8ULL*1024ULL*1024ULL)` (production build). -/
def WINDOW_SIZE : Nat := 8 * 1024 * 1024

/-- `MMAP_CACHE_MAX_CONTEXTS` (from mmap-cache.h; a small compile-time
constant, 8 in the source tree). -/
def MMAP_CACHE_MAX_CONTEXTS : Nat := 8

/-- `page_size()`: a positive power of two, `2^k`. -/
def page_size (k : Nat) : Nat := 2 ^ k

/-- Bitwise complement on `uint64_t`: `~x` is xor with all 64 one bits. -/
def not64 (x : Nat) : Nat := (U64 - 1) ^^^ x

/-- `offset & ~((uint64_t) page_size() - 1ULL)` (mmap-cache.c line 431). -/
def page_floor (k x : Nat) : Nat := x &&& not64 (page_size k - 1)

/-- `PAGE_ALIGN(l) = ALIGN_TO(l, page_size()) = ((l + P - 1) & ~(P - 1))`
in `uint64_t` arithmetic. -/
def PAGE_ALIGN (k x : Nat) : Nat :=
  ((x + (page_size k - 1)) % U64) &&& not64 (page_size k - 1)

/-! ### Window geometry of the allocate path (`add_mmap`, lines 431-458)

The pure arithmetic prefix of `add_mmap`: computing the window offset and
size from the request, and clamping against an optional file-size hint. -/

/-- Lines 431-446 of `add_mmap`: the window pair before the file-size
clamp. `woffset = offset & ~(page_size()-1)`; `wsize =
PAGE_ALIGN(size + (offset - woffset))`; the symmetric expansion when
`wsize < WINDOW_SIZE`. -/
def add_mmap_pair (k offset size : Nat) : Nat × Nat :=
  let woffset := page_floor k offset
  let wsize := PAGE_ALIGN k ((size + (offset - woffset)) % U64)
  if wsize < WINDOW_SIZE then
    let delta := PAGE_ALIGN k ((WINDOW_SIZE - wsize) / 2)
    ((if delta > offset then 0 else woffset - delta), WINDOW_SIZE)
  else (woffset, wsize)

/-- Lines 448-458 of `add_mmap`: clamp the window pair against the
file-size hint `st`, failing with `-EADDRNOTAVAIL` when the window starts
at or past the end of the file. -/
def add_mmap_geometry (k offset size : Nat) (st : Option Nat) :
    Except Int (Nat × Nat) :=
  let pair := add_mmap_pair k offset size
  match st with
  | none => Except.ok pair
  | some fsize =>
    if pair.1 ≥ fsize then Except.error (-EADDRNOTAVAIL)
    else if (pair.1 + pair.2) % U64 > fsize then
      Except.ok (pair.1, PAGE_ALIGN k (fsize - pair.1))
    else Except.ok pair

/-! ### The cache state machine

Heap pointers are replaced by numeric ids.  `struct Window`,
`struct Context`, `struct MMapFileDescriptor` and `struct MMapCache`
become records; the intrusive doubly-linked lists (`by_fd`, `unused`,
`by_window`) become lists of ids (head = most recently prepended, so
`m->last_unused` is the *last* element of `unused`). -/

/-- `struct Window` (mmap-cache.c lines 21-38). `fd` is the key of the
owning `MMapFileDescriptor`; `contexts` is the `by_window` list of attached
context ids. -/
structure Window where
  fd : Nat
  invalidated : Bool
  keep_always : Bool
  in_unused : Bool
  ptr : Nat
  offset : Nat
  size : Nat
  contexts : List Nat
deriving Repr, DecidableEq

/-- `struct Context` (lines 40-46). -/
structure Context where
  id : Nat
  window : Option Nat
deriving Repr, DecidableEq

/-- `struct MMapFileDescriptor` (lines 48-54). `windows` is the `by_fd`
list of window ids, head = most recently added. -/
structure MMapFileDescriptor where
  fd : Nat
  prot : Nat
  sigbus : Bool
  windows : List Nat
deriving Repr, DecidableEq

/-- `struct MMapCache` (lines 56-67), plus a `mapped` ledger of the
`(address, length)` pairs currently memory-mapped on behalf of this cache
(so that `mmap`/`munmap` balance is expressible), and a `next_wid` counter
providing fresh window ids. -/
structure MMapCache where
  n_windows : Nat
  n_context_cache_hit : Nat
  n_window_list_hit : Nat
  n_missed : Nat
  fds : List (Nat × MMapFileDescriptor)
  contexts : List (Nat × Context)
  windows : List (Nat × Window)
  next_wid : Nat
  unused : List Nat
  mapped : List (Nat × Nat)
deriving Repr, DecidableEq

/-! Association-list helpers (the hashmap, the context array and the
window heap). -/

def alookup {α : Type} (l : List (Nat × α)) (key : Nat) : Option α :=
  match l with
  | [] => none
  | (k, v) :: t => if k = key then some v else alookup t key

def aupd {α : Type} (l : List (Nat × α)) (key : Nat) (f : α → α) :
    List (Nat × α) :=
  l.map fun p => if p.1 = key then (p.1, f p.2) else p

def aerase {α : Type} (l : List (Nat × α)) (key : Nat) : List (Nat × α) :=
  l.filter fun p => p.1 ≠ key

/-- `window_unlink` (lines 89-111): munmap the range, remove the window
from its fd's `by_fd` list, from the `unused` list when it is there, and
null the back-edge of every attached context. -/
def window_unlink (s : MMapCache) (wid : Nat) : MMapCache :=
  match alookup s.windows wid with
  | none => s
  | some w =>
    let s := if w.ptr ≠ 0 then { s with mapped := s.mapped.erase (w.ptr, w.size) } else s
    let s := { s with
      fds := aupd s.fds w.fd fun f => { f with windows := f.windows.erase wid } }
    let s := if w.in_unused then { s with unused := s.unused.erase wid } else s
    { s with contexts := s.contexts.map fun p =>
        if p.1 ∈ w.contexts then (p.1, { p.2 with window := none }) else p }

/-- `window_invalidate` (lines 113-127): skip when already invalidated,
else remap the range in place (`MAP_FIXED|MAP_PRIVATE|MAP_ANONYMOUS`) —
the range stays mapped, so `mapped` is unchanged — and set the flag. -/
def window_invalidate (s : MMapCache) (wid : Nat) : MMapCache :=
  match alookup s.windows wid with
  | none => s
  | some w =>
    if w.invalidated then s
    else { s with windows := aupd s.windows wid fun w => { w with invalidated := true } }

/-- `window_free` (lines 129-135). -/
def window_free (s : MMapCache) (wid : Nat) : MMapCache :=
  let s := window_unlink s wid
  { s with n_windows := s.n_windows - 1, windows := aerase s.windows wid }

/-- `window_matches` (lines 137-144), with `uint64_t` wrap-around made
explicit. -/
def window_matches (w : Window) (offset size : Nat) : Bool :=
  decide (offset ≥ w.offset) &&
    decide ((offset + size) % U64 ≤ (w.offset + w.size) % U64)

/-- `window_matches_fd` (lines 146-153): pointer equality `w->fd == f`
becomes key equality. -/
def window_matches_fd (w : Window) (fdk : Nat) (offset size : Nat) : Bool :=
  decide (w.fd = fdk) && window_matches w offset size

/-- `window_add` (lines 155-187).  Fresh allocation can fail (`alloc_ok`);
recycling the LRU tail cannot.  Recycling is modelled as unlink-and-free of
the victim followed by a fresh id, which keeps `n_windows` unchanged. -/
def window_add (s : MMapCache) (fdk : Nat) (keep_always : Bool)
    (offset size ptr : Nat) (alloc_ok : Bool) : Option (Nat × MMapCache) :=
  let mk : MMapCache → Option (Nat × MMapCache) := fun s =>
    let wid := s.next_wid
    let w : Window := ⟨fdk, false, keep_always, false, ptr, offset, size, []⟩
    some (wid, { s with
      windows := (wid, w) :: s.windows,
      next_wid := wid + 1,
      n_windows := s.n_windows + 1,
      fds := aupd s.fds fdk fun f => { f with windows := wid :: f.windows } })
  if s.unused.isEmpty || s.n_windows ≤ WINDOWS_MIN then
    -- allocate a new window
    if alloc_ok then mk s else none
  else
    -- reuse the last (least recently used) unused window
    match s.unused.getLast? with
    | none => none
    | some victim => mk (window_free s victim)

/-- `context_detach_window` (lines 189-214), production branch: a window
that loses its last context and is not pinned is prepended to the unused
list. -/
def context_detach_window (s : MMapCache) (cid : Nat) : MMapCache :=
  match alookup s.contexts cid with
  | none => s
  | some c =>
    match c.window with
    | none => s
    | some wid =>
      let s := { s with contexts := aupd s.contexts cid fun c => { c with window := none } }
      match alookup s.windows wid with
      | none => s
      | some w =>
        let contexts' := w.contexts.erase cid
        let s := { s with windows := aupd s.windows wid fun w =>
          { w with contexts := contexts' } }
        if contexts'.isEmpty && !w.keep_always then
          { s with
            unused := wid :: s.unused,
            windows := aupd s.windows wid fun w =>
              { w with contexts := contexts', in_unused := true } }
        else s

/-- `context_attach_window` (lines 216-236). -/
def context_attach_window (s : MMapCache) (cid wid : Nat) : MMapCache :=
  match alookup s.contexts cid with
  | none => s
  | some c =>
    if c.window = some wid then s
    else
      let s := context_detach_window s cid
      let s :=
        match alookup s.windows wid with
        | none => s
        | some w =>
          if w.in_unused then
            { s with
              unused := s.unused.erase wid,
              windows := aupd s.windows wid fun w => { w with in_unused := false } }
          else s
      let s := { s with contexts := aupd s.contexts cid fun c => { c with window := some wid } }
      { s with windows := aupd s.windows wid fun w => { w with contexts := cid :: w.contexts } }

/-- `context_add` (lines 238-258); `new0` can fail. -/
def context_add (s : MMapCache) (id : Nat) (alloc_ok : Bool) : Option MMapCache :=
  match alookup s.contexts id with
  | some _ => some s
  | none =>
    if alloc_ok then some { s with contexts := (id, ⟨id, none⟩) :: s.contexts }
    else none

/-- `context_free` (lines 260-271). -/
def context_free (s : MMapCache) (cid : Nat) : MMapCache :=
  let s := context_detach_window s cid
  { s with contexts := aerase s.contexts cid }

/-- `make_room` (lines 292-300): free the LRU tail if any. -/
def make_room (s : MMapCache) : Nat × MMapCache :=
  match s.unused.getLast? with
  | none => (0, s)
  | some victim => (1, window_free s victim)

/-- Result of one call to the `mmap` primitive: an address, or an errno. -/
inductive MmapRes where
  | ok (addr : Nat)
  | err (errno : Int)
deriving Repr, DecidableEq

/-- `try_context` (lines 302-343).  Returns `(r, ret, s')`. -/
def try_context (s : MMapCache) (fdk ctx : Nat) (keep_always : Bool)
    (offset size : Nat) : Int × Option Nat × MMapCache :=
  match alookup s.contexts ctx with
  | none => (0, none, s)
  | some c =>
    match c.window with
    | none => (0, none, s)
    | some wid =>
      match alookup s.windows wid with
      | none => (0, none, s)
      | some w =>
        if ¬ window_matches_fd w fdk offset size then
          -- drop the reference to the window, since it is unnecessary now
          (0, none, context_detach_window s ctx)
        else
          -- c->window->fd->sigbus
          match alookup s.fds w.fd with
          | none => (0, none, s)
          | some f =>
            if f.sigbus then (- EIO, none, s)
            else
              let s := { s with windows := aupd s.windows wid fun w =>
                { w with keep_always := w.keep_always || keep_always } }
              (1, some (w.ptr + (offset - w.offset)),
                { s with n_context_cache_hit := s.n_context_cache_hit + 1 })

/-- `find_mmap` (lines 345-382).  `ctx_ok` drives the `context_add`
allocation. -/
def find_mmap (s : MMapCache) (fdk ctx : Nat) (keep_always : Bool)
    (offset size : Nat) (ctx_ok : Bool) : Int × Option Nat × MMapCache :=
  match alookup s.fds fdk with
  | none => (0, none, s)
  | some f =>
    if f.sigbus then (- EIO, none, s)
    else
      match f.windows.find? (fun wid =>
          match alookup s.windows wid with
          | some w => window_matches w offset size
          | none => false) with
      | none => (0, none, s)
      | some wid =>
        match context_add s ctx ctx_ok with
        | none => (-ENOMEM, none, s)
        | some s =>
          let s := context_attach_window s ctx wid
          let s := { s with windows := aupd s.windows wid fun w =>
            { w with keep_always := w.keep_always || keep_always } }
          match alookup s.windows wid with
          | none => (0, none, s)
          | some w =>
            (1, some (w.ptr + (offset - w.offset)),
              { s with n_window_list_hit := s.n_window_list_hit + 1 })

/-- The retry loop of `mmap_try_harder` (lines 384-408), with explicit
fuel.  `mres attempt` is the outcome of the `attempt`-th call to `mmap`;
on `ENOMEM` one LRU window is evicted via `make_room` and the map is
retried; any other errno is surfaced immediately. -/
def mmap_try_harder_go (wsize : Nat) (mres : Nat → MmapRes) :
    Nat → Nat → MMapCache → Except Int Nat × MMapCache
  | _, 0, s => (Except.error (-ENOMEM), s)
  | attempt, fuel+1, s =>
    match mres attempt with
    | MmapRes.ok addr => (Except.ok addr, { s with mapped := (addr, wsize) :: s.mapped })
    | MmapRes.err e =>
      if e ≠ ENOMEM then (Except.error (-e), s)
      else
        match make_room s with
        | (r, s) =>
          if r = 0 then (Except.error (-ENOMEM), s)
          else mmap_try_harder_go wsize mres (attempt + 1) fuel s

/-- `mmap_try_harder`: the loop can run at most `|unused| + 1` times
before `make_room` fails, so that much fuel is exact. -/
def mmap_try_harder (s : MMapCache) (wsize : Nat) (mres : Nat → MmapRes) :
    Except Int Nat × MMapCache :=
  mmap_try_harder_go wsize mres 0 (s.unused.length + 1) s

/-- Oracle for one `mmap_cache_fd_get` call: outcome of the `context_add`
allocation, of the `window_add` allocation, and of each `mmap` attempt. -/
structure GetOracle where
  ctx_ok : Bool
  win_ok : Bool
  mres : Nat → MmapRes

/-- `add_mmap` (lines 410-481): geometry, the mmap retry loop, context
and window bookkeeping; on a late allocation failure the fresh mapping is
munmapped again and `-ENOMEM` surfaces. -/
def add_mmap (k : Nat) (s : MMapCache) (fdk ctx : Nat) (keep_always : Bool)
    (offset size : Nat) (st : Option Nat) (o : GetOracle) :
    Int × Option Nat × MMapCache :=
  match add_mmap_geometry k offset size st with
  | Except.error e => (e, none, s)
  | Except.ok (woffset, wsize) =>
    match mmap_try_harder s wsize o.mres with
    | (Except.error e, s) => (e, none, s)
    | (Except.ok d, s) =>
      match context_add s ctx o.ctx_ok with
      | none => (-ENOMEM, none, { s with mapped := s.mapped.erase (d, wsize) })
      | some s =>
        match window_add s fdk keep_always woffset wsize d o.win_ok with
        | none => (-ENOMEM, none, { s with mapped := s.mapped.erase (d, wsize) })
        | some (wid, s) =>
          let s := context_attach_window s ctx wid
          (1, some (d + (offset - woffset)), s)

/-- `mmap_cache_fd_get` (lines 483-515). -/
def mmap_cache_fd_get (k : Nat) (s : MMapCache) (fdk ctx : Nat)
    (keep_always : Bool) (offset size : Nat) (st : Option Nat)
    (o : GetOracle) : Int × Option Nat × MMapCache :=
  match try_context s fdk ctx keep_always offset size with
  | (r, ret, s) =>
    if r ≠ 0 then (r, ret, s)
    else
      match find_mmap s fdk ctx keep_always offset size o.ctx_ok with
      | (r, ret, s) =>
        if r ≠ 0 then (r, ret, s)
        else
          let s := { s with n_missed := s.n_missed + 1 }
          add_mmap k s fdk ctx keep_always offset size st o

/-- The window-scan of the SIGBUS drain loop (lines 544-558): the key of
the first registered fd owning a window whose range contains `addr`. -/
def find_sigbus_fd (s : MMapCache) (addr : Nat) : Option Nat :=
  (s.fds.find? fun p => p.2.windows.any fun wid =>
      match alookup s.windows wid with
      | some w => decide (w.ptr ≤ addr) && decide (addr < w.ptr + w.size)
      | none => false).map Prod.fst

/-- The drain loop of `mmap_cache_process_sigbus` (lines 532-565): pop
each queued address, mark the owning fd poisoned; an address owned by no
window aborts the process (`none`). -/
def sigbus_drain (s : MMapCache) (found : Bool) :
    List Nat → Option (Bool × MMapCache)
  | [] => some (found, s)
  | addr :: rest =>
    match find_sigbus_fd s addr with
    | none => none
    | some fdk =>
      sigbus_drain
        { s with fds := aupd s.fds fdk fun f => { f with sigbus := true } }
        true rest

/-- `mmap_cache_process_sigbus` (lines 523-583): drain the queue, then —
only when some address matched — invalidate every window of every
poisoned fd. -/
def mmap_cache_process_sigbus (s : MMapCache) (queue : List Nat) :
    Option MMapCache :=
  match sigbus_drain s false queue with
  | none => none
  | some (found, s) =>
    if ¬ found then some s
    else some (s.fds.foldl (fun s' p =>
      if p.2.sigbus then p.2.windows.foldl window_invalidate s' else s') s)

/-- `mmap_cache_fd_got_sigbus` (lines 585-591). -/
def mmap_cache_fd_got_sigbus (s : MMapCache) (fdk : Nat) (queue : List Nat) :
    Option (Bool × MMapCache) :=
  match mmap_cache_process_sigbus s queue with
  | none => none
  | some s =>
    match alookup s.fds fdk with
    | none => some (false, s)
    | some f => some (f.sigbus, s)

/-- Oracle for `mmap_cache_add_fd`: outcome of `hashmap_ensure_allocated`,
`new0` and `hashmap_put`. -/
structure AllocOracle where
  ensure_ok : Bool
  new_ok : Bool
  put_ok : Bool
deriving Repr, DecidableEq

/-- `mmap_cache_add_fd` (lines 593-621). -/
def mmap_cache_add_fd (s : MMapCache) (fd prot : Nat) (o : AllocOracle) :
    Option MMapFileDescriptor × MMapCache :=
  match alookup s.fds fd with
  | some f => (some f, s)
  | none =>
    if ¬ o.ensure_ok then (none, s)
    else if ¬ o.new_ok then (none, s)
    else
      let f : MMapFileDescriptor := ⟨fd, prot, false, []⟩
      if ¬ o.put_ok then (none, s)
      else (some f, { s with fds := (fd, f) :: s.fds })

/-- The `while (f->windows) window_free(f->windows)` loop of
`mmap_cache_fd_free` (lines 633-634), with fuel. -/
def free_fd_windows (fdk : Nat) : Nat → MMapCache → MMapCache
  | 0, s => s
  | fuel+1, s =>
    match alookup s.fds fdk with
    | none => s
    | some f =>
      match f.windows with
      | [] => s
      | wid :: _ => free_fd_windows fdk fuel (window_free s wid)

/-- `mmap_cache_fd_free` (lines 623-640): dispatch queued SIGBUS first,
then free all windows of the handle, then drop it from the registry. -/
def mmap_cache_fd_free (s : MMapCache) (fdk : Nat) (queue : List Nat) :
    Option MMapCache :=
  match mmap_cache_process_sigbus s queue with
  | none => none
  | some s =>
    let fuel := match alookup s.fds fdk with
      | some f => f.windows.length
      | none => 0
    let s := free_fd_windows fdk fuel s
    some { s with fds := aerase s.fds fdk }

/-- The `while (m->unused) window_free(m->unused)` loop of
`mmap_cache_free` (lines 284-285), with fuel. -/
def free_unused_windows : Nat → MMapCache → MMapCache
  | 0, s => s
  | fuel+1, s =>
    match s.unused with
    | [] => s
    | wid :: _ => free_unused_windows fuel (window_free s wid)

/-- `mmap_cache_free` (lines 273-288): free the context slots, free the
fd hashmap — the container only, the `MMapFileDescriptor` values and their
windows are not visited — then free whatever sits on the unused list. -/
def mmap_cache_free (s : MMapCache) : MMapCache :=
  let s := (List.range MMAP_CACHE_MAX_CONTEXTS).foldl (fun s' i =>
    if (alookup s'.contexts i).isSome then context_free s' i else s') s
  let s := { s with fds := [] }
  free_unused_windows s.unused.length s

/-- A public cache operation, for invariant statements quantified over
the API. -/
inductive CacheOp where
  | get (fdk ctx : Nat) (keep_always : Bool) (offset size : Nat)
      (st : Option Nat) (ctx_ok win_ok : Bool) (mres : Nat → MmapRes)
  | addFd (fd prot : Nat) (o : AllocOracle)
  | fdFree (fdk : Nat) (queue : List Nat)
  | gotSigbus (fdk : Nat) (queue : List Nat)

/-- The state transition of one public operation.  `none` means the
operation aborts the process: on an unattributable SIGBUS, or on the
`assert(f)`-style assertions — the fd-taking entry points require a live
registered handle. -/
def stepSt (k : Nat) (op : CacheOp) (s : MMapCache) : Option MMapCache :=
  match op with
  | CacheOp.get fdk ctx keep_always offset size st ctx_ok win_ok mres =>
    if (alookup s.fds fdk).isSome then
      if ctx < MMAP_CACHE_MAX_CONTEXTS then
        some (mmap_cache_fd_get k s fdk ctx keep_always offset size st
          ⟨ctx_ok, win_ok, mres⟩).2.2
      else none
    else none
  | CacheOp.addFd fd prot o => some (mmap_cache_add_fd s fd prot o).2
  | CacheOp.fdFree fdk queue =>
    if (alookup s.fds fdk).isSome then mmap_cache_fd_free s fdk queue
    else none
  | CacheOp.gotSigbus fdk queue =>
    if (alookup s.fds fdk).isSome then
      (mmap_cache_fd_got_sigbus s fdk queue).map Prod.snd
    else none


/-! ### Well-formedness and the cache invariants -/

/-- The keys of an association list. -/
def akeys {α : Type} (l : List (Nat × α)) : List Nat := l.map Prod.fst

/-- A context's back-edge is coherent: if it holds a window id, that
window is live and lists the context in its `by_window` list. -/
def ctx_ok_in (s : MMapCache) (cid : Nat) (c : Context) : Bool :=
  match c.window with
  | none => true
  | some wid =>
    match alookup s.windows wid with
    | none => false
    | some w => decide (cid ∈ w.contexts)

/-- A window's owner is coherent: its fd is registered and lists the
window in its `by_fd` list. -/
def win_fd_ok (s : MMapCache) (wid : Nat) (w : Window) : Bool :=
  match alookup s.fds w.fd with
  | none => false
  | some f => decide (wid ∈ f.windows)

/-- Well-formedness of a cache state: the structural bookkeeping the C
code maintains with its intrusive lists and assertions. -/
structure WF (s : MMapCache) : Prop where
  nodup_w : (akeys s.windows).Nodup
  nodup_f : (akeys s.fds).Nodup
  nodup_c : (akeys s.contexts).Nodup
  nodup_u : s.unused.Nodup
  unused_mem : ∀ wid ∈ s.unused,
    (alookup s.windows wid).map Window.in_unused = some true
  flag_unused : ∀ p ∈ s.windows, p.2.in_unused = true → p.1 ∈ s.unused
  wc_nodup : ∀ p ∈ s.windows, p.2.contexts.Nodup
  wc_back : ∀ p ∈ s.windows, ∀ cid ∈ p.2.contexts,
    (alookup s.contexts cid).map Context.window = some (some p.1)
  c_id : ∀ q ∈ s.contexts, q.2.id = q.1
  c_lt : ∀ q ∈ s.contexts, q.1 < MMAP_CACHE_MAX_CONTEXTS
  c_back : ∀ q ∈ s.contexts, ctx_ok_in s q.1 q.2 = true
  w_fd : ∀ p ∈ s.windows, win_fd_ok s p.1 p.2 = true
  f_fd : ∀ q ∈ s.fds, q.2.fd = q.1
  f_nodup : ∀ q ∈ s.fds, q.2.windows.Nodup
  f_back : ∀ q ∈ s.fds, ∀ wid ∈ q.2.windows,
    (alookup s.windows wid).map Window.fd = some q.1
  fresh : ∀ p ∈ s.windows, p.1 < s.next_wid
  count : s.n_windows = s.windows.length

/-- The unused-list invariant (C7): a window sits on the unused list iff
it has no attached contexts and is not pinned. -/
def Inv (s : MMapCache) : Prop :=
  ∀ p ∈ s.windows,
    p.1 ∈ s.unused ↔ (p.2.contexts = [] ∧ p.2.keep_always = false)

/-- The unused-list invariant away from one (freshly added) window id. -/
def InvExcept (s : MMapCache) (x : Nat) : Prop :=
  ∀ p ∈ s.windows, p.1 ≠ x →
    (p.1 ∈ s.unused ↔ (p.2.contexts = [] ∧ p.2.keep_always = false))

/-- One direction of the unused-list invariant: every window on the unused
list has no attached contexts and is unpinned. -/
def UC (s : MMapCache) : Prop :=
  ∀ x ∈ s.unused, ∀ w, alookup s.windows x = some w →
    w.contexts = [] ∧ w.keep_always = false

/-- Pointwise transfer of the unused-list invariant along a state change:
every window of the new state either satisfies the invariant outright, or
is untouched (same record, same unused-membership). -/
def PInv (s s' : MMapCache) : Prop :=
  ∀ x w', alookup s'.windows x = some w' →
    (x ∈ s'.unused ↔ (w'.contexts = [] ∧ w'.keep_always = false)) ∨
    (∃ w, alookup s.windows x = some w ∧ w.contexts = w'.contexts ∧
      w.keep_always = w'.keep_always ∧ (x ∈ s'.unused ↔ x ∈ s.unused))

/-- The sigbus invariant (C2): every window of a poisoned fd has been
invalidated. -/
def SigbusInv (s : MMapCache) : Prop :=
  ∀ q ∈ s.fds, q.2.sigbus = true → ∀ wid ∈ q.2.windows,
    (alookup s.windows wid).map Window.invalidated = some true

/-! ### Concrete states used by the witnesses -/

/-- A registered fd (fd number 3, PROT 1) owning window 0. -/
def exFd : MMapFileDescriptor := ⟨3, 1, false, [0]⟩

/-- A pinned window of fd 3, attached to context 0. -/
def exWin : Window := ⟨3, false, true, false, 4096, 0, 8388608, [0]⟩

/-- A cache with one fd, one pinned window, one context. -/
def exCache : MMapCache :=
  ⟨1, 0, 0, 0, [(3, exFd)], [(0, ⟨0, some 0⟩)], [(0, exWin)], 1, [],
    [(4096, 8388608)]⟩

/-- `exCache` with fd 3 poisoned and window 0 invalidated. -/
def exCacheP : MMapCache :=
  ⟨1, 0, 0, 0, [(3, ⟨3, 1, true, [0]⟩)], [(0, ⟨0, some 0⟩)],
    [(0, ⟨3, true, true, false, 4096, 0, 8388608, [0]⟩)], 1, [],
    [(4096, 8388608)]⟩

/-- An empty cache. -/
def exEmpty : MMapCache := ⟨0, 0, 0, 0, [], [], [], 0, [], []⟩

/-- The cache obtained by registering fd 3 with prot 1 in `exEmpty`. -/
def exReg : MMapCache :=
  ⟨0, 0, 0, 0, [(3, ⟨3, 1, false, []⟩)], [], [], 0, [], []⟩

/-- All live window ids are below the fresh-id counter. -/
def AF (s : MMapCache) : Prop := ∀ p ∈ s.windows, p.1 < s.next_wid

/-- One internal step of the fd registry: every fd key keeps its sigbus
flag unchanged, or is present and has its flag (newly) set.  No key is
added or removed by such a step. -/
def FStep (s s' : MMapCache) : Prop :=
  ∀ x, ((alookup s'.fds x).map MMapFileDescriptor.sigbus =
          (alookup s.fds x).map MMapFileDescriptor.sigbus) ∨
    ((alookup s.fds x).isSome ∧
      (alookup s'.fds x).map MMapFileDescriptor.sigbus = some true)

/-- One internal step of the window heap: the fresh-id counter does not
decrease, freshness is preserved, and every window id keeps its pin
unchanged, or has its pin (newly) set, or is freed, or is a freshly
allocated id (at or above the old counter). -/
def WStep (s s' : MMapCache) : Prop :=
  s.next_wid ≤ s'.next_wid ∧ (AF s → AF s') ∧
  ∀ x, ((alookup s'.windows x).map Window.keep_always =
          (alookup s.windows x).map Window.keep_always) ∨
    ((alookup s'.windows x).map Window.keep_always = some true) ∨
    (alookup s'.windows x = none) ∨
    (alookup s.windows x = none ∧ s.next_wid ≤ x)

/-- Run a sequence of public operations from a starting state (`none` as
soon as one operation aborts). -/
def runOps (k : Nat) (ops : List CacheOp) (s : MMapCache) :
    Option MMapCache :=
  ops.foldl (fun os op => os.bind (stepSt k op)) (some s)

/-! ## Theorems -/

/-! ### Arithmetic facts about the page mask -/

theorem testBit_two_pow_mul (k a i : Nat) :
    (2 ^ k * a).testBit i = (decide (k ≤ i) && a.testBit (i - k)) := by
  rw [Nat.mul_comm, ← Nat.shiftLeft_eq, Nat.testBit_shiftLeft]

theorem testBit_div_two_pow (k x i : Nat) :
    (x / 2 ^ k).testBit i = x.testBit (k + i) := by
  rw [← Nat.shiftRight_eq_div_pow, Nat.testBit_shiftRight]

theorem not64_mask (k : Nat) (hk : k ≤ 64) :
    not64 (page_size k - 1) = 2 ^ k * (2 ^ (64 - k) - 1) := by
  apply Nat.eq_of_testBit_eq
  intro i
  have h1 : U64 - 1 = 2 ^ 64 - 1 := rfl
  have h2 : page_size k - 1 = 2 ^ k - 1 := rfl
  rw [not64, h1, h2, Nat.testBit_xor, Nat.testBit_two_pow_sub_one,
    Nat.testBit_two_pow_sub_one, testBit_two_pow_mul,
    Nat.testBit_two_pow_sub_one]
  rcases lt_or_le i k with h | h
  · simp [Nat.not_le_of_lt h, h, Nat.lt_of_lt_of_le h hk]
  · rcases lt_or_le i 64 with h' | h'
    · simp [h', Nat.not_lt_of_le h, h]
      omega
    · simp only [Nat.not_lt_of_le h', Nat.not_lt_of_le (le_trans hk h'),
        decide_eq_false_iff_not, not_lt]
      simp [Nat.not_lt_of_le h', Nat.not_lt_of_le (le_trans hk h'), h]
      omega

theorem and_mask_eq (k x : Nat) (hk : k ≤ 64) (hx : x < U64) :
    x &&& not64 (page_size k - 1) = 2 ^ k * (x / 2 ^ k) := by
  rw [not64_mask k hk]
  apply Nat.eq_of_testBit_eq
  intro i
  rw [Nat.testBit_and, testBit_two_pow_mul, Nat.testBit_two_pow_sub_one,
    testBit_two_pow_mul, testBit_div_two_pow]
  rcases lt_or_le i k with h | h
  · simp [Nat.not_le_of_lt h]
  · have hik : k + (i - k) = i := by omega
    rcases lt_or_le i 64 with h' | h'
    · simp [h, hik]
      omega
    · have hxb : x.testBit i = false :=
        Nat.testBit_eq_false_of_lt
          (lt_of_lt_of_le hx (Nat.pow_le_pow_right (by norm_num) h'))
      simp [h, hik, hxb]

theorem page_floor_eq (k x : Nat) (hk : k ≤ 64) (hx : x < U64) :
    page_floor k x = 2 ^ k * (x / 2 ^ k) :=
  and_mask_eq k x hk hx

theorem PAGE_ALIGN_eq (k x : Nat) (hk : k ≤ 64) (hx : x + 2 ^ k ≤ U64) :
    PAGE_ALIGN k x = 2 ^ k * ((x + (2 ^ k - 1)) / 2 ^ k) := by
  have hP : 0 < 2 ^ k := Nat.pos_pow_of_pos k (by norm_num)
  have hps : page_size k = 2 ^ k := rfl
  have h1 : (x + (page_size k - 1)) % U64 = x + (2 ^ k - 1) := by
    apply Nat.mod_eq_of_lt
    omega
  rw [PAGE_ALIGN, h1, and_mask_eq k _ hk (by omega)]

/-- `PAGE_ALIGN` rounds up to a multiple of the page size: its result is a
multiple of `2^k`, at least `x`, and less than `x + 2^k`. -/
theorem PAGE_ALIGN_spec (k x : Nat) (hk : k ≤ 64) (hx : x + 2 ^ k ≤ U64) :
    2 ^ k ∣ PAGE_ALIGN k x ∧ x ≤ PAGE_ALIGN k x ∧ PAGE_ALIGN k x < x + 2 ^ k := by
  have hP : 0 < 2 ^ k := Nat.pos_pow_of_pos k (by norm_num)
  rw [PAGE_ALIGN_eq k x hk hx]
  have hdm := Nat.div_add_mod (x + (2 ^ k - 1)) (2 ^ k)
  have hmlt : (x + (2 ^ k - 1)) % 2 ^ k < 2 ^ k := Nat.mod_lt _ hP
  exact ⟨Dvd.intro _ rfl, by omega, by omega⟩

theorem PAGE_ALIGN_of_dvd (k x : Nat) (hk : k ≤ 64) (hx : x + 2 ^ k ≤ U64)
    (hd : 2 ^ k ∣ x) : PAGE_ALIGN k x = x := by
  obtain ⟨c, rfl⟩ := hd
  rw [PAGE_ALIGN_eq k _ hk hx]
  have hP : 0 < 2 ^ k := Nat.pos_pow_of_pos k (by norm_num)
  rw [Nat.mul_add_div hP]
  have h0 : (2 ^ k - 1) / 2 ^ k = 0 := Nat.div_eq_of_lt (by omega)
  rw [h0, Nat.add_zero]

/-- Helper: under the in-range side conditions, the code's bitwise geometry
prefix reduces to plain arithmetic. -/
theorem geometry_prefix_eq (k offset size : Nat) (hk : k ≤ 62)
    (ho : offset < 2 ^ 62) (hs : size < 2 ^ 62) :
    page_floor k offset = offset - offset % 2 ^ k ∧
    PAGE_ALIGN k ((size + (offset - page_floor k offset)) % U64) =
      2 ^ k * ((size + offset % 2 ^ k + (2 ^ k - 1)) / 2 ^ k) := by
  have hP : 0 < 2 ^ k := Nat.pos_pow_of_pos k (by norm_num)
  have hk64 : k ≤ 64 := by omega
  have hpk : (2 : Nat) ^ k ≤ 2 ^ 62 := Nat.pow_le_pow_right (by norm_num) hk
  have hU : (2 : Nat) ^ 62 < U64 := by
    show (2 : Nat) ^ 62 < 2 ^ 64
    norm_num
  have h1 : page_floor k offset = 2 ^ k * (offset / 2 ^ k) :=
    page_floor_eq k offset hk64 (by omega)
  have h2 : page_floor k offset = offset - offset % 2 ^ k := by
    rw [h1]
    have := Nat.div_add_mod offset (2 ^ k)
    omega
  refine ⟨h2, ?_⟩
  have h3 : offset - page_floor k offset = offset % 2 ^ k := by
    rw [h2]
    have := Nat.mod_le offset (2 ^ k)
    omega
  have h4 : offset % 2 ^ k < 2 ^ k := Nat.mod_lt _ hP
  have h5 : (size + (offset - page_floor k offset)) % U64 =
      size + offset % 2 ^ k := by
    rw [h3]
    apply Nat.mod_eq_of_lt
    show size + offset % 2 ^ k < 2 ^ 64
    calc size + offset % 2 ^ k < 2 ^ 62 + 2 ^ 62 := by omega
    _ ≤ 2 ^ 64 := by norm_num
  rw [h5, PAGE_ALIGN_eq k _ hk64]
  show size + offset % 2 ^ k + 2 ^ k ≤ 2 ^ 64
  have h6 : (2 : Nat) ^ 62 + 2 ^ 62 + 2 ^ 62 ≤ 2 ^ 64 := by norm_num
  omega

/-- C4. For every request `(offset, size)` on the allocate path, the window
geometry is computed exactly as the spec states: `woffset` is `offset`
floored to a page boundary; `wsize = PAGE_ALIGN(size + (offset - woffset))`;
if `wsize < WINDOW_SIZE` then `delta = PAGE_ALIGN((WINDOW_SIZE - wsize)/2)`,
`woffset := 0` if `delta > offset` else `woffset - delta`, and
`wsize := WINDOW_SIZE`; with a stat hint the call fails with
`-EADDRNOTAVAIL` iff `woffset ≥ file size`, and otherwise `wsize` is clamped
to `PAGE_ALIGN(file_size - woffset)` exactly when `woffset + wsize` would
exceed the file size. -/
theorem C4_window_geometry (k offset size : Nat) (st : Option Nat)
    (P woff0 wsz0 delta woff wsz : Nat)
    (hk : k ≤ 62) (ho : offset < 2 ^ 62) (hs : size < 2 ^ 62)
    (hst : ∀ fsize, st = some fsize → fsize < 2 ^ 62)
    (hP : P = 2 ^ k)
    (hw0 : woff0 = offset - offset % P)
    (hz0 : wsz0 = P * ((size + offset % P + (P - 1)) / P))
    (hd : delta = P * (((WINDOW_SIZE - wsz0) / 2 + (P - 1)) / P))
    (hwz : (woff, wsz) = if wsz0 < WINDOW_SIZE
             then ((if delta > offset then 0 else woff0 - delta), WINDOW_SIZE)
             else (woff0, wsz0)) :
    (st = none → add_mmap_geometry k offset size st = Except.ok (woff, wsz)) ∧
    (∀ fsize, st = some fsize →
      ((add_mmap_geometry k offset size st = Except.error (-EADDRNOTAVAIL)) ↔
        fsize ≤ woff) ∧
      (woff < fsize → add_mmap_geometry k offset size st =
        Except.ok (woff, if fsize < woff + wsz
                         then P * ((fsize - woff + (P - 1)) / P)
                         else wsz))) := by
  subst hP
  have hPpos : 0 < 2 ^ k := Nat.pos_pow_of_pos k (by norm_num)
  have hk64 : k ≤ 64 := by omega
  have hpk : (2 : Nat) ^ k ≤ 2 ^ 62 := Nat.pow_le_pow_right (by norm_num) hk
  obtain ⟨hfl, hpa⟩ := geometry_prefix_eq k offset size hk ho hs
  -- the code's delta equals the arithmetic delta
  have hdelta_code : PAGE_ALIGN k ((WINDOW_SIZE - wsz0) / 2) = delta := by
    rw [hd, PAGE_ALIGN_eq k _ hk64]
    show (WINDOW_SIZE - wsz0) / 2 + 2 ^ k ≤ 2 ^ 64
    have h1 : (WINDOW_SIZE - wsz0) / 2 ≤ WINDOW_SIZE := by
      have := Nat.div_le_self (WINDOW_SIZE - wsz0) 2
      have : WINDOW_SIZE - wsz0 ≤ WINDOW_SIZE := Nat.sub_le _ _
      omega
    have : WINDOW_SIZE = 8 * 1024 * 1024 := rfl
    omega
  -- bounds on the computed pair
  have hwoff0_le : woff0 ≤ offset := by
    rw [hw0]
    omega
  have hwsz0_lt : wsz0 < 2 ^ 62 + 2 ^ 62 + 2 ^ 62 := by
    rw [hz0]
    have h1 : size + offset % 2 ^ k + (2 ^ k - 1) < 2 ^ 62 + 2 ^ 62 + 2 ^ 62 := by
      have := Nat.mod_lt offset hPpos
      omega
    calc 2 ^ k * ((size + offset % 2 ^ k + (2 ^ k - 1)) / 2 ^ k) ≤
          size + offset % 2 ^ k + (2 ^ k - 1) := by
          rw [Nat.mul_comm]
          exact Nat.div_mul_le_self _ _
    _ < 2 ^ 62 + 2 ^ 62 + 2 ^ 62 := h1
  have hwoff_le : woff ≤ offset ∧ (wsz = WINDOW_SIZE ∨ wsz = wsz0) := by
    rcases lt_or_le wsz0 WINDOW_SIZE with h | h
    · rw [if_pos h] at hwz
      rcases lt_or_le offset delta with h' | h'
      · rw [if_pos h'] at hwz
        exact ⟨by simp [Prod.ext_iff] at hwz; omega, Or.inl (by simp [Prod.ext_iff] at hwz; omega)⟩
      · rw [if_neg (Nat.not_lt_of_le h')] at hwz
        refine ⟨?_, Or.inl (by simp [Prod.ext_iff] at hwz; omega)⟩
        simp [Prod.ext_iff] at hwz
        omega
    · rw [if_neg (Nat.not_lt_of_le h)] at hwz
      simp [Prod.ext_iff] at hwz
      exact ⟨by omega, Or.inr (by omega)⟩
  have hWS : WINDOW_SIZE = 8 * 1024 * 1024 := rfl
  have hsum_lt : woff + wsz < 2 ^ 64 := by
    obtain ⟨h1, h2⟩ := hwoff_le
    have h62 : (2 : Nat) ^ 62 + (2 ^ 62 + 2 ^ 62 + 2 ^ 62) ≤ 2 ^ 64 := by norm_num
    rcases h2 with h2 | h2 <;> omega
  -- the code's pair equals (woff, wsz)
  have hpa' : PAGE_ALIGN k ((size + (offset - page_floor k offset)) % U64) = wsz0 := by
    rw [hpa, hz0]
  have hpair : add_mmap_pair k offset size = (woff, wsz) := by
    show (let woffset := page_floor k offset
          let wsize := PAGE_ALIGN k ((size + (offset - woffset)) % U64)
          if wsize < WINDOW_SIZE then
            let delta := PAGE_ALIGN k ((WINDOW_SIZE - wsize) / 2)
            ((if delta > offset then 0 else woffset - delta), WINDOW_SIZE)
          else (woffset, wsize)) = (woff, wsz)
    simp only
    rw [hpa', hdelta_code, hfl, ← hw0, hwz]
  constructor
  · intro hnone
    subst hnone
    rw [add_mmap_geometry]
    simp [hpair]
  · intro fsize hsome
    subst hsome
    have hf : fsize < 2 ^ 62 := hst fsize rfl
    have hsum_mod : (woff + wsz) % U64 = woff + wsz := Nat.mod_eq_of_lt hsum_lt
    have hclamp : PAGE_ALIGN k (fsize - woff) =
        2 ^ k * ((fsize - woff + (2 ^ k - 1)) / 2 ^ k) := by
      rw [PAGE_ALIGN_eq k _ hk64]
      show fsize - woff + 2 ^ k ≤ 2 ^ 64
      calc fsize - woff + 2 ^ k ≤ 2 ^ 62 + 2 ^ 62 := by omega
      _ ≤ 2 ^ 64 := by norm_num
    constructor
    · rw [add_mmap_geometry]
      simp only [hpair]
      rcases le_or_lt fsize woff with h | h
      · rw [if_pos h]
        simp [h]
      · rw [if_neg (Nat.not_le_of_lt h)]
        constructor
        · intro hcontra
          exfalso
          rcases lt_or_le fsize ((woff + wsz) % U64) with h' | h'
          · rw [if_pos h'] at hcontra
            exact absurd hcontra (by simp)
          · rw [if_neg (Nat.not_lt_of_le h')] at hcontra
            exact absurd hcontra (by simp)
        · intro h''
          omega
    · intro h
      rw [add_mmap_geometry]
      simp only [hpair]
      rw [if_neg (Nat.not_le_of_lt h), hsum_mod]
      rcases lt_or_le fsize (woff + wsz) with h' | h'
      · rw [if_pos h', if_pos h', hclamp]
      · rw [if_neg (Nat.not_lt_of_le h'), if_neg (Nat.not_lt_of_le h')]

/-- Witness for C4 at a concrete input: page size `2^12`, request
`(offset 5000, size 100)` against a 20000-byte file expands to a full
window anchored at 0 and is then clamped to `PAGE_ALIGN(20000)`. -/
theorem C4_window_geometry_witness :
    add_mmap_geometry 12 5000 100 (some 20000) = Except.ok (0, 20480) := by
  have h := C4_window_geometry 12 5000 100 (some 20000)
    4096 4096 4096 4194304 0 WINDOW_SIZE
    (by norm_num) (by norm_num) (by norm_num)
    (by intro fsize hf
        cases hf
        norm_num)
    (by norm_num) (by decide) (by decide) (by decide) (by decide)
  have h2 := (h.2 20000 rfl).2 (by decide)
  rw [h2]
  norm_num [WINDOW_SIZE]

/-- C9. In the window-expansion step of the allocate path, when the
else-branch is taken (`delta ≤ offset`), the unsigned subtraction
`woffset - delta` does not wrap: `delta ≤ woffset`; the resulting offset is
still page-aligned; and the expanded window
`[woffset - delta, woffset - delta + WINDOW_SIZE)` still contains the
original `[woffset, woffset + wsize)` range. -/
theorem C9_expansion_no_wrap (k offset size woff0 wsz0 delta : Nat)
    (hk : k ≤ 23) (ho : offset < 2 ^ 62) (hs : size < 2 ^ 62)
    (hw0 : woff0 = page_floor k offset)
    (hz0 : wsz0 = PAGE_ALIGN k ((size + (offset - woff0)) % U64))
    (hsmall : wsz0 < WINDOW_SIZE)
    (hd : delta = PAGE_ALIGN k ((WINDOW_SIZE - wsz0) / 2))
    (hdo : delta ≤ offset) :
    delta ≤ woff0 ∧ 2 ^ k ∣ (woff0 - delta) ∧ woff0 - delta ≤ woff0 ∧
      woff0 + wsz0 ≤ (woff0 - delta) + WINDOW_SIZE := by
  have hPpos : 0 < 2 ^ k := Nat.pos_pow_of_pos k (by norm_num)
  have hk62 : k ≤ 62 := by omega
  have hk64 : k ≤ 64 := by omega
  have hWS : WINDOW_SIZE = 2 ^ 23 := by norm_num [WINDOW_SIZE]
  have hdvdWS : 2 ^ k ∣ WINDOW_SIZE := by
    rw [hWS]
    exact pow_dvd_pow 2 hk
  obtain ⟨hfl, hpa⟩ := geometry_prefix_eq k offset size hk62 ho hs
  -- arithmetic forms
  have hw0' : woff0 = 2 ^ k * (offset / 2 ^ k) := by
    rw [hw0, page_floor_eq k offset hk64]
    calc offset < 2 ^ 62 := ho
    _ < U64 := by norm_num [U64]
  have hz0' : wsz0 = 2 ^ k * ((size + offset % 2 ^ k + (2 ^ k - 1)) / 2 ^ k) := by
    rw [hz0, hw0, hpa]
  have hdvd_w : 2 ^ k ∣ woff0 := hw0' ▸ Dvd.intro _ rfl
  have hdvd_z : 2 ^ k ∣ wsz0 := hz0' ▸ Dvd.intro _ rfl
  have hdvd_d : 2 ^ k ∣ delta := by
    rw [hd, PAGE_ALIGN_eq k _ hk64]
    · exact Dvd.intro _ rfl
    · have h1 : (WINDOW_SIZE - wsz0) / 2 ≤ WINDOW_SIZE := by
        have h2 := Nat.div_le_self (WINDOW_SIZE - wsz0) 2
        have h3 : WINDOW_SIZE - wsz0 ≤ WINDOW_SIZE := Nat.sub_le _ _
        omega
      have h4 : (2 : Nat) ^ k ≤ 2 ^ 23 := Nat.pow_le_pow_right (by norm_num) hk
      rw [hWS] at h1
      show (WINDOW_SIZE - wsz0) / 2 + 2 ^ k ≤ 2 ^ 64
      have h5 : (2 : Nat) ^ 23 + 2 ^ 23 ≤ 2 ^ 64 := by norm_num
      omega
  -- delta ≤ WINDOW_SIZE - wsz0
  have hdD : delta ≤ WINDOW_SIZE - wsz0 := by
    set D := WINDOW_SIZE - wsz0 with hD
    have hDdvd : 2 ^ k ∣ D := Nat.dvd_sub' hdvdWS hdvd_z
    have hDpos : 0 < D := by omega
    have hDP : 2 ^ k ≤ D := Nat.le_of_dvd hDpos hDdvd
    have hrange : D / 2 + 2 ^ k ≤ 2 ^ 64 := by
      have h1 : D ≤ WINDOW_SIZE := Nat.sub_le _ _
      have h2 := Nat.div_le_self D 2
      have h4 : (2 : Nat) ^ k ≤ 2 ^ 23 := Nat.pow_le_pow_right (by norm_num) hk
      have h5 : WINDOW_SIZE + 2 ^ 23 ≤ 2 ^ 64 := by norm_num [WINDOW_SIZE]
      omega
    rw [hd, PAGE_ALIGN_eq k _ hk64 hrange]
    obtain ⟨m, hm⟩ := hDdvd
    have hq : D / 2 + (2 ^ k - 1) < (D / 2 ^ k + 1) * 2 ^ k := by
      have h1 : 2 ^ k * (D / 2 ^ k) = D := by
        rw [hm, Nat.mul_div_cancel_left _ hPpos]
      have h1' : (D / 2 ^ k + 1) * 2 ^ k = D + 2 ^ k := by
        rw [Nat.add_mul, Nat.one_mul, Nat.mul_comm (D / 2 ^ k) (2 ^ k), h1]
      have h2 := Nat.div_le_self D 2
      omega
    have h3 : (D / 2 + (2 ^ k - 1)) / 2 ^ k ≤ D / 2 ^ k :=
      Nat.lt_succ_iff.mp ((Nat.div_lt_iff_lt_mul hPpos).mpr hq)
    calc 2 ^ k * ((D / 2 + (2 ^ k - 1)) / 2 ^ k) ≤ 2 ^ k * (D / 2 ^ k) :=
          Nat.mul_le_mul_left _ h3
    _ = D := by
          rw [hm, Nat.mul_div_cancel_left _ hPpos]
  -- delta ≤ woff0
  have hdw : delta ≤ woff0 := by
    obtain ⟨d, hdd⟩ := hdvd_d
    have h1 : d ≤ offset / 2 ^ k := by
      rw [Nat.le_div_iff_mul_le hPpos]
      calc d * 2 ^ k = 2 ^ k * d := Nat.mul_comm _ _
      _ ≤ offset := hdd ▸ hdo
    rw [hw0', hdd]
    exact Nat.mul_le_mul_left _ h1
  exact ⟨hdw, Nat.dvd_sub' hdvd_w hdvd_d, Nat.sub_le _ _, by omega⟩

/-- Witness for C9 at a concrete input (`k = 12`, `offset = 2^22`,
`size = 100`): the expansion branch subtracts `delta` without wrapping. -/
theorem C9_expansion_no_wrap_witness :
    4194304 ≤ 4194304 ∧ 2 ^ 12 ∣ (4194304 - 4194304) ∧
      4194304 - 4194304 ≤ 4194304 ∧
      4194304 + 4096 ≤ (4194304 - 4194304) + WINDOW_SIZE :=
  C9_expansion_no_wrap 12 4194304 100 4194304 4096 4194304
    (by norm_num) (by norm_num) (by norm_num)
    (by decide) (by decide) (by decide) (by decide) (by decide)

/-! ### Association-list lemmas -/

section Assoc

variable {α : Type}

theorem mapIf_eq_map_snd (P : Nat → Prop) [DecidablePred P] (g : α → α) :
    (fun p : Nat × α => if P p.1 then (p.1, g p.2) else p) =
      fun p : Nat × α => (p.1, if P p.1 then g p.2 else p.2) := by
  funext p
  by_cases hp : P p.1 <;> simp [hp]

theorem alookup_map_snd (l : List (Nat × α)) (h : Nat → α → α) (key : Nat) :
    alookup (l.map fun p => (p.1, h p.1 p.2)) key =
      (alookup l key).map (h key) := by
  induction l with
  | nil => simp [alookup]
  | cons hd tl ih =>
    obtain ⟨a, b⟩ := hd
    by_cases hak : a = key
    · subst hak
      simp [alookup]
    · simp [alookup, hak, ih]

theorem alookup_mapIf (l : List (Nat × α)) (P : Nat → Prop) [DecidablePred P]
    (g : α → α) (key : Nat) :
    alookup (l.map fun p => if P p.1 then (p.1, g p.2) else p) key =
      if P key then (alookup l key).map g else alookup l key := by
  rw [mapIf_eq_map_snd]
  have h := alookup_map_snd l (fun k v => if P k then g v else v) key
  simp only at h
  rw [h]
  by_cases hp : P key <;> cases halk : alookup l key <;> simp [hp]

theorem aupd_eq_mapIf (l : List (Nat × α)) (key : Nat) (g : α → α) :
    aupd l key g = l.map fun p => if p.1 = key then (p.1, g p.2) else p := rfl

theorem alookup_aupd (l : List (Nat × α)) (key : Nat) (g : α → α) (k' : Nat) :
    alookup (aupd l key g) k' =
      if k' = key then (alookup l k').map g else alookup l k' := by
  rw [aupd_eq_mapIf]
  exact alookup_mapIf l (fun x => x = key) g k'

theorem alookup_aupd_self (l : List (Nat × α)) (key : Nat) (g : α → α) :
    alookup (aupd l key g) key = (alookup l key).map g := by
  rw [alookup_aupd, if_pos rfl]

theorem alookup_aupd_other (l : List (Nat × α)) (key : Nat) (g : α → α)
    (k' : Nat) (h : k' ≠ key) :
    alookup (aupd l key g) k' = alookup l k' := by
  rw [alookup_aupd, if_neg h]

theorem aerase_cons (a : Nat) (b : α) (tl : List (Nat × α)) (key : Nat) :
    aerase ((a, b) :: tl) key =
      if a = key then aerase tl key else (a, b) :: aerase tl key := by
  show List.filter _ ((a, b) :: tl) = _
  rw [List.filter_cons]
  by_cases hak : a = key
  · rw [if_pos hak, if_neg (by simp [hak])]
    rfl
  · rw [if_neg hak, if_pos (by simp [hak])]
    rfl

theorem alookup_aerase (l : List (Nat × α)) (key k' : Nat) :
    alookup (aerase l key) k' = if k' = key then none else alookup l k' := by
  induction l with
  | nil => by_cases h : k' = key <;> simp [alookup, aerase, h]
  | cons hd tl ih =>
    obtain ⟨a, b⟩ := hd
    rw [aerase_cons]
    by_cases hak : a = key
    · rw [if_pos hak, ih]
      by_cases hkk : k' = key
      · rw [if_pos hkk, if_pos hkk]
      · rw [if_neg hkk, if_neg hkk]
        have hk : a ≠ k' := by
          intro hc
          exact hkk (hc ▸ hak ▸ rfl)
        simp [alookup, hk]
    · rw [if_neg hak]
      show (if a = k' then some b else alookup (aerase tl key) k') = _
      rw [ih]
      by_cases hk : a = k'
      · subst hk
        rw [if_pos rfl, if_neg (fun hc => hak hc)]
        simp [alookup]
      · rw [if_neg hk]
        by_cases hkk : k' = key
        · rw [if_pos hkk, if_pos hkk]
        · rw [if_neg hkk, if_neg hkk]
          simp [alookup, hk]

theorem akeys_map_snd (l : List (Nat × α)) (h : Nat → α → α) :
    akeys (l.map fun p => (p.1, h p.1 p.2)) = akeys l := by
  induction l with
  | nil => rfl
  | cons hd tl ih =>
    show hd.1 :: akeys (tl.map fun p => (p.1, h p.1 p.2)) = hd.1 :: akeys tl
    rw [ih]

theorem akeys_mapIf (l : List (Nat × α)) (P : Nat → Prop) [DecidablePred P]
    (g : α → α) :
    akeys (l.map fun p => if P p.1 then (p.1, g p.2) else p) = akeys l := by
  rw [mapIf_eq_map_snd]
  have h := akeys_map_snd l (fun k v => if P k then g v else v)
  simpa only using h

theorem akeys_aupd (l : List (Nat × α)) (key : Nat) (g : α → α) :
    akeys (aupd l key g) = akeys l := by
  rw [aupd_eq_mapIf]
  exact akeys_mapIf l (fun x => x = key) g

theorem mem_akeys (l : List (Nat × α)) (key : Nat) :
    key ∈ akeys l ↔ (alookup l key).isSome := by
  induction l with
  | nil => simp [akeys, alookup]
  | cons hd tl ih =>
    obtain ⟨a, b⟩ := hd
    show key ∈ a :: akeys tl ↔ _
    rw [List.mem_cons]
    by_cases hak : a = key
    · subst hak
      simp [alookup]
    · have h1 : ¬ key = a := fun hc => hak hc.symm
      simp only [alookup, if_neg hak, h1, false_or]
      exact ih

theorem akeys_aerase (l : List (Nat × α)) (key : Nat) :
    akeys (aerase l key) = (akeys l).filter (fun x => x ≠ key) := by
  induction l with
  | nil => rfl
  | cons hd tl ih =>
    obtain ⟨a, b⟩ := hd
    rw [aerase_cons]
    show _ = List.filter _ (a :: akeys tl)
    rw [List.filter_cons]
    by_cases hak : a = key
    · rw [if_pos hak, if_neg (by simp [hak])]
      exact ih
    · rw [if_neg hak, if_pos (by simp [hak])]
      show a :: akeys (aerase tl key) = _
      rw [ih]

theorem nodup_akeys_aerase (l : List (Nat × α)) (key : Nat)
    (h : (akeys l).Nodup) : (akeys (aerase l key)).Nodup := by
  rw [akeys_aerase]
  exact h.filter _

theorem alookup_eq_some_mem (l : List (Nat × α)) (key : Nat) (v : α)
    (h : alookup l key = some v) : (key, v) ∈ l := by
  induction l with
  | nil => simp [alookup] at h
  | cons hd tl ih =>
    obtain ⟨a, b⟩ := hd
    by_cases hak : a = key
    · subst hak
      simp [alookup] at h
      simp [h]
    · simp only [alookup, if_neg hak] at h
      exact List.mem_cons_of_mem _ (ih h)

theorem mem_alookup (l : List (Nat × α)) (key : Nat) (v : α)
    (hnd : (akeys l).Nodup) (h : (key, v) ∈ l) : alookup l key = some v := by
  induction l with
  | nil => simp at h
  | cons hd tl ih =>
    obtain ⟨a, b⟩ := hd
    have hnd2 : (a :: akeys tl).Nodup := hnd
    have hna : a ∉ akeys tl := (List.nodup_cons.mp hnd2).1
    have hnd3 : (akeys tl).Nodup := (List.nodup_cons.mp hnd2).2
    rcases List.mem_cons.mp h with h | h
    · cases h
      simp [alookup]
    · have hak : a ≠ key := by
        intro hc
        subst hc
        exact hna (List.mem_map_of_mem Prod.fst h)
      simp only [alookup, if_neg hak]
      exact ih hnd3 h

theorem alookup_isSome_of_mem (l : List (Nat × α)) (p : Nat × α)
    (h : p ∈ l) : (alookup l p.1).isSome := by
  induction l with
  | nil => simp at h
  | cons hd tl ih =>
    obtain ⟨a, b⟩ := hd
    rcases List.mem_cons.mp h with h | h
    · subst h
      simp [alookup]
    · by_cases hak : a = p.1 <;> simp [alookup, hak, ih h]

end Assoc

/-! ### Frame lemmas: which state components each primitive leaves alone -/

theorem unlink_windows (s : MMapCache) (wid : Nat) :
    (window_unlink s wid).windows = s.windows := by
  unfold window_unlink
  repeat' first
  | rfl
  | split
  | dsimp only

theorem unlink_next_wid (s : MMapCache) (wid : Nat) :
    (window_unlink s wid).next_wid = s.next_wid := by
  unfold window_unlink
  repeat' first
  | rfl
  | split
  | dsimp only

theorem unlink_n_windows (s : MMapCache) (wid : Nat) :
    (window_unlink s wid).n_windows = s.n_windows := by
  unfold window_unlink
  repeat' first
  | rfl
  | split
  | dsimp only

theorem invalidate_frames (s : MMapCache) (wid : Nat) :
    (window_invalidate s wid).fds = s.fds ∧
    (window_invalidate s wid).contexts = s.contexts ∧
    (window_invalidate s wid).unused = s.unused ∧
    (window_invalidate s wid).mapped = s.mapped ∧
    (window_invalidate s wid).next_wid = s.next_wid ∧
    (window_invalidate s wid).n_windows = s.n_windows ∧
    akeys (window_invalidate s wid).windows = akeys s.windows := by
  unfold window_invalidate
  repeat' first
  | rfl
  | exact ⟨rfl, rfl, rfl, rfl, rfl, rfl, akeys_aupd _ _ _⟩
  | exact ⟨rfl, rfl, rfl, rfl, rfl, rfl, rfl⟩
  | split
  | dsimp only

theorem free_next_wid (s : MMapCache) (wid : Nat) :
    (window_free s wid).next_wid = s.next_wid := by
  unfold window_free
  dsimp only
  exact unlink_next_wid s wid

theorem detach_frames (s : MMapCache) (cid : Nat) :
    (context_detach_window s cid).fds = s.fds ∧
    (context_detach_window s cid).mapped = s.mapped ∧
    (context_detach_window s cid).next_wid = s.next_wid ∧
    (context_detach_window s cid).n_windows = s.n_windows ∧
    akeys (context_detach_window s cid).windows = akeys s.windows := by
  unfold context_detach_window
  repeat' first
  | rfl
  | exact ⟨rfl, rfl, rfl, rfl, (akeys_aupd _ _ _).trans (akeys_aupd _ _ _)⟩
  | exact ⟨rfl, rfl, rfl, rfl, akeys_aupd _ _ _⟩
  | exact ⟨rfl, rfl, rfl, rfl, rfl⟩
  | split
  | dsimp only

theorem attach_frames (s : MMapCache) (cid wid : Nat) :
    (context_attach_window s cid wid).fds = s.fds ∧
    (context_attach_window s cid wid).mapped = s.mapped ∧
    (context_attach_window s cid wid).next_wid = s.next_wid ∧
    (context_attach_window s cid wid).n_windows = s.n_windows ∧
    akeys (context_attach_window s cid wid).windows = akeys s.windows := by
  unfold context_attach_window
  have hd := detach_frames s cid
  repeat' first
  | rfl
  | exact ⟨rfl, rfl, rfl, rfl, rfl⟩
  | exact ⟨hd.1, hd.2.1, hd.2.2.1, hd.2.2.2.1,
      (akeys_aupd _ _ _).trans hd.2.2.2.2⟩
  | exact ⟨hd.1, hd.2.1, hd.2.2.1, hd.2.2.2.1,
      (akeys_aupd _ _ _).trans ((akeys_aupd _ _ _).trans hd.2.2.2.2)⟩
  | exact ⟨hd.1, hd.2.1, hd.2.2.1, hd.2.2.2.1,
      (akeys_aupd _ _ _).trans ((akeys_aupd _ _ _).trans
        ((akeys_aupd _ _ _).trans hd.2.2.2.2))⟩
  | split
  | dsimp only

theorem context_add_frames (s : MMapCache) (id : Nat) (ok : Bool)
    (s' : MMapCache) (h : context_add s id ok = some s') :
    s'.fds = s.fds ∧ s'.mapped = s.mapped ∧ s'.windows = s.windows ∧
    s'.unused = s.unused ∧ s'.next_wid = s.next_wid ∧
    s'.n_windows = s.n_windows := by
  unfold context_add at h
  revert h
  repeat' first
  | (intro h; cases h; exact ⟨rfl, rfl, rfl, rfl, rfl, rfl⟩)
  | (intro h; cases h)
  | split
  | dsimp only

/-! ### Monotonicity of sigbus flags (`FStep`) and pins (`WStep`) -/

theorem FStep_refl (s : MMapCache) : FStep s s := fun _ => Or.inl rfl

theorem FStep_of_eq (s s' : MMapCache) (h : s'.fds = s.fds) : FStep s s' :=
  fun x => Or.inl (by rw [h])

theorem FStep_trans (s₁ s₂ s₃ : MMapCache) (h1 : FStep s₁ s₂)
    (h2 : FStep s₂ s₃) : FStep s₁ s₃ := by
  intro x
  rcases h2 x with h2x | ⟨h2s, h2t⟩
  · rcases h1 x with h1x | ⟨h1s, h1t⟩
    · exact Or.inl (h2x.trans h1x)
    · exact Or.inr ⟨h1s, h2x.trans h1t⟩
  · rcases h1 x with h1x | ⟨h1s, h1t⟩
    · refine Or.inr ⟨?_, h2t⟩
      cases h : alookup s₁.fds x with
      | some f => simp
      | none =>
        rw [h] at h1x
        simp only [Option.map_none'] at h1x
        rw [Option.map_eq_none'.mp h1x] at h2s
        simp at h2s
    · exact Or.inr ⟨h1s, h2t⟩

theorem FStep_aupd_pres (s s' : MMapCache) (key : Nat)
    (g : MMapFileDescriptor → MMapFileDescriptor)
    (h : s'.fds = aupd s.fds key g) (hg : ∀ f, (g f).sigbus = f.sigbus) :
    FStep s s' := by
  intro x
  left
  rw [h, alookup_aupd]
  by_cases hx : x = key
  · rw [if_pos hx]
    cases halk : alookup s.fds x <;> simp [hg]
  · rw [if_neg hx]

theorem FStep_aupd_true (s s' : MMapCache) (key : Nat)
    (h : s'.fds = aupd s.fds key fun f => { f with sigbus := true }) :
    FStep s s' := by
  intro x
  rw [h, alookup_aupd]
  by_cases hx : x = key
  · rw [if_pos hx]
    cases halk : alookup s.fds x with
    | none => simp
    | some f =>
      right
      simp
  · rw [if_neg hx]
    exact Or.inl rfl

theorem FStep_unlink (s : MMapCache) (wid : Nat) :
    FStep s (window_unlink s wid) := by
  unfold window_unlink
  repeat' first
  | split
  | dsimp only
  all_goals first
  | exact FStep_refl s
  | exact FStep_aupd_pres s _ _
      (fun f => { f with windows := f.windows.erase wid }) rfl (fun f => rfl)

theorem FStep_free (s : MMapCache) (wid : Nat) :
    FStep s (window_free s wid) := by
  have h := FStep_unlink s wid
  intro x
  have he : (window_free s wid).fds = (window_unlink s wid).fds := rfl
  rw [he]
  exact h x

theorem AF_transfer (s s' : MMapCache)
    (h : ∀ y ∈ akeys s'.windows, y ∈ akeys s.windows)
    (hn : s.next_wid ≤ s'.next_wid) (hA : AF s) : AF s' := by
  intro p hp
  have h1 : p.1 ∈ akeys s'.windows := List.mem_map_of_mem _ hp
  obtain ⟨q, hq, hq1⟩ := List.mem_map.mp (h _ h1)
  have := hA q hq
  omega

theorem AF_lookup_next_none (s : MMapCache) (hA : AF s) :
    alookup s.windows s.next_wid = none := by
  cases h : alookup s.windows s.next_wid with
  | none => rfl
  | some w =>
    have := hA _ (alookup_eq_some_mem _ _ _ h)
    omega

theorem keep_pres_aupd (l : List (Nat × Window)) (wid : Nat)
    (g : Window → Window) (hg : ∀ w, (g w).keep_always = w.keep_always)
    (x : Nat) :
    (alookup (aupd l wid g) x).map Window.keep_always =
      (alookup l x).map Window.keep_always := by
  rw [alookup_aupd]
  by_cases hx : x = wid
  · rw [if_pos hx]
    cases halk : alookup l x <;> simp [hg]
  · rw [if_neg hx]

theorem WStep_refl (s : MMapCache) : WStep s s :=
  ⟨le_refl _, id, fun _ => Or.inl rfl⟩

theorem WStep_keep_eq (s s' : MMapCache) (hn : s'.next_wid = s.next_wid)
    (hsub : ∀ y ∈ akeys s'.windows, y ∈ akeys s.windows)
    (hk : ∀ x, (alookup s'.windows x).map Window.keep_always =
      (alookup s.windows x).map Window.keep_always) : WStep s s' :=
  ⟨le_of_eq hn.symm, AF_transfer s s' hsub (le_of_eq hn.symm),
    fun x => Or.inl (hk x)⟩

theorem WStep_of_eq (s s' : MMapCache) (hw : s'.windows = s.windows)
    (hn : s'.next_wid = s.next_wid) : WStep s s' :=
  WStep_keep_eq s s' hn (by rw [hw]; exact fun y hy => hy)
    (fun x => by rw [hw])

theorem WStep_trans (s₁ s₂ s₃ : MMapCache) (hAF : AF s₁)
    (h1 : WStep s₁ s₂) (h2 : WStep s₂ s₃) : WStep s₁ s₃ := by
  obtain ⟨hn1, hA1, hx1⟩ := h1
  obtain ⟨hn2, hA2, hx2⟩ := h2
  refine ⟨le_trans hn1 hn2, fun h => hA2 (hA1 h), fun x => ?_⟩
  rcases hx2 x with h2x | h2x | h2x | ⟨h2n, h2ge⟩
  · rcases hx1 x with h1x | h1x | h1x | ⟨h1n, h1ge⟩
    · exact Or.inl (h2x.trans h1x)
    · exact Or.inr (Or.inl (h2x.trans h1x))
    · rw [h1x] at h2x
      simp only [Option.map_none'] at h2x
      exact Or.inr (Or.inr (Or.inl (Option.map_eq_none'.mp h2x)))
    · exact Or.inr (Or.inr (Or.inr ⟨h1n, h1ge⟩))
  · exact Or.inr (Or.inl h2x)
  · exact Or.inr (Or.inr (Or.inl h2x))
  · cases h1 : alookup s₁.windows x with
    | none => exact Or.inr (Or.inr (Or.inr ⟨rfl, le_trans hn1 h2ge⟩))
    | some w =>
      have hlt := hAF _ (alookup_eq_some_mem _ _ _ h1)
      omega

theorem WStep_aupd_pres (s s' : MMapCache) (wid : Nat) (g : Window → Window)
    (hw : s'.windows = aupd s.windows wid g) (hn : s'.next_wid = s.next_wid)
    (hg : ∀ w, (g w).keep_always = w.keep_always) : WStep s s' := by
  refine WStep_keep_eq s s' hn ?_ ?_
  · rw [hw, akeys_aupd]
    exact fun y hy => hy
  · intro x
    rw [hw]
    exact keep_pres_aupd _ _ _ hg x

theorem WStep_aupd_orin (s s' : MMapCache) (wid : Nat) (b : Bool)
    (hw : s'.windows =
      aupd s.windows wid fun w => { w with keep_always := w.keep_always || b })
    (hn : s'.next_wid = s.next_wid) : WStep s s' := by
  cases b with
  | false => exact WStep_aupd_pres s s' wid _ hw hn (fun w => by simp)
  | true =>
    refine ⟨le_of_eq hn.symm, ?_, fun x => ?_⟩
    · refine AF_transfer s s' ?_ (le_of_eq hn.symm)
      rw [hw, akeys_aupd]
      exact fun y hy => hy
    · rw [hw, alookup_aupd]
      by_cases hx : x = wid
      · rw [if_pos hx]
        cases halk : alookup s.windows x with
        | none => exact Or.inl (by simp)
        | some w => exact Or.inr (Or.inl (by simp))
      · rw [if_neg hx]
        exact Or.inl rfl

theorem WStep_free (s : MMapCache) (wid : Nat) :
    WStep s (window_free s wid) := by
  have hwin : (window_free s wid).windows = aerase s.windows wid := by
    show aerase (window_unlink s wid).windows wid = _
    rw [unlink_windows]
  have hn : (window_free s wid).next_wid = s.next_wid := free_next_wid s wid
  refine ⟨le_of_eq hn.symm, ?_, fun x => ?_⟩
  · refine AF_transfer s _ ?_ (le_of_eq hn.symm)
    rw [hwin, akeys_aerase]
    exact fun y hy => (List.mem_filter.mp hy).1
  · rw [hwin, alookup_aerase]
    by_cases hx : x = wid
    · rw [if_pos hx]
      exact Or.inr (Or.inr (Or.inl rfl))
    · rw [if_neg hx]
      exact Or.inl rfl

theorem WStep_cons (s s' : MMapCache) (w : Window)
    (hfresh : alookup s.windows s.next_wid = none)
    (hw : s'.windows = (s.next_wid, w) :: s.windows)
    (hn : s'.next_wid = s.next_wid + 1) : WStep s s' := by
  refine ⟨by omega, ?_, fun x => ?_⟩
  · intro hA p hp
    rw [hw] at hp
    rcases List.mem_cons.mp hp with hp | hp
    · rw [hp, hn]
      omega
    · have := hA p hp
      omega
  · rw [hw]
    by_cases hx : s.next_wid = x
    · subst hx
      exact Or.inr (Or.inr (Or.inr ⟨hfresh, le_refl _⟩))
    · show (if s.next_wid = x then some w else alookup s.windows x).map _ = _ ∨ _
      rw [if_neg hx]
      exact Or.inl rfl

theorem detach_keep (s : MMapCache) (cid x : Nat) :
    (alookup (context_detach_window s cid).windows x).map Window.keep_always =
      (alookup s.windows x).map Window.keep_always := by
  unfold context_detach_window
  repeat' first
  | split
  | dsimp only
  all_goals first
  | rfl
  | exact keep_pres_aupd _ _ _ (by intro w; rfl) x
  | exact (keep_pres_aupd _ _ _ (by intro w; rfl) x).trans
      (keep_pres_aupd _ _ _ (by intro w; rfl) x)

theorem detach_WStep (s : MMapCache) (cid : Nat) :
    WStep s (context_detach_window s cid) := by
  have hf := detach_frames s cid
  refine WStep_keep_eq s _ hf.2.2.1 ?_ (detach_keep s cid)
  rw [hf.2.2.2.2]
  exact fun y hy => hy

theorem attach_keep (s : MMapCache) (cid wid x : Nat) :
    (alookup (context_attach_window s cid wid).windows x).map
        Window.keep_always =
      (alookup s.windows x).map Window.keep_always := by
  unfold context_attach_window
  repeat' first
  | split
  | dsimp only
  all_goals first
  | rfl
  | exact detach_keep s cid x
  | exact (keep_pres_aupd _ _ _ (by intro w; rfl) x).trans (detach_keep s cid x)
  | exact ((keep_pres_aupd _ _ _ (by intro w; rfl) x).trans
      (keep_pres_aupd _ _ _ (by intro w; rfl) x)).trans (detach_keep s cid x)
  | exact ((keep_pres_aupd _ _ _ (by intro w; rfl) x).trans
      ((keep_pres_aupd _ _ _ (by intro w; rfl) x).trans
        (keep_pres_aupd _ _ _ (by intro w; rfl) x))).trans (detach_keep s cid x)

theorem attach_WStep (s : MMapCache) (cid wid : Nat) :
    WStep s (context_attach_window s cid wid) := by
  have hf := attach_frames s cid wid
  refine WStep_keep_eq s _ hf.2.2.1 ?_ (attach_keep s cid wid)
  rw [hf.2.2.2.2]
  exact fun y hy => hy

theorem invalidate_WStep (s : MMapCache) (wid : Nat) :
    WStep s (window_invalidate s wid) := by
  unfold window_invalidate
  repeat' first
  | split
  | dsimp only
  all_goals first
  | exact WStep_refl s
  | exact WStep_aupd_pres s _ wid
      (fun w => { w with invalidated := true }) rfl rfl (by intro w; rfl)

theorem invalidate_FStep (s : MMapCache) (wid : Nat) :
    FStep s (window_invalidate s wid) :=
  FStep_of_eq s _ (invalidate_frames s wid).1

theorem window_add_WStep (s : MMapCache) (fdk : Nat) (keep : Bool)
    (off sz ptr : Nat) (ok : Bool) (wid : Nat) (s' : MMapCache)
    (hAF : AF s)
    (h : window_add s fdk keep off sz ptr ok = some (wid, s')) :
    WStep s s' := by
  unfold window_add at h
  revert h
  repeat' first
  | split
  | dsimp only
  all_goals intro h
  · cases h
    exact WStep_cons s _ _ (AF_lookup_next_none s hAF) rfl rfl
  · cases h
  · cases h
  · rename_i victim hvic
    cases h
    have h1 := WStep_free s victim
    refine WStep_trans s _ _ hAF h1 ?_
    exact WStep_cons _ _ _
      (AF_lookup_next_none _ (h1.2.1 hAF)) rfl rfl

theorem window_add_FStep (s : MMapCache) (fdk : Nat) (keep : Bool)
    (off sz ptr : Nat) (ok : Bool) (wid : Nat) (s' : MMapCache)
    (h : window_add s fdk keep off sz ptr ok = some (wid, s')) :
    FStep s s' := by
  unfold window_add at h
  revert h
  repeat' first
  | split
  | dsimp only
  all_goals intro h
  · cases h
    exact FStep_aupd_pres s _ fdk
      (fun f => { f with windows := s.next_wid :: f.windows }) rfl
      (by intro f; rfl)
  · cases h
  · cases h
  · rename_i victim hvic
    cases h
    refine FStep_trans s _ _ (FStep_free s victim) ?_
    exact FStep_aupd_pres _ _ fdk
      (fun f => { f with
        windows := (window_free s victim).next_wid :: f.windows })
      rfl (by intro f; rfl)

theorem try_harder_WStep (wsize : Nat) (mres : Nat → MmapRes) :
    ∀ (fuel attempt : Nat) (s : MMapCache), AF s →
      WStep s (mmap_try_harder_go wsize mres attempt fuel s).2 := by
  intro fuel
  induction fuel with
  | zero => exact fun attempt s _ => WStep_refl s
  | succ n ih =>
    intro attempt s hAF
    show WStep s (mmap_try_harder_go wsize mres attempt (n + 1) s).2
    unfold mmap_try_harder_go
    cases mres attempt with
    | ok addr => exact WStep_of_eq s _ rfl rfl
    | err e =>
      dsimp only
      by_cases he : e ≠ ENOMEM
      · rw [if_pos he]
        exact WStep_refl s
      · rw [if_neg he]
        show WStep s (match make_room s with
          | (r, s) => if r = 0 then (Except.error (-ENOMEM), s)
              else mmap_try_harder_go wsize mres (attempt + 1) n s).2
        unfold make_room
        cases hgl : s.unused.getLast? with
        | none =>
          dsimp only
          rw [if_pos rfl]
          exact WStep_refl s
        | some victim =>
          dsimp only
          rw [if_neg (by norm_num)]
          have h1 := WStep_free s victim
          exact WStep_trans s _ _ hAF h1
            (ih (attempt + 1) _ (h1.2.1 hAF))

theorem try_context_WStep (s : MMapCache) (fdk ctx : Nat) (keep : Bool)
    (off sz : Nat) :
    WStep s (try_context s fdk ctx keep off sz).2.2 := by
  unfold try_context
  repeat' first
  | split
  | dsimp only
  all_goals first
  | exact WStep_refl s
  | exact detach_WStep s ctx
  | exact WStep_aupd_orin s _ _ keep rfl rfl

theorem try_context_FStep (s : MMapCache) (fdk ctx : Nat) (keep : Bool)
    (off sz : Nat) :
    FStep s (try_context s fdk ctx keep off sz).2.2 := by
  unfold try_context
  repeat' first
  | split
  | dsimp only
  all_goals first
  | exact FStep_refl s
  | exact FStep_of_eq s _ (detach_frames s ctx).1

theorem find_mmap_WStep (s : MMapCache) (fdk ctx : Nat) (keep : Bool)
    (off sz : Nat) (ok : Bool) (hAF : AF s) :
    WStep s (find_mmap s fdk ctx keep off sz ok).2.2 := by
  unfold find_mmap
  cases h1 : alookup s.fds fdk with
  | none => exact WStep_refl s
  | some f =>
    dsimp only
    by_cases h2 : f.sigbus
    · rw [if_pos h2]
      exact WStep_refl s
    · rw [if_neg h2]
      cases h3 : f.windows.find? (fun wid =>
          match alookup s.windows wid with
          | some w => window_matches w off sz
          | none => false) with
      | none => exact WStep_refl s
      | some wid =>
        dsimp only
        cases h4 : context_add s ctx ok with
        | none => exact WStep_refl s
        | some s2 =>
          dsimp only
          have hfr := context_add_frames s ctx ok s2 h4
          have h0 : WStep s s2 := WStep_of_eq s s2 hfr.2.2.1 hfr.2.2.2.2.1
          have hA0 : AF s2 := h0.2.1 hAF
          have h5 := attach_WStep s2 ctx wid
          have hA1 := h5.2.1 hA0
          have h6 : WStep (context_attach_window s2 ctx wid)
              { context_attach_window s2 ctx wid with
                windows := aupd (context_attach_window s2 ctx wid).windows
                  wid fun w => { w with keep_always := w.keep_always || keep } } :=
            WStep_aupd_orin _ _ wid keep rfl rfl
          have hchain : WStep s { context_attach_window s2 ctx wid with
              windows := aupd (context_attach_window s2 ctx wid).windows
                wid fun w => { w with keep_always := w.keep_always || keep } } :=
            WStep_trans s _ _ hAF h0 (WStep_trans s2 _ _ hA0 h5 h6)
          cases h7 : alookup (aupd (context_attach_window s2 ctx wid).windows
              wid fun w => { w with keep_always := w.keep_always || keep })
              wid with
          | none => exact hchain
          | some w =>
            dsimp only
            refine WStep_trans s _ _ hAF hchain ?_
            exact WStep_of_eq _ _ rfl rfl

theorem find_mmap_FStep (s : MMapCache) (fdk ctx : Nat) (keep : Bool)
    (off sz : Nat) (ok : Bool) :
    FStep s (find_mmap s fdk ctx keep off sz ok).2.2 := by
  unfold find_mmap
  cases h1 : alookup s.fds fdk with
  | none => exact FStep_refl s
  | some f =>
    dsimp only
    by_cases h2 : f.sigbus
    · rw [if_pos h2]
      exact FStep_refl s
    · rw [if_neg h2]
      cases h3 : f.windows.find? (fun wid =>
          match alookup s.windows wid with
          | some w => window_matches w off sz
          | none => false) with
      | none => exact FStep_refl s
      | some wid =>
        dsimp only
        cases h4 : context_add s ctx ok with
        | none => exact FStep_refl s
        | some s2 =>
          dsimp only
          have hfr := context_add_frames s ctx ok s2 h4
          have h0 : FStep s s2 := FStep_of_eq s s2 hfr.1
          have h5 : FStep s2 (context_attach_window s2 ctx wid) :=
            FStep_of_eq _ _ (attach_frames s2 ctx wid).1
          have hchain : FStep s { context_attach_window s2 ctx wid with
              windows := aupd (context_attach_window s2 ctx wid).windows
                wid fun w => { w with keep_always := w.keep_always || keep } } :=
            FStep_trans s _ _ h0 (FStep_trans s2 _ _ h5 (FStep_of_eq _ _ rfl))
          cases h7 : alookup (aupd (context_attach_window s2 ctx wid).windows
              wid fun w => { w with keep_always := w.keep_always || keep })
              wid with
          | none => exact hchain
          | some w =>
            dsimp only
            exact FStep_trans s _ _ hchain (FStep_of_eq _ _ rfl)

theorem try_harder_FStep (wsize : Nat) (mres : Nat → MmapRes) :
    ∀ (fuel attempt : Nat) (s : MMapCache),
      FStep s (mmap_try_harder_go wsize mres attempt fuel s).2 := by
  intro fuel
  induction fuel with
  | zero => exact fun attempt s => FStep_refl s
  | succ n ih =>
    intro attempt s
    unfold mmap_try_harder_go
    cases mres attempt with
    | ok addr => exact FStep_of_eq s _ rfl
    | err e =>
      dsimp only
      by_cases he : e ≠ ENOMEM
      · rw [if_pos he]
        exact FStep_refl s
      · rw [if_neg he]
        show FStep s (match make_room s with
          | (r, s) => if r = 0 then (Except.error (-ENOMEM), s)
              else mmap_try_harder_go wsize mres (attempt + 1) n s).2
        unfold make_room
        cases hgl : s.unused.getLast? with
        | none =>
          dsimp only
          rw [if_pos rfl]
          exact FStep_refl s
        | some victim =>
          dsimp only
          rw [if_neg (by norm_num)]
          exact FStep_trans s _ _ (FStep_free s victim) (ih (attempt + 1) _)

theorem add_mmap_WStep (k : Nat) (s : MMapCache) (fdk ctx : Nat)
    (keep : Bool) (off sz : Nat) (st : Option Nat) (o : GetOracle)
    (hAF : AF s) :
    WStep s (add_mmap k s fdk ctx keep off sz st o).2.2 := by
  unfold add_mmap
  cases h1 : add_mmap_geometry k off sz st with
  | error e => exact WStep_refl s
  | ok pair =>
    obtain ⟨woffset, wsize⟩ := pair
    dsimp only
    cases h2 : mmap_try_harder s wsize o.mres with
    | mk r2 s2 =>
      have hW2 : WStep s s2 := by
        have h := try_harder_WStep wsize o.mres (s.unused.length + 1) 0 s hAF
        unfold mmap_try_harder at h2
        rw [h2] at h
        exact h
      have hA2 : AF s → AF s2 := fun h => hW2.2.1 h
      cases r2 with
      | error e => exact hW2
      | ok d =>
        dsimp only
        cases h3 : context_add s2 ctx o.ctx_ok with
        | none =>
          exact WStep_trans s s2 _ hAF hW2 (WStep_of_eq s2 _ rfl rfl)
        | some s3 =>
          dsimp only
          have hfr := context_add_frames s2 ctx o.ctx_ok s3 h3
          have hW3 : WStep s2 s3 := WStep_of_eq s2 s3 hfr.2.2.1 hfr.2.2.2.2.1
          have hA3 : AF s3 := hW3.2.1 (hA2 hAF)
          cases h4 : window_add s3 fdk keep woffset wsize d o.win_ok with
          | none =>
            refine WStep_trans s s2 _ hAF hW2 ?_
            exact WStep_trans s2 s3 _ (hA2 hAF) hW3 (WStep_of_eq s3 _ rfl rfl)
          | some pr =>
            obtain ⟨wid, s4⟩ := pr
            dsimp only
            have hW4 : WStep s3 s4 :=
              window_add_WStep s3 fdk keep woffset wsize d o.win_ok wid s4
                hA3 h4
            have hA4 : AF s4 := hW4.2.1 hA3
            have hW5 := attach_WStep s4 ctx wid
            refine WStep_trans s s2 _ hAF hW2 ?_
            refine WStep_trans s2 s3 _ (hA2 hAF) hW3 ?_
            exact WStep_trans s3 s4 _ hA3 hW4 hW5

theorem add_mmap_FStep (k : Nat) (s : MMapCache) (fdk ctx : Nat)
    (keep : Bool) (off sz : Nat) (st : Option Nat) (o : GetOracle) :
    FStep s (add_mmap k s fdk ctx keep off sz st o).2.2 := by
  unfold add_mmap
  cases h1 : add_mmap_geometry k off sz st with
  | error e => exact FStep_refl s
  | ok pair =>
    obtain ⟨woffset, wsize⟩ := pair
    dsimp only
    cases h2 : mmap_try_harder s wsize o.mres with
    | mk r2 s2 =>
      have hF2 : FStep s s2 := by
        have h := try_harder_FStep wsize o.mres (s.unused.length + 1) 0 s
        unfold mmap_try_harder at h2
        rw [h2] at h
        exact h
      cases r2 with
      | error e => exact hF2
      | ok d =>
        dsimp only
        cases h3 : context_add s2 ctx o.ctx_ok with
        | none => exact FStep_trans s s2 _ hF2 (FStep_of_eq s2 _ rfl)
        | some s3 =>
          dsimp only
          have hfr := context_add_frames s2 ctx o.ctx_ok s3 h3
          have hF3 : FStep s2 s3 := FStep_of_eq s2 s3 hfr.1
          cases h4 : window_add s3 fdk keep woffset wsize d o.win_ok with
          | none =>
            refine FStep_trans s s2 _ hF2 ?_
            exact FStep_trans s2 s3 _ hF3 (FStep_of_eq s3 _ rfl)
          | some pr =>
            obtain ⟨wid, s4⟩ := pr
            dsimp only
            have hF4 : FStep s3 s4 :=
              window_add_FStep s3 fdk keep woffset wsize d o.win_ok wid s4 h4
            have hF5 : FStep s4 (context_attach_window s4 ctx wid) :=
              FStep_of_eq s4 _ (attach_frames s4 ctx wid).1
            refine FStep_trans s s2 _ hF2 ?_
            refine FStep_trans s2 s3 _ hF3 ?_
            exact FStep_trans s3 s4 _ hF4 hF5

theorem get_WStep (k : Nat) (s : MMapCache) (fdk ctx : Nat) (keep : Bool)
    (off sz : Nat) (st : Option Nat) (o : GetOracle) (hAF : AF s) :
    WStep s (mmap_cache_fd_get k s fdk ctx keep off sz st o).2.2 := by
  unfold mmap_cache_fd_get
  cases h1 : try_context s fdk ctx keep off sz with
  | mk r1 rest1 =>
    obtain ⟨ret1, s1⟩ := rest1
    have hW1 : WStep s s1 := by
      have h := try_context_WStep s fdk ctx keep off sz
      rw [h1] at h
      exact h
    have hA1 : AF s1 := hW1.2.1 hAF
    dsimp only
    by_cases hr1 : r1 ≠ 0
    · rw [if_pos hr1]
      exact hW1
    · rw [if_neg hr1]
      cases h2 : find_mmap s1 fdk ctx keep off sz o.ctx_ok with
      | mk r2 rest2 =>
        obtain ⟨ret2, s2⟩ := rest2
        have hW2 : WStep s1 s2 := by
          have h := find_mmap_WStep s1 fdk ctx keep off sz o.ctx_ok hA1
          rw [h2] at h
          exact h
        have hA2 : AF s2 := hW2.2.1 hA1
        dsimp only
        by_cases hr2 : r2 ≠ 0
        · rw [if_pos hr2]
          exact WStep_trans s s1 _ hAF hW1 hW2
        · rw [if_neg hr2]
          have hW3 : WStep s2 { s2 with n_missed := s2.n_missed + 1 } :=
            WStep_of_eq s2 _ rfl rfl
          have hW4 := add_mmap_WStep k { s2 with n_missed := s2.n_missed + 1 }
            fdk ctx keep off sz st o (hW3.2.1 hA2)
          refine WStep_trans s s1 _ hAF hW1 ?_
          refine WStep_trans s1 s2 _ hA1 hW2 ?_
          exact WStep_trans s2 _ _ hA2 hW3 hW4

theorem get_FStep (k : Nat) (s : MMapCache) (fdk ctx : Nat) (keep : Bool)
    (off sz : Nat) (st : Option Nat) (o : GetOracle) :
    FStep s (mmap_cache_fd_get k s fdk ctx keep off sz st o).2.2 := by
  unfold mmap_cache_fd_get
  cases h1 : try_context s fdk ctx keep off sz with
  | mk r1 rest1 =>
    obtain ⟨ret1, s1⟩ := rest1
    have hF1 : FStep s s1 := by
      have h := try_context_FStep s fdk ctx keep off sz
      rw [h1] at h
      exact h
    dsimp only
    by_cases hr1 : r1 ≠ 0
    · rw [if_pos hr1]
      exact hF1
    · rw [if_neg hr1]
      cases h2 : find_mmap s1 fdk ctx keep off sz o.ctx_ok with
      | mk r2 rest2 =>
        obtain ⟨ret2, s2⟩ := rest2
        have hF2 : FStep s1 s2 := by
          have h := find_mmap_FStep s1 fdk ctx keep off sz o.ctx_ok
          rw [h2] at h
          exact h
        dsimp only
        by_cases hr2 : r2 ≠ 0
        · rw [if_pos hr2]
          exact FStep_trans s s1 _ hF1 hF2
        · rw [if_neg hr2]
          have hF3 := add_mmap_FStep k { s2 with n_missed := s2.n_missed + 1 }
            fdk ctx keep off sz st o
          refine FStep_trans s s1 _ hF1 ?_
          refine FStep_trans s1 s2 _ hF2 ?_
          exact FStep_trans s2 _ _ (FStep_of_eq s2 _ rfl) hF3

theorem sigbus_drain_spec :
    ∀ (q : List Nat) (s : MMapCache) (found : Bool)
      (res : Bool × MMapCache), sigbus_drain s found q = some res →
      FStep s res.2 ∧ res.2.windows = s.windows ∧
      res.2.next_wid = s.next_wid ∧ res.2.fds.length = s.fds.length ∧
      akeys res.2.fds = akeys s.fds := by
  intro q
  induction q with
  | nil =>
    intro s found res h
    unfold sigbus_drain at h
    cases h
    exact ⟨FStep_refl s, rfl, rfl, rfl, rfl⟩
  | cons addr rest ih =>
    intro s found res h
    unfold sigbus_drain at h
    revert h
    cases h1 : find_sigbus_fd s addr with
    | none => intro h; cases h
    | some fdk =>
      intro h
      have hrec := ih _ _ _ h
      have hstep : FStep s { s with fds := aupd s.fds fdk fun f =>
          { f with sigbus := true } } := FStep_aupd_true s _ fdk rfl
      refine ⟨FStep_trans s _ _ hstep hrec.1, hrec.2.1, hrec.2.2.1, ?_, ?_⟩
      · rw [hrec.2.2.2.1]
        exact List.length_map s.fds _
      · rw [hrec.2.2.2.2]
        exact akeys_aupd s.fds fdk (fun f => { f with sigbus := true })

theorem invalidate_fold_WStep (wids : List Nat) :
    ∀ s : MMapCache, AF s → WStep s (wids.foldl window_invalidate s) := by
  induction wids with
  | nil => exact fun s _ => WStep_refl s
  | cons wid rest ih =>
    intro s hAF
    have h1 := invalidate_WStep s wid
    exact WStep_trans s _ _ hAF h1 (ih _ (h1.2.1 hAF))

theorem invalidate_fold_FStep (wids : List Nat) :
    ∀ s : MMapCache, FStep s (wids.foldl window_invalidate s) := by
  induction wids with
  | nil => exact fun s => FStep_refl s
  | cons wid rest ih =>
    intro s
    exact FStep_trans s _ _ (invalidate_FStep s wid) (ih _)

theorem sigbus_fold_WStep (pairs : List (Nat × MMapFileDescriptor)) :
    ∀ s : MMapCache, AF s →
      WStep s (pairs.foldl (fun s' p =>
        if p.2.sigbus then p.2.windows.foldl window_invalidate s' else s')
        s) := by
  induction pairs with
  | nil => exact fun s _ => WStep_refl s
  | cons p rest ih =>
    intro s hAF
    show WStep s (rest.foldl _ (if p.2.sigbus then _ else s))
    by_cases hp : p.2.sigbus
    · rw [if_pos hp]
      have h1 := invalidate_fold_WStep p.2.windows s hAF
      exact WStep_trans s _ _ hAF h1 (ih _ (h1.2.1 hAF))
    · rw [if_neg hp]
      exact ih s hAF

theorem sigbus_fold_FStep (pairs : List (Nat × MMapFileDescriptor)) :
    ∀ s : MMapCache,
      FStep s (pairs.foldl (fun s' p =>
        if p.2.sigbus then p.2.windows.foldl window_invalidate s' else s')
        s) := by
  induction pairs with
  | nil => exact fun s => FStep_refl s
  | cons p rest ih =>
    intro s
    show FStep s (rest.foldl _ (if p.2.sigbus then _ else s))
    by_cases hp : p.2.sigbus
    · rw [if_pos hp]
      exact FStep_trans s _ _ (invalidate_fold_FStep p.2.windows s) (ih _)
    · rw [if_neg hp]
      exact ih s

theorem process_WStep (s : MMapCache) (q : List Nat) (s' : MMapCache)
    (hAF : AF s) (h : mmap_cache_process_sigbus s q = some s') :
    WStep s s' := by
  unfold mmap_cache_process_sigbus at h
  revert h
  cases h1 : sigbus_drain s false q with
  | none => intro h; cases h
  | some res =>
    obtain ⟨found, s1⟩ := res
    have hd := sigbus_drain_spec q s false (found, s1) h1
    have hW1 : WStep s s1 := WStep_of_eq s s1 hd.2.1 hd.2.2.1
    dsimp only
    by_cases hf : ¬ found = true
    · rw [if_pos hf]
      intro h
      cases h
      exact hW1
    · rw [if_neg hf]
      intro h
      cases h
      exact WStep_trans s s1 _ hAF hW1
        (sigbus_fold_WStep s1.fds s1 (hW1.2.1 hAF))

theorem process_FStep (s : MMapCache) (q : List Nat) (s' : MMapCache)
    (h : mmap_cache_process_sigbus s q = some s') : FStep s s' := by
  unfold mmap_cache_process_sigbus at h
  revert h
  cases h1 : sigbus_drain s false q with
  | none => intro h; cases h
  | some res =>
    obtain ⟨found, s1⟩ := res
    have hd := sigbus_drain_spec q s false (found, s1) h1
    dsimp only
    by_cases hf : ¬ found = true
    · rw [if_pos hf]
      intro h
      cases h
      exact hd.1
    · rw [if_neg hf]
      intro h
      cases h
      exact FStep_trans s s1 _ hd.1 (sigbus_fold_FStep s1.fds s1)

theorem free_loop_WStep (fdk : Nat) :
    ∀ (fuel : Nat) (s : MMapCache), AF s →
      WStep s (free_fd_windows fdk fuel s) := by
  intro fuel
  induction fuel with
  | zero => exact fun s _ => WStep_refl s
  | succ n ih =>
    intro s hAF
    unfold free_fd_windows
    cases h1 : alookup s.fds fdk with
    | none => exact WStep_refl s
    | some f =>
      dsimp only
      cases h2 : f.windows with
      | nil => exact WStep_refl s
      | cons wid rest =>
        have h3 := WStep_free s wid
        exact WStep_trans s _ _ hAF h3 (ih _ (h3.2.1 hAF))

theorem free_loop_FStep (fdk : Nat) :
    ∀ (fuel : Nat) (s : MMapCache), FStep s (free_fd_windows fdk fuel s) := by
  intro fuel
  induction fuel with
  | zero => exact fun s => FStep_refl s
  | succ n ih =>
    intro s
    unfold free_fd_windows
    cases h1 : alookup s.fds fdk with
    | none => exact FStep_refl s
    | some f =>
      dsimp only
      cases h2 : f.windows with
      | nil => exact FStep_refl s
      | cons wid rest =>
        exact FStep_trans s _ _ (FStep_free s wid) (ih _)

theorem fd_free_WStep (s : MMapCache) (fdk : Nat) (q : List Nat)
    (s' : MMapCache) (hAF : AF s)
    (h : mmap_cache_fd_free s fdk q = some s') : WStep s s' := by
  unfold mmap_cache_fd_free at h
  revert h
  cases h1 : mmap_cache_process_sigbus s q with
  | none => intro h; cases h
  | some s1 =>
    intro h
    cases h
    have hW1 := process_WStep s q s1 hAF h1
    have hA1 := hW1.2.1 hAF
    have hW2 := free_loop_WStep fdk (match alookup s1.fds fdk with
      | some f => f.windows.length
      | none => 0) s1 hA1
    refine WStep_trans s s1 _ hAF hW1 ?_
    refine WStep_trans s1 _ _ hA1 hW2 ?_
    exact WStep_of_eq _ _ rfl rfl

theorem add_fd_WStep (s : MMapCache) (fd prot : Nat) (o : AllocOracle) :
    WStep s (mmap_cache_add_fd s fd prot o).2 := by
  unfold mmap_cache_add_fd
  cases h1 : alookup s.fds fd with
  | some f => exact WStep_of_eq s _ rfl rfl
  | none =>
    by_cases h2 : ¬ o.ensure_ok
    · rw [if_pos h2]
      exact WStep_of_eq s _ rfl rfl
    · rw [if_neg h2]
      by_cases h3 : ¬ o.new_ok
      · rw [if_pos h3]
        exact WStep_of_eq s _ rfl rfl
      · rw [if_neg h3]
        by_cases h4 : ¬ o.put_ok
        · rw [if_pos h4]
          exact WStep_of_eq s _ rfl rfl
        · rw [if_neg h4]
          exact WStep_of_eq s _ rfl rfl

theorem got_sigbus_state (s : MMapCache) (fdk : Nat) (q : List Nat)
    (b : Bool) (s' : MMapCache)
    (h : mmap_cache_fd_got_sigbus s fdk q = some (b, s')) :
    mmap_cache_process_sigbus s q = some s' := by
  unfold mmap_cache_fd_got_sigbus at h
  revert h
  cases h1 : mmap_cache_process_sigbus s q with
  | none => intro h; cases h
  | some s1 =>
    intro h
    dsimp only at h
    cases h2 : alookup s1.fds fdk with
    | none =>
      rw [h2] at h
      cases h
      rfl
    | some f =>
      rw [h2] at h
      cases h
      rfl

theorem stepSt_WStep (k : Nat) (op : CacheOp) (s s' : MMapCache)
    (hAF : AF s) (h : stepSt k op s = some s') : WStep s s' := by
  cases op with
  | get fdk ctx keep off sz st ctx_ok win_ok mres =>
    simp only [stepSt] at h
    by_cases hreg : (alookup s.fds fdk).isSome
    · rw [if_pos hreg] at h
      by_cases hctx : ctx < MMAP_CACHE_MAX_CONTEXTS
      · rw [if_pos hctx] at h
        simp only [Option.some.injEq] at h
        exact h ▸ get_WStep k s fdk ctx keep off sz st
          ⟨ctx_ok, win_ok, mres⟩ hAF
      · rw [if_neg hctx] at h
        cases h
    · rw [if_neg hreg] at h
      cases h
  | addFd fd prot o =>
    simp only [stepSt, Option.some.injEq] at h
    exact h ▸ add_fd_WStep s fd prot o
  | fdFree fdk q =>
    simp only [stepSt] at h
    by_cases hreg : (alookup s.fds fdk).isSome
    · rw [if_pos hreg] at h
      exact fd_free_WStep s fdk q s' hAF h
    · rw [if_neg hreg] at h
      cases h
  | gotSigbus fdk q =>
    simp only [stepSt] at h
    rcases hreg : (alookup s.fds fdk).isSome with _ | _
    case false =>
      rw [if_neg (by rw [hreg]; exact Bool.false_ne_true)] at h
      cases h
    case true =>
      rw [if_pos hreg] at h
      cases hg : mmap_cache_fd_got_sigbus s fdk q with
    | none =>
      rw [hg] at h
      cases h
    | some pr =>
      obtain ⟨b, s1⟩ := pr
      rw [hg] at h
      simp only [Option.map_some'] at h
      cases h
      exact process_WStep s q s' hAF (got_sigbus_state s fdk q b s' hg)

/-! ### C8, C10: the fd registry -/

/-- C8. `mmap_cache_add_fd` is idempotent: once a call has returned handle
`f` for `fd`, any further call for the same `fd` returns the same handle
(so in particular the handle's stored `prot` is that of the first
registration) and leaves the state completely unchanged, whatever `prot`
and allocation oracle the second call is given. -/
theorem C8_add_fd_idempotent (s : MMapCache) (fd prot : Nat)
    (o : AllocOracle) (f : MMapFileDescriptor) (s' : MMapCache)
    (h : mmap_cache_add_fd s fd prot o = (some f, s')) (prot' : Nat)
    (o' : AllocOracle) : mmap_cache_add_fd s' fd prot' o' = (some f, s') := by
  have hlk : alookup s'.fds fd = some f := by
    unfold mmap_cache_add_fd at h
    revert h
    cases h1 : alookup s.fds fd with
    | some g =>
      intro h
      cases h
      exact h1
    | none =>
      by_cases h2 : ¬ o.ensure_ok
      · rw [if_pos h2]
        intro h
        cases h
      · rw [if_neg h2]
        by_cases h3 : ¬ o.new_ok
        · rw [if_pos h3]
          intro h
          cases h
        · rw [if_neg h3]
          by_cases h4 : ¬ o.put_ok
          · rw [if_pos h4]
            intro h
            cases h
          · rw [if_neg h4]
            intro h
            cases h
            simp [alookup]
  unfold mmap_cache_add_fd
  rw [hlk]

/-- Witness for C8: registering fd 3 twice on an empty cache returns the
same handle with the first call's prot, and the second call is a no-op. -/
theorem C8_add_fd_idempotent_witness :
    mmap_cache_add_fd exReg 3 2 ⟨true, true, true⟩ =
      (some ⟨3, 1, false, []⟩, exReg) :=
  C8_add_fd_idempotent exEmpty 3 1 ⟨true, true, true⟩ ⟨3, 1, false, []⟩
    exReg (by decide) 2 ⟨true, true, true⟩

/-- C10. `mmap_cache_add_fd` is atomic on failure: for an unregistered fd,
if the call returns no handle then the state is exactly the input state —
in particular the fd is not present in the registry and no partial
`MMapFileDescriptor` is retained. -/
theorem C10_add_fd_atomic (s : MMapCache) (fd prot : Nat) (o : AllocOracle)
    (h0 : alookup s.fds fd = none)
    (h : (mmap_cache_add_fd s fd prot o).1 = none) :
    (mmap_cache_add_fd s fd prot o).2 = s ∧
      alookup (mmap_cache_add_fd s fd prot o).2.fds fd = none := by
  unfold mmap_cache_add_fd at h ⊢
  rw [h0] at h ⊢
  dsimp only at h ⊢
  by_cases h2 : ¬ o.ensure_ok
  · rw [if_pos h2]
    exact ⟨rfl, h0⟩
  · rw [if_neg h2] at h ⊢
    by_cases h3 : ¬ o.new_ok
    · rw [if_pos h3]
      exact ⟨rfl, h0⟩
    · rw [if_neg h3] at h ⊢
      by_cases h4 : ¬ o.put_ok
      · rw [if_pos h4]
        exact ⟨rfl, h0⟩
      · rw [if_neg h4] at h
        simp at h

/-- Witness for C10: a failing `hashmap_put` leaves the registry without
fd 5 and the state untouched. -/
theorem C10_add_fd_atomic_witness :
    (mmap_cache_add_fd exCache 5 1 ⟨true, true, false⟩).2 = exCache ∧
      alookup (mmap_cache_add_fd exCache 5 1 ⟨true, true, false⟩).2.fds 5 =
        none :=
  C10_add_fd_atomic exCache 5 1 ⟨true, true, false⟩ (by decide) (by decide)

/-! ### C1: a poisoned file handle -/

/-- C1. Reads against a poisoned handle are sticky failures: (a) when
`f.sigbus` is set, `mmap_cache_fd_get` returns `- EIO` on every lookup
path, leaves the fd registry, the set of live windows and the set of
mappings unchanged; and (b) no public operation ever clears a set sigbus
flag — it stays set until the handle is closed (removed). -/
theorem C1_poisoned_get (k : Nat) (s : MMapCache) (fdk ctx : Nat)
    (keep : Bool) (off sz : Nat) (st : Option Nat) (o : GetOracle)
    (f : MMapFileDescriptor) (hf : alookup s.fds fdk = some f)
    (hs : f.sigbus = true) :
    ((mmap_cache_fd_get k s fdk ctx keep off sz st o).1 = - EIO ∧
      (mmap_cache_fd_get k s fdk ctx keep off sz st o).2.2.fds = s.fds ∧
      akeys (mmap_cache_fd_get k s fdk ctx keep off sz st o).2.2.windows =
        akeys s.windows ∧
      (mmap_cache_fd_get k s fdk ctx keep off sz st o).2.2.mapped =
        s.mapped) ∧
    (∀ (op : CacheOp) (s₁ s₂ : MMapCache) (x : Nat)
      (g g' : MMapFileDescriptor), stepSt k op s₁ = some s₂ →
      alookup s₁.fds x = some g → g.sigbus = true →
      alookup s₂.fds x = some g' → g'.sigbus = true) := by
  constructor
  · have heio : ∀ s₀ : MMapCache, alookup s₀.fds fdk = some f →
        (find_mmap s₀ fdk ctx keep off sz o.ctx_ok) = (- EIO, none, s₀) := by
      intro s₀ h₀
      unfold find_mmap
      rw [h₀]
      dsimp only
      rw [if_pos hs]
    unfold mmap_cache_fd_get
    cases h1 : try_context s fdk ctx keep off sz with
    | mk r1 rest1 =>
      obtain ⟨ret1, s1⟩ := rest1
      -- characterize the try_context outcome under a poisoned fd
      have htc : (r1 = - EIO ∧ s1 = s) ∨
          (r1 = 0 ∧ s1.fds = s.fds ∧ akeys s1.windows = akeys s.windows ∧
            s1.mapped = s.mapped) := by
        unfold try_context at h1
        cases h2 : alookup s.contexts ctx with
        | none =>
          rw [h2] at h1
          cases h1
          exact Or.inr ⟨rfl, rfl, rfl, rfl⟩
        | some c =>
          rw [h2] at h1
          dsimp only at h1
          cases h3 : c.window with
          | none =>
            rw [h3] at h1
            cases h1
            exact Or.inr ⟨rfl, rfl, rfl, rfl⟩
          | some wid =>
            rw [h3] at h1
            dsimp only at h1
            cases h4 : alookup s.windows wid with
            | none =>
              rw [h4] at h1
              cases h1
              exact Or.inr ⟨rfl, rfl, rfl, rfl⟩
            | some w =>
              rw [h4] at h1
              dsimp only at h1
              by_cases h5 : ¬ window_matches_fd w fdk off sz
              · rw [if_pos h5] at h1
                cases h1
                have hfr := detach_frames s ctx
                exact Or.inr ⟨rfl, hfr.1, hfr.2.2.2.2, hfr.2.1⟩
              · rw [if_neg h5] at h1
                have h6 : window_matches_fd w fdk off sz = true :=
                  of_not_not h5
                simp only [window_matches_fd, Bool.and_eq_true,
                  decide_eq_true_eq] at h6
                rw [h6.1, hf] at h1
                dsimp only at h1
                rw [if_pos hs] at h1
                cases h1
                exact Or.inl ⟨rfl, rfl⟩
      dsimp only
      rcases htc with ⟨hr, hseq⟩ | ⟨hr, hfds, hak, hmap⟩
      · subst hr
        subst hseq
        rw [if_pos (by norm_num [ EIO])]
        exact ⟨rfl, rfl, rfl, rfl⟩
      · subst hr
        rw [if_neg (by norm_num)]
        rw [heio s1 (by rw [hfds]; exact hf)]
        dsimp only
        rw [if_pos (by norm_num [ EIO])]
        exact ⟨rfl, hfds, hak, hmap⟩
  · intro op s₁ s₂ x g g' hstep hg hgs hg'
    cases op with
    | get fdk' ctx' keep' off' sz' st' ctx_ok' win_ok' mres' =>
      simp only [stepSt] at hstep
      by_cases hreg : (alookup s₁.fds fdk').isSome
      case neg => rw [if_neg hreg] at hstep; cases hstep
      rw [if_pos hreg] at hstep
      by_cases hctx : ctx' < MMAP_CACHE_MAX_CONTEXTS
      case neg => rw [if_neg hctx] at hstep; cases hstep
      rw [if_pos hctx] at hstep
      simp only [Option.some.injEq] at hstep
      have hF := get_FStep k s₁ fdk' ctx' keep' off' sz' st'
        ⟨ctx_ok', win_ok', mres'⟩
      rw [hstep] at hF
      rcases hF x with hx | ⟨hsome, htrue⟩
      · rw [hg', hg] at hx
        simp at hx
        rw [hx, hgs]
      · rw [hg'] at htrue
        simp at htrue
        exact htrue
    | addFd fd' prot' o' =>
      simp only [stepSt, Option.some.injEq] at hstep
      subst hstep
      unfold mmap_cache_add_fd at hg'
      revert hg'
      cases h1 : alookup s₁.fds fd' with
      | some ff =>
        intro hg'
        rw [hg] at hg'
        cases hg'
        exact hgs
      | none =>
        by_cases h2 : ¬ o'.ensure_ok
        · rw [if_pos h2]
          intro hg'
          rw [hg] at hg'
          cases hg'
          exact hgs
        · rw [if_neg h2]
          by_cases h3 : ¬ o'.new_ok
          · rw [if_pos h3]
            intro hg'
            rw [hg] at hg'
            cases hg'
            exact hgs
          · rw [if_neg h3]
            by_cases h4 : ¬ o'.put_ok
            · rw [if_pos h4]
              intro hg'
              rw [hg] at hg'
              cases hg'
              exact hgs
            · rw [if_neg h4]
              dsimp only
              intro hg'
              have hxfd : ¬ fd' = x := by
                intro hc
                subst hc
                rw [h1] at hg
                cases hg
              rw [show alookup ((fd', ⟨fd', prot', false, []⟩) :: s₁.fds) x
                  = alookup s₁.fds x by simp [alookup, hxfd]] at hg'
              rw [hg] at hg'
              cases hg'
              exact hgs
    | fdFree fdk' q' =>
      simp only [stepSt] at hstep
      by_cases hreg : (alookup s₁.fds fdk').isSome
      case neg => rw [if_neg hreg] at hstep; cases hstep
      rw [if_pos hreg] at hstep
      unfold mmap_cache_fd_free at hstep
      revert hstep
      cases h1 : mmap_cache_process_sigbus s₁ q' with
      | none => intro hstep; cases hstep
      | some sp =>
        intro hstep
        cases hstep
        rw [alookup_aerase] at hg'
        by_cases hx : x = fdk'
        · rw [if_pos hx] at hg'
          cases hg'
        · rw [if_neg hx] at hg'
          have hF1 := process_FStep s₁ q' sp h1
          have hF2 := free_loop_FStep fdk' (match alookup sp.fds fdk' with
            | some f => f.windows.length
            | none => 0) sp
          have hF := FStep_trans s₁ sp _ hF1 hF2
          rcases hF x with hxx | ⟨hsome, htrue⟩
          · rw [hg', hg] at hxx
            simp at hxx
            rw [hxx, hgs]
          · rw [hg'] at htrue
            simp at htrue
            exact htrue
    | gotSigbus fdk' q' =>
      simp only [stepSt] at hstep
      by_cases hreg : (alookup s₁.fds fdk').isSome
      case neg => rw [if_neg hreg] at hstep; cases hstep
      rw [if_pos hreg] at hstep
      cases hgg : mmap_cache_fd_got_sigbus s₁ fdk' q' with
      | none =>
        rw [hgg] at hstep
        cases hstep
      | some pr =>
        obtain ⟨b, sp⟩ := pr
        rw [hgg] at hstep
        simp only [Option.map_some'] at hstep
        cases hstep
        have hF := process_FStep s₁ q' s₂ (got_sigbus_state s₁ fdk' q' b s₂ hgg)
        rcases hF x with hxx | ⟨hsome, htrue⟩
        · rw [hg', hg] at hxx
          simp at hxx
          rw [hxx, hgs]
        · rw [hg'] at htrue
          simp at htrue
          exact htrue

/-- Witness for C1 at a concrete poisoned cache: the read returns `- EIO`
and the persistence conjunct holds at a concrete no-op step. -/
theorem C1_poisoned_get_witness :
    ((mmap_cache_fd_get 12 exCacheP 3 0 false 0 10 none
        ⟨true, true, fun _ => MmapRes.ok 4096⟩).1 = - EIO ∧
      (mmap_cache_fd_get 12 exCacheP 3 0 false 0 10 none
        ⟨true, true, fun _ => MmapRes.ok 4096⟩).2.2.fds = exCacheP.fds ∧
      akeys (mmap_cache_fd_get 12 exCacheP 3 0 false 0 10 none
        ⟨true, true, fun _ => MmapRes.ok 4096⟩).2.2.windows =
        akeys exCacheP.windows ∧
      (mmap_cache_fd_get 12 exCacheP 3 0 false 0 10 none
        ⟨true, true, fun _ => MmapRes.ok 4096⟩).2.2.mapped =
        exCacheP.mapped) ∧
    (∀ (op : CacheOp) (s₁ s₂ : MMapCache) (x : Nat)
      (g g' : MMapFileDescriptor), stepSt 12 op s₁ = some s₂ →
      alookup s₁.fds x = some g → g.sigbus = true →
      alookup s₂.fds x = some g' → g'.sigbus = true) :=
  C1_poisoned_get 12 exCacheP 3 0 false 0 10 none
    ⟨true, true, fun _ => MmapRes.ok 4096⟩ ⟨3, 1, true, [0]⟩
    (by decide) (by decide)

/-! ### C6: pin monotonicity -/

/-- C6. `keep_always` is write-once-true: (a) across every public cache
operation, a window record that survives keeps its pin once set (only
freeing — which in this model includes recycling, since a recycled record
starts a fresh lifetime under a fresh id — ends the pin); (b) a context
cache hit ORs the call's `keep_always` into the window's pin; (c) a window
list hit does the same, so passing `keep_always = false` on a pinned
window leaves the pin set. -/
theorem C6_pin_monotone :
    (∀ (k : Nat) (op : CacheOp) (s s' : MMapCache) (wid : Nat)
      (w w' : Window), AF s → stepSt k op s = some s' →
      alookup s.windows wid = some w → alookup s'.windows wid = some w' →
      w.keep_always = true → w'.keep_always = true) ∧
    (∀ (s : MMapCache) (fdk ctx : Nat) (keep : Bool) (off sz : Nat)
      (c : Context) (wid : Nat) (w : Window) (f : MMapFileDescriptor),
      alookup s.contexts ctx = some c → c.window = some wid →
      alookup s.windows wid = some w →
      window_matches_fd w fdk off sz = true →
      alookup s.fds w.fd = some f → f.sigbus = false →
      (try_context s fdk ctx keep off sz).1 = 1 ∧
      (alookup (try_context s fdk ctx keep off sz).2.2.windows wid).map
        Window.keep_always = some (w.keep_always || keep)) ∧
    (∀ (s : MMapCache) (fdk ctx : Nat) (keep : Bool) (off sz : Nat)
      (ok : Bool) (f : MMapFileDescriptor) (wid : Nat) (w : Window)
      (s₂ : MMapCache), alookup s.fds fdk = some f → f.sigbus = false →
      f.windows.find? (fun wid =>
        match alookup s.windows wid with
        | some w => window_matches w off sz
        | none => false) = some wid →
      alookup s.windows wid = some w →
      context_add s ctx ok = some s₂ →
      (find_mmap s fdk ctx keep off sz ok).1 = 1 ∧
      (alookup (find_mmap s fdk ctx keep off sz ok).2.2.windows wid).map
        Window.keep_always = some (w.keep_always || keep)) := by
  refine ⟨?_, ?_, ?_⟩
  · intro k op s s' wid w w' hAF hstep hw hw' hkeep
    have hW := stepSt_WStep k op s s' hAF hstep
    rcases hW.2.2 wid with hx | hx | hx | ⟨hx, _⟩
    · rw [hw', hw] at hx
      simp only [Option.map_some', Option.some.injEq] at hx
      rw [hx, hkeep]
    · rw [hw'] at hx
      simp only [Option.map_some', Option.some.injEq] at hx
      exact hx
    · rw [hw'] at hx
      cases hx
    · rw [hw] at hx
      cases hx
  · intro s fdk ctx keep off sz c wid w f hc hcw hw hmatch hfd hsig
    unfold try_context
    rw [hc]
    dsimp only
    rw [hcw]
    dsimp only
    rw [hw]
    dsimp only
    rw [if_neg (by rw [hmatch]; exact not_not_intro rfl), hfd]
    dsimp only
    rw [if_neg (by rw [hsig]; exact Bool.false_ne_true)]
    refine ⟨rfl, ?_⟩
    show (alookup (aupd s.windows wid fun w =>
      { w with keep_always := w.keep_always || keep }) wid).map _ = _
    rw [alookup_aupd_self, hw]
    rfl
  · intro s fdk ctx keep off sz ok f wid w s₂ hf hsig hfind hw hadd
    unfold find_mmap
    rw [hf]
    dsimp only
    rw [if_neg (by rw [hsig]; exact Bool.false_ne_true)]
    rw [hfind]
    dsimp only
    rw [hadd]
    dsimp only
    have hfr := context_add_frames s ctx ok s₂ hadd
    have hkeepattach := attach_keep s₂ ctx wid wid
    have hs₂w : (alookup s₂.windows wid).map Window.keep_always =
        some w.keep_always := by
      rw [hfr.2.2.1, hw]
      rfl
    have hA : (alookup (context_attach_window s₂ ctx wid).windows wid).map
        Window.keep_always = some w.keep_always :=
      hkeepattach.trans hs₂w
    cases hAl : alookup (context_attach_window s₂ ctx wid).windows wid with
    | none =>
      rw [hAl] at hA
      cases hA
    | some wA =>
      rw [hAl] at hA
      simp only [Option.map_some', Option.some.injEq] at hA
      have horin : (alookup (aupd (context_attach_window s₂ ctx wid).windows
          wid fun w => { w with keep_always := w.keep_always || keep })
          wid) = some { wA with keep_always := wA.keep_always || keep } := by
        rw [alookup_aupd_self, hAl]
        rfl
      rw [horin]
      dsimp only
      rw [horin, hA]
      exact ⟨rfl, rfl⟩

/-! ### C5: the mmap retry loop -/

theorem go_shift (wsize : Nat) (mres : Nat → MmapRes) :
    ∀ (fuel a : Nat) (s : MMapCache),
      mmap_try_harder_go wsize mres (a + 1) fuel s =
        mmap_try_harder_go wsize (fun i => mres (i + 1)) a fuel s := by
  intro fuel
  induction fuel with
  | zero => intro a s; rfl
  | succ n ih =>
    intro a s
    unfold mmap_try_harder_go
    dsimp only
    cases hm : mres (a + 1) with
    | ok addr => rfl
    | err e =>
      dsimp only
      by_cases he : e ≠ ENOMEM
      · rw [if_pos he, if_pos he]
      · rw [if_neg he, if_neg he]
        unfold make_room
        cases hgl : s.unused.getLast? with
        | none => rfl
        | some victim =>
          dsimp only
          rw [if_neg (by norm_num), if_neg (by norm_num)]
          exact ih (a + 1) _

/-- Under the unused-list well-formedness facts, `window_free` on a member
of the unused list erases exactly that id from the unused list. -/
theorem window_free_unused_erase (s : MMapCache) (victim : Nat)
    (hU : ∀ wid ∈ s.unused,
      (alookup s.windows wid).map Window.in_unused = some true)
    (hv : victim ∈ s.unused) :
    (window_free s victim).unused = s.unused.erase victim ∧
    (window_free s victim).windows = aerase s.windows victim := by
  have hlk := hU victim hv
  cases h : alookup s.windows victim with
  | none =>
    rw [h] at hlk
    cases hlk
  | some w =>
    rw [h] at hlk
    simp only [Option.map_some', Option.some.injEq] at hlk
    constructor
    · show (window_unlink s victim).unused = _
      unfold window_unlink
      rw [h]
      dsimp only
      rw [if_pos hlk]
      by_cases hp : w.ptr ≠ 0 <;> simp [hp]
    · show aerase (window_unlink s victim).windows victim = _
      rw [unlink_windows]

/-- The four-way case analysis of one `mmap_try_harder` attempt. -/
theorem try_harder_characterization (s : MMapCache) (wsize : Nat)
    (mres : Nat → MmapRes)
    (hnd : s.unused.Nodup)
    (hU : ∀ wid ∈ s.unused,
      (alookup s.windows wid).map Window.in_unused = some true) :
    (∀ addr, mres 0 = MmapRes.ok addr →
      mmap_try_harder s wsize mres =
        (Except.ok addr, { s with mapped := (addr, wsize) :: s.mapped })) ∧
    (∀ e, mres 0 = MmapRes.err e → e ≠ ENOMEM →
      mmap_try_harder s wsize mres = (Except.error (-e), s)) ∧
    (mres 0 = MmapRes.err ENOMEM → s.unused = [] →
      mmap_try_harder s wsize mres = (Except.error (-ENOMEM), s)) ∧
    (∀ victim, mres 0 = MmapRes.err ENOMEM →
      s.unused.getLast? = some victim →
      mmap_try_harder s wsize mres =
        mmap_try_harder (window_free s victim) wsize (fun i => mres (i + 1)) ∧
      (window_free s victim).unused = s.unused.erase victim ∧
      (window_free s victim).unused.length + 1 = s.unused.length ∧
      (window_free s victim).windows = aerase s.windows victim) := by
  refine ⟨?_, ?_, ?_, ?_⟩
  · intro addr h0
    show mmap_try_harder_go wsize mres 0 (s.unused.length + 1) s = _
    unfold mmap_try_harder_go
    rw [h0]
  · intro e h0 he
    show mmap_try_harder_go wsize mres 0 (s.unused.length + 1) s = _
    unfold mmap_try_harder_go
    rw [h0]
    dsimp only
    rw [if_pos he]
  · intro h0 hemp
    show mmap_try_harder_go wsize mres 0 (s.unused.length + 1) s = _
    unfold mmap_try_harder_go
    rw [h0]
    dsimp only
    rw [if_neg (by simp)]
    unfold make_room
    rw [hemp]
    rfl
  · intro victim h0 hgl
    have hv : victim ∈ s.unused := List.mem_of_getLast?_eq_some hgl
    have hfree := window_free_unused_erase s victim hU hv
    have hlen : (window_free s victim).unused.length + 1 =
        s.unused.length := by
      rw [hfree.1, List.length_erase_of_mem hv]
      have : s.unused.length ≠ 0 := by
        intro hc
        rw [List.length_eq_zero.mp hc] at hv
        cases hv
      omega
    refine ⟨?_, hfree.1, hlen, hfree.2⟩
    show mmap_try_harder_go wsize mres 0 (s.unused.length + 1) s = _
    unfold mmap_try_harder_go
    rw [h0]
    dsimp only
    rw [if_neg (by simp)]
    unfold make_room
    rw [hgl]
    dsimp only
    rw [if_neg (by norm_num)]
    show mmap_try_harder_go wsize mres 1 s.unused.length _ = _
    rw [go_shift]
    show _ = mmap_try_harder_go wsize (fun i => mres (i + 1)) 0
      ((window_free s victim).unused.length + 1) (window_free s victim)
    rw [hlen]

/-- Persistent `ENOMEM` drains the whole unused list and then surfaces
`-ENOMEM`. -/
theorem try_harder_exhaust :
    ∀ (n : Nat) (s : MMapCache) (wsize : Nat) (mres : Nat → MmapRes),
      s.unused.length = n → s.unused.Nodup →
      (∀ wid ∈ s.unused,
        (alookup s.windows wid).map Window.in_unused = some true) →
      (∀ j, j ≤ s.unused.length → mres j = MmapRes.err ENOMEM) →
      (mmap_try_harder s wsize mres).1 = Except.error (-ENOMEM) ∧
        (mmap_try_harder s wsize mres).2.unused = [] := by
  intro n
  induction n with
  | zero =>
    intro s wsize mres hlen hnd hU hall
    have hemp : s.unused = [] := List.length_eq_zero.mp hlen
    have h := (try_harder_characterization s wsize mres hnd hU).2.2.1
      (hall 0 (by omega)) hemp
    rw [h]
    exact ⟨rfl, hemp⟩
  | succ n ih =>
    intro s wsize mres hlen hnd hU hall
    have hne : s.unused ≠ [] := by
      intro hc
      rw [hc] at hlen
      cases hlen
    cases hgl : s.unused.getLast? with
    | none =>
      rw [List.getLast?_eq_none_iff] at hgl
      exact absurd hgl hne
    | some victim =>
      have h4 := (try_harder_characterization s wsize mres hnd hU).2.2.2
        victim (hall 0 (by omega)) hgl
      rw [h4.1]
      have hv : victim ∈ s.unused := List.mem_of_getLast?_eq_some hgl
      refine ih (window_free s victim) wsize (fun i => mres (i + 1))
        (by omega) ?_ ?_ ?_
      · rw [h4.2.1]
        exact hnd.erase victim
      · intro wid hw
        rw [h4.2.1] at hw
        have hwne : wid ≠ victim := (hnd.mem_erase_iff.mp hw).1
        have hwm : wid ∈ s.unused := (hnd.mem_erase_iff.mp hw).2
        rw [h4.2.2.2, alookup_aerase, if_neg hwne]
        exact hU wid hwm
      · intro j hj
        refine hall (j + 1) ?_
        omega

/-- C5. The mapping step of the allocate path: an `mmap` success returns at
once with no eviction; a non-`ENOMEM` failure surfaces that negative errno
at once with no eviction; `ENOMEM` with an empty unused list surfaces
`-ENOMEM`; `ENOMEM` with a non-empty unused list frees exactly the LRU
tail window and retries the map; and if every attempt keeps failing with
`ENOMEM` the loop evicts the whole unused list and surfaces `-ENOMEM`. -/
theorem C5_mmap_retry (s : MMapCache) (wsize : Nat) (mres : Nat → MmapRes)
    (hnd : s.unused.Nodup)
    (hU : ∀ wid ∈ s.unused,
      (alookup s.windows wid).map Window.in_unused = some true) :
    (∀ addr, mres 0 = MmapRes.ok addr →
      mmap_try_harder s wsize mres =
        (Except.ok addr, { s with mapped := (addr, wsize) :: s.mapped })) ∧
    (∀ e, mres 0 = MmapRes.err e → e ≠ ENOMEM →
      mmap_try_harder s wsize mres = (Except.error (-e), s)) ∧
    (mres 0 = MmapRes.err ENOMEM → s.unused = [] →
      mmap_try_harder s wsize mres = (Except.error (-ENOMEM), s)) ∧
    (∀ victim, mres 0 = MmapRes.err ENOMEM →
      s.unused.getLast? = some victim →
      mmap_try_harder s wsize mres =
        mmap_try_harder (window_free s victim) wsize (fun i => mres (i + 1)) ∧
      (window_free s victim).unused = s.unused.erase victim ∧
      (window_free s victim).unused.length + 1 = s.unused.length ∧
      (window_free s victim).windows = aerase s.windows victim) ∧
    ((∀ j, j ≤ s.unused.length → mres j = MmapRes.err ENOMEM) →
      (mmap_try_harder s wsize mres).1 = Except.error (-ENOMEM) ∧
        (mmap_try_harder s wsize mres).2.unused = []) := by
  obtain ⟨h1, h2, h3, h4⟩ := try_harder_characterization s wsize mres hnd hU
  exact ⟨h1, h2, h3, h4,
    try_harder_exhaust s.unused.length s wsize mres rfl hnd hU⟩

/-- Witness for C5 at a concrete state: on `exCache` (empty unused list) a
successful map returns the address, a plain `EACCES`-style failure is
surfaced as is, and `ENOMEM` with an empty LRU list surfaces `-ENOMEM`. -/
theorem C5_mmap_retry_witness :
    (mmap_try_harder exCache 4096 (fun _ => MmapRes.ok 12288) =
      (Except.ok 12288,
        { exCache with mapped := (12288, 4096) :: exCache.mapped })) ∧
    (mmap_try_harder exCache 4096 (fun _ => MmapRes.err 13) =
      (Except.error (-13), exCache)) ∧
    (mmap_try_harder exCache 4096 (fun _ => MmapRes.err ENOMEM) =
      (Except.error (-ENOMEM), exCache)) :=
  ⟨(C5_mmap_retry exCache 4096 (fun _ => MmapRes.ok 12288) (by decide)
      (by intro wid hw; cases hw)).1 12288 rfl,
    (C5_mmap_retry exCache 4096 (fun _ => MmapRes.err 13) (by decide)
      (by intro wid hw; cases hw)).2.1 13 rfl (by norm_num [ENOMEM]),
    (C5_mmap_retry exCache 4096 (fun _ => MmapRes.err ENOMEM) (by decide)
      (by intro wid hw; cases hw)).2.2.1 rfl rfl⟩

/-- Witness for C6 at concrete states: a pinned window stays pinned across
a `got_sigbus` step; a context hit and a window-list hit OR the flag in. -/
theorem C6_pin_monotone_witness :
    exWin.keep_always = true ∧
    ((try_context exCache 3 0 false 0 10).1 = 1 ∧
      (alookup (try_context exCache 3 0 false 0 10).2.2.windows 0).map
        Window.keep_always = some (exWin.keep_always || false)) ∧
    ((find_mmap exCache 3 0 false 0 10 true).1 = 1 ∧
      (alookup (find_mmap exCache 3 0 false 0 10 true).2.2.windows 0).map
        Window.keep_always = some (exWin.keep_always || false)) :=
  ⟨C6_pin_monotone.1 12 (CacheOp.gotSigbus 3 []) exCache exCache 0 exWin
      exWin
      (by
        intro p hp
        rw [show exCache.windows = [(0, exWin)] from rfl] at hp
        rcases List.mem_singleton.mp hp with rfl
        decide)
      rfl (by decide) (by decide) (by decide),
    C6_pin_monotone.2.1 exCache 3 0 false 0 10 ⟨0, some 0⟩ 0 exWin
      ⟨3, 1, false, [0]⟩ (by decide) (by decide) (by decide) (by decide)
      (by decide) (by decide),
    C6_pin_monotone.2.2 exCache 3 0 false 0 10 true ⟨3, 1, false, [0]⟩ 0
      exWin exCache (by decide) (by decide) (by decide) (by decide)
      (by decide)⟩

/-! ### C7: transfer lemmas for the unused-list invariant -/

theorem UC_of_Inv (s : MMapCache) (hI : Inv s) : UC s := by
  intro x hx w hw
  exact (hI (x, w) (alookup_eq_some_mem _ _ _ hw)).mp hx

theorem PInv_refl (s : MMapCache) : PInv s s := by
  intro x w' hw
  exact Or.inr ⟨w', hw, rfl, rfl, Iff.rfl⟩

theorem PInv_trans (s₁ s₂ s₃ : MMapCache) (h1 : PInv s₁ s₂)
    (h2 : PInv s₂ s₃) : PInv s₁ s₃ := by
  intro x w' hw
  rcases h2 x w' hw with h | ⟨w₂, hw₂, hc₂, hk₂, hm₂⟩
  · exact Or.inl h
  · rcases h1 x w₂ hw₂ with h | ⟨w₁, hw₁, hc₁, hk₁, hm₁⟩
    · exact Or.inl (by rw [hm₂, h, hc₂, hk₂])
    · exact Or.inr ⟨w₁, hw₁, hc₁.trans hc₂, hk₁.trans hk₂, hm₂.trans hm₁⟩

theorem Inv_of_PInv (s s' : MMapCache) (hnd : (akeys s'.windows).Nodup)
    (hI : Inv s) (hP : PInv s s') : Inv s' := by
  intro p hp
  have hlk : alookup s'.windows p.1 = some p.2 :=
    mem_alookup _ _ _ hnd hp
  rcases hP p.1 p.2 hlk with h | ⟨w, hw, hc, hk, hm⟩
  · exact h
  · have h2 := hI (p.1, w) (alookup_eq_some_mem _ _ _ hw)
    rw [hm, h2, hc, hk]

theorem mem_aupd {α : Type} (l : List (Nat × α)) (key : Nat) (g : α → α)
    (p : Nat × α) (h : p ∈ aupd l key g) :
    ∃ b, (p.1, b) ∈ l ∧
      ((p.1 ≠ key ∧ p.2 = b) ∨ (p.1 = key ∧ p.2 = g b)) := by
  rcases List.mem_map.mp h with ⟨q, hq, hfq⟩
  by_cases hk : q.1 = key
  · rw [if_pos hk] at hfq
    subst hfq
    exact ⟨q.2, hq, Or.inr ⟨hk, rfl⟩⟩
  · rw [if_neg hk] at hfq
    subst hfq
    exact ⟨q.2, hq, Or.inl ⟨hk, rfl⟩⟩

theorem mem_aerase {α : Type} (l : List (Nat × α)) (key : Nat) (p : Nat × α)
    (h : p ∈ aerase l key) : p ∈ l ∧ p.1 ≠ key := by
  have h2 := List.mem_filter.mp h
  exact ⟨h2.1, of_decide_eq_true h2.2⟩

theorem aerase_of_not_mem {α : Type} (l : List (Nat × α)) (key : Nat)
    (h : ¬ key ∈ akeys l) : aerase l key = l := by
  apply List.filter_eq_self.mpr
  intro p hp
  apply decide_eq_true
  intro hc
  exact h (hc ▸ List.mem_map_of_mem Prod.fst hp)

theorem aerase_length {α : Type} (l : List (Nat × α)) (key : Nat)
    (hnd : (akeys l).Nodup) (h : (alookup l key).isSome) :
    (aerase l key).length + 1 = l.length := by
  induction l with
  | nil => simp [alookup] at h
  | cons hd tl ih =>
    obtain ⟨a, b⟩ := hd
    rw [aerase_cons]
    by_cases hak : a = key
    · rw [if_pos hak]
      subst hak
      have hnin : ¬ a ∈ akeys tl := (List.nodup_cons.mp hnd).1
      rw [aerase_of_not_mem tl a hnin]
      rfl
    · rw [if_neg hak]
      have h' : (alookup tl key).isSome := by
        simpa [alookup, hak] using h
      rw [List.length_cons, List.length_cons,
        ih (List.nodup_cons.mp hnd).2 h']

theorem alookup_none_of_lt {α : Type} (l : List (Nat × α)) (n x : Nat)
    (h : ∀ p ∈ l, p.1 < n) (hx : n ≤ x) : alookup l x = none := by
  cases halk : alookup l x with
  | none => rfl
  | some v =>
    have hm := alookup_eq_some_mem _ _ _ halk
    have := h (x, v) hm
    omega

theorem WF_upd (t : MMapCache) (a b c : Nat) (m : List (Nat × Nat))
    (hW : WF t) :
    WF { t with
         n_context_cache_hit := a, n_window_list_hit := b,
         n_missed := c, mapped := m } :=
  ⟨hW.nodup_w, hW.nodup_f, hW.nodup_c, hW.nodup_u, hW.unused_mem,
    hW.flag_unused, hW.wc_nodup, hW.wc_back, hW.c_id, hW.c_lt, hW.c_back,
    hW.w_fd, hW.f_fd, hW.f_nodup, hW.f_back, hW.fresh, hW.count⟩

theorem UC_upd (t : MMapCache) (a b c : Nat) (m : List (Nat × Nat))
    (hU : UC t) :
    UC { t with
         n_context_cache_hit := a, n_window_list_hit := b,
         n_missed := c, mapped := m } := hU

theorem PInv_upd (s t : MMapCache) (a b c : Nat) (m : List (Nat × Nat))
    (hP : PInv s t) :
    PInv s { t with
             n_context_cache_hit := a, n_window_list_hit := b,
             n_missed := c, mapped := m } := hP

/-- `window_free` on a live window, written as one explicit record. -/
theorem window_free_eq (s : MMapCache) (wid : Nat) (w : Window)
    (hw : alookup s.windows wid = some w) :
    window_free s wid =
      { s with
        n_windows := s.n_windows - 1,
        fds := aupd s.fds w.fd fun f =>
          { f with windows := f.windows.erase wid },
        contexts := s.contexts.map fun p =>
          if p.1 ∈ w.contexts then (p.1, { p.2 with window := none }) else p,
        windows := aerase s.windows wid,
        unused := if w.in_unused then s.unused.erase wid else s.unused,
        mapped := if w.ptr ≠ 0 then s.mapped.erase (w.ptr, w.size)
          else s.mapped } := by
  unfold window_free window_unlink
  rw [hw]
  dsimp only
  by_cases h1 : w.ptr ≠ 0 <;> by_cases h2 : w.in_unused = true
  · simp only [if_pos h1, if_pos h2]
  · simp only [if_pos h1, if_neg h2]
  · simp only [if_neg h1, if_pos h2]
  · simp only [if_neg h1, if_neg h2]

/-- Freeing a live window preserves well-formedness and the one-sided
unused-list invariant, and transfers the invariant pointwise. -/
theorem window_free_pres (s : MMapCache) (wid : Nat) (w : Window)
    (hw : alookup s.windows wid = some w) (hW : WF s) (hU : UC s) :
    WF (window_free s wid) ∧ UC (window_free s wid) ∧
      PInv s (window_free s wid) := by
  rw [window_free_eq s wid w hw]
  have hmemw : (wid, w) ∈ s.windows := alookup_eq_some_mem _ _ _ hw
  have hUmem : ∀ x,
      (x ∈ (if w.in_unused then s.unused.erase wid else s.unused)) ↔
        (x ∈ s.unused ∧ x ≠ wid) := by
    intro x
    by_cases hiu : w.in_unused = true
    · rw [if_pos hiu, hW.nodup_u.mem_erase_iff]
      exact and_comm
    · rw [if_neg hiu]
      constructor
      · intro hx
        refine ⟨hx, fun hc => ?_⟩
        subst hc
        have h2 := hW.unused_mem x hx
        rw [hw] at h2
        simp only [Option.map_some'] at h2
        exact hiu (Option.some.injEq _ _ ▸ h2)
      · exact fun h => h.1
  refine ⟨⟨?_, ?_, ?_, ?_, ?_, ?_, ?_, ?_, ?_, ?_, ?_, ?_, ?_, ?_, ?_, ?_,
    ?_⟩, ?_, ?_⟩
  · exact nodup_akeys_aerase _ _ hW.nodup_w
  · show (akeys (aupd s.fds w.fd fun f =>
      { f with windows := f.windows.erase wid })).Nodup
    rw [akeys_aupd]
    exact hW.nodup_f
  · exact (akeys_mapIf s.contexts (fun x => x ∈ w.contexts)
      (fun c => { c with window := none })).symm ▸ hW.nodup_c
  · show (if w.in_unused then s.unused.erase wid else s.unused).Nodup
    by_cases hiu : w.in_unused = true
    · rw [if_pos hiu]
      exact hW.nodup_u.erase wid
    · rw [if_neg hiu]
      exact hW.nodup_u
  · intro x hx
    have hxs := (hUmem x).mp hx
    show (alookup (aerase s.windows wid) x).map Window.in_unused = some true
    rw [alookup_aerase, if_neg hxs.2]
    exact hW.unused_mem x hxs.1
  · intro p hp hflag
    have hps := mem_aerase _ _ _ hp
    exact (hUmem p.1).mpr ⟨hW.flag_unused p hps.1 hflag, hps.2⟩
  · intro p hp
    exact hW.wc_nodup p (mem_aerase _ _ _ hp).1
  · intro p hp cid hcid
    have hps := mem_aerase _ _ _ hp
    have hcnw : ¬ cid ∈ w.contexts := by
      intro hc
      have h1 := hW.wc_back (wid, w) hmemw cid hc
      have h2 := hW.wc_back p hps.1 cid hcid
      rw [h1] at h2
      simp only [Option.some.injEq] at h2
      exact hps.2 h2.symm
    show (alookup (s.contexts.map fun q =>
      if q.1 ∈ w.contexts then (q.1, { q.2 with window := none }) else q)
        cid).map Context.window = some (some p.1)
    rw [alookup_mapIf s.contexts (fun x => x ∈ w.contexts)
      (fun c => { c with window := none }) cid, if_neg hcnw]
    exact hW.wc_back p hps.1 cid hcid
  · intro q hq
    rcases List.mem_map.mp hq with ⟨q₀, hq₀, hfq⟩
    by_cases hqc : q₀.1 ∈ w.contexts
    · rw [if_pos hqc] at hfq
      subst hfq
      exact hW.c_id q₀ hq₀
    · rw [if_neg hqc] at hfq
      subst hfq
      exact hW.c_id q₀ hq₀
  · intro q hq
    rcases List.mem_map.mp hq with ⟨q₀, hq₀, hfq⟩
    by_cases hqc : q₀.1 ∈ w.contexts
    · rw [if_pos hqc] at hfq
      subst hfq
      exact hW.c_lt q₀ hq₀
    · rw [if_neg hqc] at hfq
      subst hfq
      exact hW.c_lt q₀ hq₀
  · intro q hq
    rcases List.mem_map.mp hq with ⟨q₀, hq₀, hfq⟩
    by_cases hqc : q₀.1 ∈ w.contexts
    · rw [if_pos hqc] at hfq
      subst hfq
      rfl
    · rw [if_neg hqc] at hfq
      subst hfq
      have horig := hW.c_back q₀ hq₀
      unfold ctx_ok_in at horig ⊢
      cases hcw : q₀.2.window with
      | none => rfl
      | some wid' =>
        rw [hcw] at horig
        dsimp only at horig ⊢
        cases hlk : alookup s.windows wid' with
        | none =>
          rw [hlk] at horig
          cases horig
        | some w' =>
          rw [hlk] at horig
          dsimp only at horig
          have hne : wid' ≠ wid := by
            intro hc
            subst hc
            rw [hw] at hlk
            injection hlk with hww
            subst hww
            exact hqc (of_decide_eq_true horig)
          rw [alookup_aerase, if_neg hne, hlk]
          exact horig
  · intro p hp
    have hps := mem_aerase _ _ _ hp
    have horig := hW.w_fd p hps.1
    unfold win_fd_ok at horig ⊢
    rw [alookup_aupd]
    by_cases hfdeq : p.2.fd = w.fd
    · rw [if_pos hfdeq]
      cases hlf : alookup s.fds p.2.fd with
      | none =>
        rw [hlf] at horig
        cases horig
      | some f =>
        rw [hlf] at horig
        dsimp only at horig
        simp only [Option.map_some']
        apply decide_eq_true
        exact (hW.f_nodup (p.2.fd, f)
          (alookup_eq_some_mem _ _ _ hlf)).mem_erase_iff.mpr
          ⟨hps.2, of_decide_eq_true horig⟩
    · rw [if_neg hfdeq]
      exact horig
  · intro q hq
    have hq' : q ∈ aupd s.fds w.fd (fun f =>
      { f with windows := f.windows.erase wid }) := hq
    rcases mem_aupd _ _ _ q hq' with ⟨b, hb, ⟨_, h⟩ | ⟨_, h⟩⟩
    · rw [h]
      exact hW.f_fd (q.1, b) hb
    · rw [h]
      exact hW.f_fd (q.1, b) hb
  · intro q hq
    have hq' : q ∈ aupd s.fds w.fd (fun f =>
      { f with windows := f.windows.erase wid }) := hq
    rcases mem_aupd _ _ _ q hq' with ⟨b, hb, ⟨_, h⟩ | ⟨_, h⟩⟩
    · rw [h]
      exact hW.f_nodup (q.1, b) hb
    · rw [h]
      exact (hW.f_nodup (q.1, b) hb).erase wid
  · intro q hq wid' hwid'
    have hq' : q ∈ aupd s.fds w.fd (fun f =>
      { f with windows := f.windows.erase wid }) := hq
    rcases mem_aupd _ _ _ q hq' with ⟨b, hb, ⟨hkey, h⟩ | ⟨hkey, h⟩⟩
    · rw [h] at hwid'
      have horig := hW.f_back (q.1, b) hb wid' hwid'
      have hne : wid' ≠ wid := by
        intro hc
        subst hc
        rw [hw] at horig
        simp only [Option.map_some', Option.some.injEq] at horig
        exact hkey horig.symm
      show (alookup (aerase s.windows wid) wid').map Window.fd = some q.1
      rw [alookup_aerase, if_neg hne]
      exact horig
    · rw [h] at hwid'
      have h2 := (hW.f_nodup (q.1, b) hb).mem_erase_iff.mp hwid'
      show (alookup (aerase s.windows wid) wid').map Window.fd = some q.1
      rw [alookup_aerase, if_neg h2.1]
      exact hW.f_back (q.1, b) hb wid' h2.2
  · intro p hp
    exact hW.fresh p (mem_aerase _ _ _ hp).1
  · have h1 := hW.count
    have h2 := aerase_length s.windows wid hW.nodup_w (by rw [hw]; rfl)
    show s.n_windows - 1 = (aerase s.windows wid).length
    omega
  · intro x hx wv hlk
    have hxs := (hUmem x).mp hx
    rw [alookup_aerase, if_neg hxs.2] at hlk
    exact hU x hxs.1 wv hlk
  · intro x w' hlk
    rw [alookup_aerase] at hlk
    by_cases hx : x = wid
    · rw [if_pos hx] at hlk
      cases hlk
    · rw [if_neg hx] at hlk
      refine Or.inr ⟨w', hlk, rfl, rfl, ?_⟩
      rw [hUmem x]
      exact ⟨fun h => h.1, fun h => ⟨h, hx⟩⟩

theorem aupd_length {α : Type} (l : List (Nat × α)) (key : Nat) (g : α → α) :
    (aupd l key g).length = l.length := List.length_map _ _

theorem detach_windows_isSome (s : MMapCache) (cid x : Nat)
    (h : (alookup s.windows x).isSome) :
    (alookup (context_detach_window s cid).windows x).isSome := by
  have hk := (detach_frames s cid).2.2.2.2
  exact (mem_akeys _ x).mp (by rw [hk]; exact (mem_akeys _ x).mpr h)

/-- After `context_detach_window` the context holds no window. -/
theorem detach_context_none (s : MMapCache) (cid : Nat) (c : Context)
    (hc : alookup s.contexts cid = some c) :
    ∃ cd, alookup (context_detach_window s cid).contexts cid = some cd ∧
      cd.window = none := by
  unfold context_detach_window
  rw [hc]
  dsimp only
  cases hcw : c.window with
  | none => exact ⟨c, hc, hcw⟩
  | some wid =>
    dsimp only
    cases hw : alookup s.windows wid with
    | none =>
      dsimp only
      rw [alookup_aupd, if_pos rfl, hc]
      exact ⟨_, rfl, rfl⟩
    | some w =>
      dsimp only
      by_cases hcond : ((w.contexts.erase cid).isEmpty && !w.keep_always)
        = true
      · rw [if_pos hcond]
        dsimp only
        rw [alookup_aupd, if_pos rfl, hc]
        exact ⟨_, rfl, rfl⟩
      · rw [if_neg hcond]
        dsimp only
        rw [alookup_aupd, if_pos rfl, hc]
        exact ⟨_, rfl, rfl⟩

theorem bnot_true {b : Bool} (h : (!b) = true) : b = false := by
  cases b
  · rfl
  · cases h

theorem isEmpty_eq_nil {α : Type} {l : List α} (h : l.isEmpty = true) :
    l = [] := by
  cases l
  · rfl
  · cases h

/-- Detaching a context from its window preserves well-formedness and the
one-sided unused-list invariant, and transfers the invariant pointwise. -/
theorem context_detach_pres (s : MMapCache) (cid : Nat) (hW : WF s)
    (hU : UC s) :
    WF (context_detach_window s cid) ∧ UC (context_detach_window s cid) ∧
      PInv s (context_detach_window s cid) := by
  unfold context_detach_window
  cases hc : alookup s.contexts cid with
  | none => exact ⟨hW, hU, PInv_refl s⟩
  | some c =>
    dsimp only
    cases hcw : c.window with
    | none => exact ⟨hW, hU, PInv_refl s⟩
    | some wid =>
      dsimp only
      have hmc : (cid, c) ∈ s.contexts := alookup_eq_some_mem _ _ _ hc
      have hok := hW.c_back (cid, c) hmc
      unfold ctx_ok_in at hok
      rw [hcw] at hok
      dsimp only at hok
      cases hw : alookup s.windows wid with
      | none =>
        rw [hw] at hok
        cases hok
      | some w =>
        rw [hw] at hok
        dsimp only at hok
        have hcin : cid ∈ w.contexts := of_decide_eq_true hok
        dsimp only
        have hmemw : (wid, w) ∈ s.windows := alookup_eq_some_mem _ _ _ hw
        have hndc : w.contexts.Nodup := hW.wc_nodup (wid, w) hmemw
        have hnu : ¬ wid ∈ s.unused := by
          intro hmem
          have h2 := (hU wid hmem w hw).1
          rw [h2] at hcin
          cases hcin
        have hiu : w.in_unused = false := by
          cases hiu2 : w.in_unused
          · rfl
          · exact absurd (hW.flag_unused (wid, w) hmemw hiu2) hnu
        by_cases hcond : ((w.contexts.erase cid).isEmpty && !w.keep_always)
          = true
        · rw [if_pos hcond]
          rw [Bool.and_eq_true] at hcond
          refine ⟨⟨?_, ?_, ?_, ?_, ?_, ?_, ?_, ?_, ?_, ?_, ?_, ?_, ?_, ?_,
            ?_, ?_, ?_⟩, ?_, ?_⟩
          · rw [akeys_aupd, akeys_aupd]
            exact hW.nodup_w
          · exact hW.nodup_f
          · rw [akeys_aupd]
            exact hW.nodup_c
          · exact List.nodup_cons.mpr ⟨hnu, hW.nodup_u⟩
          · intro x hx
            rcases List.mem_cons.mp hx with rfl | hx
            · rw [alookup_aupd, if_pos rfl, alookup_aupd, if_pos rfl, hw]
              rfl
            · have hxw : x ≠ wid := fun hcx => hnu (hcx ▸ hx)
              rw [alookup_aupd, if_neg hxw, alookup_aupd, if_neg hxw]
              exact hW.unused_mem x hx
          · intro p hp hfl
            have hp' := mem_alookup _ _ _
              (by rw [akeys_aupd, akeys_aupd]; exact hW.nodup_w) hp
            by_cases hx : p.1 = wid
            · rw [hx]
              exact List.mem_cons_self _ _
            · rw [alookup_aupd, if_neg hx, alookup_aupd, if_neg hx] at hp'
              exact List.mem_cons_of_mem _
                (hW.flag_unused p (alookup_eq_some_mem _ _ _ hp') hfl)
          · intro p hp
            have hp' := mem_alookup _ _ _
              (by rw [akeys_aupd, akeys_aupd]; exact hW.nodup_w) hp
            by_cases hx : p.1 = wid
            · rw [alookup_aupd, if_pos hx, alookup_aupd, if_pos hx, hx, hw] at hp'
              simp only [Option.map_some', Option.some.injEq] at hp'
              rw [← hp']
              exact hndc.erase cid
            · rw [alookup_aupd, if_neg hx, alookup_aupd, if_neg hx] at hp'
              exact hW.wc_nodup p (alookup_eq_some_mem _ _ _ hp')
          · intro p hp cid' hcid'
            have hp' := mem_alookup _ _ _
              (by rw [akeys_aupd, akeys_aupd]; exact hW.nodup_w) hp
            by_cases hx : p.1 = wid
            · rw [alookup_aupd, if_pos hx, alookup_aupd, if_pos hx, hx, hw] at hp'
              simp only [Option.map_some', Option.some.injEq] at hp'
              rw [← hp'] at hcid'
              have h2 := hndc.mem_erase_iff.mp hcid'
              rw [alookup_aupd, if_neg h2.1, hx]
              exact hW.wc_back (wid, w) hmemw cid' h2.2
            · rw [alookup_aupd, if_neg hx, alookup_aupd, if_neg hx] at hp'
              have hpm := alookup_eq_some_mem _ _ _ hp'
              have hne : cid' ≠ cid := by
                intro hcx
                subst hcx
                have h2 := hW.wc_back p hpm cid' hcid'
                rw [hc] at h2
                simp only [Option.map_some'] at h2
                rw [hcw] at h2
                injection h2 with h3
                injection h3 with h4
                exact hx h4.symm
              rw [alookup_aupd, if_neg hne]
              exact hW.wc_back p hpm cid' hcid'
          · intro q hq
            have hq' := mem_alookup _ _ _
              (by rw [akeys_aupd]; exact hW.nodup_c) hq
            by_cases hx : q.1 = cid
            · rw [alookup_aupd, if_pos hx, hx, hc] at hq'
              simp only [Option.map_some', Option.some.injEq] at hq'
              rw [← hq', hx]
              exact hW.c_id (cid, c) hmc
            · rw [alookup_aupd, if_neg hx] at hq'
              exact hW.c_id q (alookup_eq_some_mem _ _ _ hq')
          · intro q hq
            have hq' := mem_alookup _ _ _
              (by rw [akeys_aupd]; exact hW.nodup_c) hq
            by_cases hx : q.1 = cid
            · rw [hx]
              exact hW.c_lt (cid, c) hmc
            · rw [alookup_aupd, if_neg hx] at hq'
              exact hW.c_lt q (alookup_eq_some_mem _ _ _ hq')
          · intro q hq
            have hq' := mem_alookup _ _ _
              (by rw [akeys_aupd]; exact hW.nodup_c) hq
            by_cases hx : q.1 = cid
            · rw [alookup_aupd, if_pos hx, hx, hc] at hq'
              simp only [Option.map_some', Option.some.injEq] at hq'
              rw [← hq']
              rfl
            · rw [alookup_aupd, if_neg hx] at hq'
              have hqm := alookup_eq_some_mem _ _ _ hq'
              have horig := hW.c_back q hqm
              unfold ctx_ok_in at horig ⊢
              cases hqw : q.2.window with
              | none => rfl
              | some wq =>
                rw [hqw] at horig
                dsimp only at horig ⊢
                cases hlq : alookup s.windows wq with
                | none =>
                  rw [hlq] at horig
                  cases horig
                | some wv =>
                  rw [hlq] at horig
                  dsimp only at horig
                  rw [alookup_aupd, alookup_aupd]
                  by_cases hwq : wq = wid
                  · rw [if_pos hwq, if_pos hwq, hwq, hw]
                    apply decide_eq_true
                    apply hndc.mem_erase_iff.mpr
                    refine ⟨hx, ?_⟩
                    rw [hwq, hw] at hlq
                    injection hlq with hlq2
                    rw [hlq2]
                    exact of_decide_eq_true horig
                  · rw [if_neg hwq, if_neg hwq, hlq]
                    dsimp only
                    exact horig
          · intro p hp
            have hp' := mem_alookup _ _ _
              (by rw [akeys_aupd, akeys_aupd]; exact hW.nodup_w) hp
            by_cases hx : p.1 = wid
            · rw [alookup_aupd, if_pos hx, alookup_aupd, if_pos hx, hx, hw] at hp'
              simp only [Option.map_some', Option.some.injEq] at hp'
              rw [← hp', hx]
              exact hW.w_fd (wid, w) hmemw
            · rw [alookup_aupd, if_neg hx, alookup_aupd, if_neg hx] at hp'
              exact hW.w_fd p (alookup_eq_some_mem _ _ _ hp')
          · exact hW.f_fd
          · exact hW.f_nodup
          · intro q hq wid' hwid'
            have horig := hW.f_back q hq wid' hwid'
            rw [alookup_aupd, alookup_aupd]
            by_cases hx : wid' = wid
            · rw [if_pos hx, if_pos hx, hx, hw]
              rw [hx, hw] at horig
              simp only [Option.map_some'] at horig ⊢
              exact horig
            · rw [if_neg hx, if_neg hx]
              exact horig
          · intro p hp
            have hp' := mem_alookup _ _ _
              (by rw [akeys_aupd, akeys_aupd]; exact hW.nodup_w) hp
            by_cases hx : p.1 = wid
            · rw [hx]
              exact hW.fresh (wid, w) hmemw
            · rw [alookup_aupd, if_neg hx, alookup_aupd, if_neg hx] at hp'
              exact hW.fresh p (alookup_eq_some_mem _ _ _ hp')
          · dsimp only
            rw [aupd_length, aupd_length]
            exact hW.count
          · intro x hx wv hlk
            rcases List.mem_cons.mp hx with rfl | hx
            · rw [alookup_aupd, if_pos rfl, alookup_aupd, if_pos rfl, hw]
                at hlk
              simp only [Option.map_some', Option.some.injEq] at hlk
              rw [← hlk]
              refine ⟨?_, ?_⟩
              · exact isEmpty_eq_nil hcond.1
              · exact bnot_true hcond.2
            · have hxw : x ≠ wid := fun hcx => hnu (hcx ▸ hx)
              rw [alookup_aupd, if_neg hxw, alookup_aupd, if_neg hxw] at hlk
              exact hU x hx wv hlk
          · intro x w' hlk
            by_cases hx : x = wid
            · subst hx
              left
              rw [alookup_aupd, if_pos rfl, alookup_aupd, if_pos rfl, hw]
                at hlk
              simp only [Option.map_some', Option.some.injEq] at hlk
              rw [← hlk]
              constructor
              · intro _
                exact ⟨isEmpty_eq_nil hcond.1,
                  bnot_true hcond.2⟩
              · intro _
                exact List.mem_cons_self _ _
            · right
              rw [alookup_aupd, if_neg hx, alookup_aupd, if_neg hx] at hlk
              refine ⟨w', hlk, rfl, rfl, ?_⟩
              constructor
              · intro hmem
                rcases List.mem_cons.mp hmem with h | h
                · exact absurd h hx
                · exact h
              · exact fun h => List.mem_cons_of_mem _ h
        · rw [if_neg hcond]
          refine ⟨⟨?_, ?_, ?_, ?_, ?_, ?_, ?_, ?_, ?_, ?_, ?_, ?_, ?_, ?_,
            ?_, ?_, ?_⟩, ?_, ?_⟩
          · rw [akeys_aupd]
            exact hW.nodup_w
          · exact hW.nodup_f
          · rw [akeys_aupd]
            exact hW.nodup_c
          · exact hW.nodup_u
          · intro x hx
            have hxw : x ≠ wid := fun hcx => hnu (hcx ▸ hx)
            rw [alookup_aupd, if_neg hxw]
            exact hW.unused_mem x hx
          · intro p hp hfl
            have hp' := mem_alookup _ _ _
              (by rw [akeys_aupd]; exact hW.nodup_w) hp
            by_cases hx : p.1 = wid
            · rw [alookup_aupd, if_pos hx, hx, hw] at hp'
              simp only [Option.map_some', Option.some.injEq] at hp'
              rw [← hp'] at hfl
              rw [hiu] at hfl
              cases hfl
            · rw [alookup_aupd, if_neg hx] at hp'
              exact hW.flag_unused p (alookup_eq_some_mem _ _ _ hp') hfl
          · intro p hp
            have hp' := mem_alookup _ _ _
              (by rw [akeys_aupd]; exact hW.nodup_w) hp
            by_cases hx : p.1 = wid
            · rw [alookup_aupd, if_pos hx, hx, hw] at hp'
              simp only [Option.map_some', Option.some.injEq] at hp'
              rw [← hp']
              exact hndc.erase cid
            · rw [alookup_aupd, if_neg hx] at hp'
              exact hW.wc_nodup p (alookup_eq_some_mem _ _ _ hp')
          · intro p hp cid' hcid'
            have hp' := mem_alookup _ _ _
              (by rw [akeys_aupd]; exact hW.nodup_w) hp
            by_cases hx : p.1 = wid
            · rw [alookup_aupd, if_pos hx, hx, hw] at hp'
              simp only [Option.map_some', Option.some.injEq] at hp'
              rw [← hp'] at hcid'
              have h2 := hndc.mem_erase_iff.mp hcid'
              rw [alookup_aupd, if_neg h2.1, hx]
              exact hW.wc_back (wid, w) hmemw cid' h2.2
            · rw [alookup_aupd, if_neg hx] at hp'
              have hpm := alookup_eq_some_mem _ _ _ hp'
              have hne : cid' ≠ cid := by
                intro hcx
                subst hcx
                have h2 := hW.wc_back p hpm cid' hcid'
                rw [hc] at h2
                simp only [Option.map_some'] at h2
                rw [hcw] at h2
                injection h2 with h3
                injection h3 with h4
                exact hx h4.symm
              rw [alookup_aupd, if_neg hne]
              exact hW.wc_back p hpm cid' hcid'
          · intro q hq
            have hq' := mem_alookup _ _ _
              (by rw [akeys_aupd]; exact hW.nodup_c) hq
            by_cases hx : q.1 = cid
            · rw [alookup_aupd, if_pos hx, hx, hc] at hq'
              simp only [Option.map_some', Option.some.injEq] at hq'
              rw [← hq', hx]
              exact hW.c_id (cid, c) hmc
            · rw [alookup_aupd, if_neg hx] at hq'
              exact hW.c_id q (alookup_eq_some_mem _ _ _ hq')
          · intro q hq
            have hq' := mem_alookup _ _ _
              (by rw [akeys_aupd]; exact hW.nodup_c) hq
            by_cases hx : q.1 = cid
            · rw [hx]
              exact hW.c_lt (cid, c) hmc
            · rw [alookup_aupd, if_neg hx] at hq'
              exact hW.c_lt q (alookup_eq_some_mem _ _ _ hq')
          · intro q hq
            have hq' := mem_alookup _ _ _
              (by rw [akeys_aupd]; exact hW.nodup_c) hq
            by_cases hx : q.1 = cid
            · rw [alookup_aupd, if_pos hx, hx, hc] at hq'
              simp only [Option.map_some', Option.some.injEq] at hq'
              rw [← hq']
              rfl
            · rw [alookup_aupd, if_neg hx] at hq'
              have hqm := alookup_eq_some_mem _ _ _ hq'
              have horig := hW.c_back q hqm
              unfold ctx_ok_in at horig ⊢
              cases hqw : q.2.window with
              | none => rfl
              | some wq =>
                rw [hqw] at horig
                dsimp only at horig ⊢
                cases hlq : alookup s.windows wq with
                | none =>
                  rw [hlq] at horig
                  cases horig
                | some wv =>
                  rw [hlq] at horig
                  dsimp only at horig
                  rw [alookup_aupd]
                  by_cases hwq : wq = wid
                  · rw [if_pos hwq, hwq, hw]
                    apply decide_eq_true
                    apply hndc.mem_erase_iff.mpr
                    refine ⟨hx, ?_⟩
                    rw [hwq, hw] at hlq
                    injection hlq with hlq2
                    rw [hlq2]
                    exact of_decide_eq_true horig
                  · rw [if_neg hwq, hlq]
                    dsimp only
                    exact horig
          · intro p hp
            have hp' := mem_alookup _ _ _
              (by rw [akeys_aupd]; exact hW.nodup_w) hp
            by_cases hx : p.1 = wid
            · rw [alookup_aupd, if_pos hx, hx, hw] at hp'
              simp only [Option.map_some', Option.some.injEq] at hp'
              rw [← hp', hx]
              exact hW.w_fd (wid, w) hmemw
            · rw [alookup_aupd, if_neg hx] at hp'
              exact hW.w_fd p (alookup_eq_some_mem _ _ _ hp')
          · exact hW.f_fd
          · exact hW.f_nodup
          · intro q hq wid' hwid'
            have horig := hW.f_back q hq wid' hwid'
            rw [alookup_aupd]
            by_cases hx : wid' = wid
            · rw [if_pos hx, hx, hw]
              rw [hx, hw] at horig
              simp only [Option.map_some'] at horig ⊢
              exact horig
            · rw [if_neg hx]
              exact horig
          · intro p hp
            have hp' := mem_alookup _ _ _
              (by rw [akeys_aupd]; exact hW.nodup_w) hp
            by_cases hx : p.1 = wid
            · rw [hx]
              exact hW.fresh (wid, w) hmemw
            · rw [alookup_aupd, if_neg hx] at hp'
              exact hW.fresh p (alookup_eq_some_mem _ _ _ hp')
          · dsimp only
            rw [aupd_length]
            exact hW.count
          · intro x hx wv hlk
            have hxw : x ≠ wid := fun hcx => hnu (hcx ▸ hx)
            rw [alookup_aupd, if_neg hxw] at hlk
            exact hU x hx wv hlk
          · intro x w' hlk
            by_cases hx : x = wid
            · subst hx
              left
              rw [alookup_aupd, if_pos rfl, hw] at hlk
              simp only [Option.map_some', Option.some.injEq] at hlk
              rw [← hlk]
              constructor
              · intro hmem
                exact absurd hmem hnu
              · intro h2
                exfalso
                apply hcond
                rw [show w.contexts.erase cid = [] from h2.1,
                  show w.keep_always = false from h2.2]
                rfl
            · right
              rw [alookup_aupd, if_neg hx] at hlk
              exact ⟨w', hlk, rfl, rfl, Iff.rfl⟩

/-- Attaching a context to a live window preserves well-formedness and the
one-sided invariant, transfers the invariant pointwise, and leaves the
target window attached to the context and off the unused list. -/
theorem context_attach_pres (s : MMapCache) (cid wid : Nat) (w₀ : Window)
    (hW : WF s) (hU : UC s) (hw₀ : alookup s.windows wid = some w₀)
    (hc0 : (alookup s.contexts cid).isSome) :
    WF (context_attach_window s cid wid) ∧
    UC (context_attach_window s cid wid) ∧
    PInv s (context_attach_window s cid wid) ∧
    (∃ w', alookup (context_attach_window s cid wid).windows wid = some w' ∧
      cid ∈ w'.contexts ∧ ¬ wid ∈ (context_attach_window s cid wid).unused)
    := by
  unfold context_attach_window
  cases hc : alookup s.contexts cid with
  | none =>
    rw [hc] at hc0
    cases hc0
  | some c =>
    dsimp only
    by_cases heq : c.window = some wid
    · rw [if_pos heq]
      have hmc : (cid, c) ∈ s.contexts := alookup_eq_some_mem _ _ _ hc
      have hok := hW.c_back (cid, c) hmc
      unfold ctx_ok_in at hok
      rw [heq] at hok
      dsimp only at hok
      rw [hw₀] at hok
      dsimp only at hok
      have hcin := of_decide_eq_true hok
      refine ⟨hW, hU, PInv_refl s, w₀, hw₀, hcin, ?_⟩
      intro hmem
      have h2 := (hU wid hmem w₀ hw₀).1
      rw [h2] at hcin
      cases hcin
    · rw [if_neg heq]
      obtain ⟨hWd, hUd, hPd⟩ := context_detach_pres s cid hW hU
      have hw₁ : (alookup (context_detach_window s cid).windows wid).isSome
        := detach_windows_isSome s cid wid (by rw [hw₀]; rfl)
      obtain ⟨cd, hcdl, hcdw⟩ := detach_context_none s cid c hc
      set sd := context_detach_window s cid with hsd
      have hmcd : (cid, cd) ∈ sd.contexts := alookup_eq_some_mem _ _ _ hcdl
      cases hwd : alookup sd.windows wid with
      | none =>
        rw [hwd] at hw₁
        cases hw₁
      | some wd =>
        dsimp only
        have hmwd : (wid, wd) ∈ sd.windows := alookup_eq_some_mem _ _ _ hwd
        have hnocid : ∀ (x : Nat) (wv : Window),
            alookup sd.windows x = some wv → ¬ cid ∈ wv.contexts := by
          intro x wv hlk hmem
          have h2 := hWd.wc_back (x, wv)
            (alookup_eq_some_mem _ _ _ hlk) cid hmem
          rw [hcdl] at h2
          simp only [Option.map_some'] at h2
          rw [hcdw] at h2
          injection h2 with h3
          cases h3
        by_cases hbu : wd.in_unused = true
        · rw [if_pos hbu]
          dsimp only
          refine ⟨⟨?_, ?_, ?_, ?_, ?_, ?_, ?_, ?_, ?_, ?_, ?_, ?_, ?_, ?_,
            ?_, ?_, ?_⟩, ?_, ?_, ?_⟩
          · rw [akeys_aupd, akeys_aupd]
            exact hWd.nodup_w
          · exact hWd.nodup_f
          · rw [akeys_aupd]
            exact hWd.nodup_c
          · exact hWd.nodup_u.erase wid
          · intro x hx
            have h2 := hWd.nodup_u.mem_erase_iff.mp hx
            rw [alookup_aupd, if_neg h2.1, alookup_aupd, if_neg h2.1]
            exact hWd.unused_mem x h2.2
          · intro p hp hfl
            have hp' := mem_alookup _ _ _
              (by rw [akeys_aupd, akeys_aupd]; exact hWd.nodup_w) hp
            by_cases hx : p.1 = wid
            · rw [alookup_aupd, if_pos hx, alookup_aupd, if_pos hx, hx,
                hwd] at hp'
              simp only [Option.map_some', Option.some.injEq] at hp'
              rw [← hp'] at hfl
              exact absurd (show (false : Bool) = true from hfl)
                Bool.false_ne_true
            · rw [alookup_aupd, if_neg hx, alookup_aupd, if_neg hx] at hp'
              exact hWd.nodup_u.mem_erase_iff.mpr ⟨hx,
                hWd.flag_unused p (alookup_eq_some_mem _ _ _ hp') hfl⟩
          · intro p hp
            have hp' := mem_alookup _ _ _
              (by rw [akeys_aupd, akeys_aupd]; exact hWd.nodup_w) hp
            by_cases hx : p.1 = wid
            · rw [alookup_aupd, if_pos hx, alookup_aupd, if_pos hx, hx,
                hwd] at hp'
              simp only [Option.map_some', Option.some.injEq] at hp'
              rw [← hp']
              exact List.nodup_cons.mpr ⟨hnocid wid wd hwd,
                hWd.wc_nodup (wid, wd) hmwd⟩
            · rw [alookup_aupd, if_neg hx, alookup_aupd, if_neg hx] at hp'
              exact hWd.wc_nodup p (alookup_eq_some_mem _ _ _ hp')
          · intro p hp cid' hcid'
            have hp' := mem_alookup _ _ _
              (by rw [akeys_aupd, akeys_aupd]; exact hWd.nodup_w) hp
            by_cases hx : p.1 = wid
            · rw [alookup_aupd, if_pos hx, alookup_aupd, if_pos hx, hx,
                hwd] at hp'
              simp only [Option.map_some', Option.some.injEq] at hp'
              rw [← hp'] at hcid'
              rcases List.mem_cons.mp hcid' with rfl | hcid2
              · rw [alookup_aupd, if_pos rfl, hcdl, hx]
                rfl
              · have hne : cid' ≠ cid := by
                  intro hcx
                  subst hcx
                  exact hnocid wid wd hwd hcid2
                rw [alookup_aupd, if_neg hne, hx]
                exact hWd.wc_back (wid, wd) hmwd cid' hcid2
            · rw [alookup_aupd, if_neg hx, alookup_aupd, if_neg hx] at hp'
              have hpm := alookup_eq_some_mem _ _ _ hp'
              have hne : cid' ≠ cid := by
                intro hcx
                subst hcx
                exact hnocid p.1 p.2 hp' hcid'
              rw [alookup_aupd, if_neg hne]
              exact hWd.wc_back p hpm cid' hcid'
          · intro q hq
            have hq' := mem_alookup _ _ _
              (by rw [akeys_aupd]; exact hWd.nodup_c) hq
            by_cases hx : q.1 = cid
            · rw [alookup_aupd, if_pos hx, hx, hcdl] at hq'
              simp only [Option.map_some', Option.some.injEq] at hq'
              rw [← hq', hx]
              exact hWd.c_id (cid, cd) hmcd
            · rw [alookup_aupd, if_neg hx] at hq'
              exact hWd.c_id q (alookup_eq_some_mem _ _ _ hq')
          · intro q hq
            have hq' := mem_alookup _ _ _
              (by rw [akeys_aupd]; exact hWd.nodup_c) hq
            by_cases hx : q.1 = cid
            · rw [hx]
              exact hWd.c_lt (cid, cd) hmcd
            · rw [alookup_aupd, if_neg hx] at hq'
              exact hWd.c_lt q (alookup_eq_some_mem _ _ _ hq')
          · intro q hq
            have hq' := mem_alookup _ _ _
              (by rw [akeys_aupd]; exact hWd.nodup_c) hq
            by_cases hx : q.1 = cid
            · rw [alookup_aupd, if_pos hx, hx, hcdl] at hq'
              simp only [Option.map_some', Option.some.injEq] at hq'
              rw [← hq']
              unfold ctx_ok_in
              dsimp only
              rw [alookup_aupd, if_pos rfl, alookup_aupd, if_pos rfl, hwd]
              apply decide_eq_true
              rw [hx]
              exact List.mem_cons_self _ _
            · rw [alookup_aupd, if_neg hx] at hq'
              have hqm := alookup_eq_some_mem _ _ _ hq'
              have horig := hWd.c_back q hqm
              unfold ctx_ok_in at horig ⊢
              cases hqw : q.2.window with
              | none => rfl
              | some wq =>
                rw [hqw] at horig
                dsimp only at horig ⊢
                cases hlq : alookup sd.windows wq with
                | none =>
                  rw [hlq] at horig
                  cases horig
                | some wv =>
                  rw [hlq] at horig
                  dsimp only at horig
                  rw [alookup_aupd, alookup_aupd]
                  by_cases hwq : wq = wid
                  · rw [if_pos hwq, if_pos hwq, hwq, hwd]
                    apply decide_eq_true
                    apply List.mem_cons_of_mem
                    rw [hwq, hwd] at hlq
                    injection hlq with hlq2
                    rw [hlq2]
                    exact of_decide_eq_true horig
                  · rw [if_neg hwq, if_neg hwq, hlq]
                    dsimp only
                    exact horig
          · intro p hp
            have hp' := mem_alookup _ _ _
              (by rw [akeys_aupd, akeys_aupd]; exact hWd.nodup_w) hp
            by_cases hx : p.1 = wid
            · rw [alookup_aupd, if_pos hx, alookup_aupd, if_pos hx, hx,
                hwd] at hp'
              simp only [Option.map_some', Option.some.injEq] at hp'
              rw [← hp', hx]
              exact hWd.w_fd (wid, wd) hmwd
            · rw [alookup_aupd, if_neg hx, alookup_aupd, if_neg hx] at hp'
              exact hWd.w_fd p (alookup_eq_some_mem _ _ _ hp')
          · exact hWd.f_fd
          · exact hWd.f_nodup
          · intro q hq wid' hwid'
            have horig := hWd.f_back q hq wid' hwid'
            rw [alookup_aupd, alookup_aupd]
            by_cases hx : wid' = wid
            · rw [if_pos hx, if_pos hx, hx, hwd]
              rw [hx, hwd] at horig
              simp only [Option.map_some'] at horig ⊢
              exact horig
            · rw [if_neg hx, if_neg hx]
              exact horig
          · intro p hp
            have hp' := mem_alookup _ _ _
              (by rw [akeys_aupd, akeys_aupd]; exact hWd.nodup_w) hp
            by_cases hx : p.1 = wid
            · rw [hx]
              exact hWd.fresh (wid, wd) hmwd
            · rw [alookup_aupd, if_neg hx, alookup_aupd, if_neg hx] at hp'
              exact hWd.fresh p (alookup_eq_some_mem _ _ _ hp')
          · dsimp only
            rw [aupd_length, aupd_length]
            exact hWd.count
          · intro x hx wv hlk
            have h2 := hWd.nodup_u.mem_erase_iff.mp hx
            rw [alookup_aupd, if_neg h2.1, alookup_aupd, if_neg h2.1]
              at hlk
            exact hUd x h2.2 wv hlk
          · refine PInv_trans _ _ _ hPd ?_
            intro x w' hlk
            by_cases hx : x = wid
            · subst hx
              left
              rw [alookup_aupd, if_pos rfl, alookup_aupd, if_pos rfl, hwd]
                at hlk
              simp only [Option.map_some', Option.some.injEq] at hlk
              rw [← hlk]
              constructor
              · intro hmem
                exact absurd ((hWd.nodup_u.mem_erase_iff.mp hmem).1 rfl)
                  False.elim
              · intro h2
                exact absurd (show cid :: wd.contexts = [] from h2.1)
                  (List.cons_ne_nil _ _)
            · right
              rw [alookup_aupd, if_neg hx, alookup_aupd, if_neg hx] at hlk
              refine ⟨w', hlk, rfl, rfl, ?_⟩
              constructor
              · intro hmem
                exact (hWd.nodup_u.mem_erase_iff.mp hmem).2
              · intro hmem
                exact hWd.nodup_u.mem_erase_iff.mpr ⟨hx, hmem⟩
          · refine ⟨{ wd with
                in_unused := false, contexts := cid :: wd.contexts },
              ?_, ?_, ?_⟩
            · rw [alookup_aupd, if_pos rfl, alookup_aupd, if_pos rfl, hwd]
              rfl
            · exact List.mem_cons_self _ _
            · intro hmem
              exact (hWd.nodup_u.mem_erase_iff.mp hmem).1 rfl
        · rw [if_neg hbu]
          have hwu_not : ¬ wid ∈ sd.unused := by
            intro hm
            have h2 := hWd.unused_mem wid hm
            rw [hwd] at h2
            simp only [Option.map_some', Option.some.injEq] at h2
            exact hbu h2
          refine ⟨⟨?_, ?_, ?_, ?_, ?_, ?_, ?_, ?_, ?_, ?_, ?_, ?_, ?_, ?_,
            ?_, ?_, ?_⟩, ?_, ?_, ?_⟩
          · rw [akeys_aupd]
            exact hWd.nodup_w
          · exact hWd.nodup_f
          · rw [akeys_aupd]
            exact hWd.nodup_c
          · exact hWd.nodup_u
          · intro x hx
            have hxw : x ≠ wid := fun hcx => hwu_not (hcx ▸ hx)
            rw [alookup_aupd, if_neg hxw]
            exact hWd.unused_mem x hx
          · intro p hp hfl
            have hp' := mem_alookup _ _ _
              (by rw [akeys_aupd]; exact hWd.nodup_w) hp
            by_cases hx : p.1 = wid
            · rw [alookup_aupd, if_pos hx, hx, hwd] at hp'
              simp only [Option.map_some', Option.some.injEq] at hp'
              rw [← hp'] at hfl
              exact absurd hfl hbu
            · rw [alookup_aupd, if_neg hx] at hp'
              exact hWd.flag_unused p (alookup_eq_some_mem _ _ _ hp') hfl
          · intro p hp
            have hp' := mem_alookup _ _ _
              (by rw [akeys_aupd]; exact hWd.nodup_w) hp
            by_cases hx : p.1 = wid
            · rw [alookup_aupd, if_pos hx, hx, hwd] at hp'
              simp only [Option.map_some', Option.some.injEq] at hp'
              rw [← hp']
              exact List.nodup_cons.mpr ⟨hnocid wid wd hwd,
                hWd.wc_nodup (wid, wd) hmwd⟩
            · rw [alookup_aupd, if_neg hx] at hp'
              exact hWd.wc_nodup p (alookup_eq_some_mem _ _ _ hp')
          · intro p hp cid' hcid'
            have hp' := mem_alookup _ _ _
              (by rw [akeys_aupd]; exact hWd.nodup_w) hp
            by_cases hx : p.1 = wid
            · rw [alookup_aupd, if_pos hx, hx, hwd] at hp'
              simp only [Option.map_some', Option.some.injEq] at hp'
              rw [← hp'] at hcid'
              rcases List.mem_cons.mp hcid' with rfl | hcid2
              · rw [alookup_aupd, if_pos rfl, hcdl, hx]
                rfl
              · have hne : cid' ≠ cid := by
                  intro hcx
                  subst hcx
                  exact hnocid wid wd hwd hcid2
                rw [alookup_aupd, if_neg hne, hx]
                exact hWd.wc_back (wid, wd) hmwd cid' hcid2
            · rw [alookup_aupd, if_neg hx] at hp'
              have hpm := alookup_eq_some_mem _ _ _ hp'
              have hne : cid' ≠ cid := by
                intro hcx
                subst hcx
                exact hnocid p.1 p.2 hp' hcid'
              rw [alookup_aupd, if_neg hne]
              exact hWd.wc_back p hpm cid' hcid'
          · intro q hq
            have hq' := mem_alookup _ _ _
              (by rw [akeys_aupd]; exact hWd.nodup_c) hq
            by_cases hx : q.1 = cid
            · rw [alookup_aupd, if_pos hx, hx, hcdl] at hq'
              simp only [Option.map_some', Option.some.injEq] at hq'
              rw [← hq', hx]
              exact hWd.c_id (cid, cd) hmcd
            · rw [alookup_aupd, if_neg hx] at hq'
              exact hWd.c_id q (alookup_eq_some_mem _ _ _ hq')
          · intro q hq
            have hq' := mem_alookup _ _ _
              (by rw [akeys_aupd]; exact hWd.nodup_c) hq
            by_cases hx : q.1 = cid
            · rw [hx]
              exact hWd.c_lt (cid, cd) hmcd
            · rw [alookup_aupd, if_neg hx] at hq'
              exact hWd.c_lt q (alookup_eq_some_mem _ _ _ hq')
          · intro q hq
            have hq' := mem_alookup _ _ _
              (by rw [akeys_aupd]; exact hWd.nodup_c) hq
            by_cases hx : q.1 = cid
            · rw [alookup_aupd, if_pos hx, hx, hcdl] at hq'
              simp only [Option.map_some', Option.some.injEq] at hq'
              rw [← hq']
              unfold ctx_ok_in
              dsimp only
              rw [alookup_aupd, if_pos rfl, hwd]
              apply decide_eq_true
              rw [hx]
              exact List.mem_cons_self _ _
            · rw [alookup_aupd, if_neg hx] at hq'
              have hqm := alookup_eq_some_mem _ _ _ hq'
              have horig := hWd.c_back q hqm
              unfold ctx_ok_in at horig ⊢
              cases hqw : q.2.window with
              | none => rfl
              | some wq =>
                rw [hqw] at horig
                dsimp only at horig ⊢
                cases hlq : alookup sd.windows wq with
                | none =>
                  rw [hlq] at horig
                  cases horig
                | some wv =>
                  rw [hlq] at horig
                  dsimp only at horig
                  rw [alookup_aupd]
                  by_cases hwq : wq = wid
                  · rw [if_pos hwq, hwq, hwd]
                    apply decide_eq_true
                    apply List.mem_cons_of_mem
                    rw [hwq, hwd] at hlq
                    injection hlq with hlq2
                    rw [hlq2]
                    exact of_decide_eq_true horig
                  · rw [if_neg hwq, hlq]
                    dsimp only
                    exact horig
          · intro p hp
            have hp' := mem_alookup _ _ _
              (by rw [akeys_aupd]; exact hWd.nodup_w) hp
            by_cases hx : p.1 = wid
            · rw [alookup_aupd, if_pos hx, hx, hwd] at hp'
              simp only [Option.map_some', Option.some.injEq] at hp'
              rw [← hp', hx]
              exact hWd.w_fd (wid, wd) hmwd
            · rw [alookup_aupd, if_neg hx] at hp'
              exact hWd.w_fd p (alookup_eq_some_mem _ _ _ hp')
          · exact hWd.f_fd
          · exact hWd.f_nodup
          · intro q hq wid' hwid'
            have horig := hWd.f_back q hq wid' hwid'
            rw [alookup_aupd]
            by_cases hx : wid' = wid
            · rw [if_pos hx, hx, hwd]
              rw [hx, hwd] at horig
              simp only [Option.map_some'] at horig ⊢
              exact horig
            · rw [if_neg hx]
              exact horig
          · intro p hp
            have hp' := mem_alookup _ _ _
              (by rw [akeys_aupd]; exact hWd.nodup_w) hp
            by_cases hx : p.1 = wid
            · rw [hx]
              exact hWd.fresh (wid, wd) hmwd
            · rw [alookup_aupd, if_neg hx] at hp'
              exact hWd.fresh p (alookup_eq_some_mem _ _ _ hp')
          · dsimp only
            rw [aupd_length]
            exact hWd.count
          · intro x hx wv hlk
            have hxw : x ≠ wid := fun hcx => hwu_not (hcx ▸ hx)
            rw [alookup_aupd, if_neg hxw] at hlk
            exact hUd x hx wv hlk
          · refine PInv_trans _ _ _ hPd ?_
            intro x w' hlk
            by_cases hx : x = wid
            · subst hx
              left
              rw [alookup_aupd, if_pos rfl, hwd] at hlk
              simp only [Option.map_some', Option.some.injEq] at hlk
              rw [← hlk]
              constructor
              · intro hmem
                exact absurd hmem hwu_not
              · intro h2
                exact absurd (show cid :: wd.contexts = [] from h2.1)
                  (List.cons_ne_nil _ _)
            · right
              rw [alookup_aupd, if_neg hx] at hlk
              exact ⟨w', hlk, rfl, rfl, Iff.rfl⟩
          · refine ⟨{ wd with contexts := cid :: wd.contexts }, ?_, ?_, ?_⟩
            · rw [alookup_aupd, if_pos rfl, hwd]
              rfl
            · exact List.mem_cons_self _ _
            · exact hwu_not

theorem PInv_same (s t : MMapCache) (hw : t.windows = s.windows)
    (hu : t.unused = s.unused) : PInv s t := by
  intro x w' hlk
  rw [hw] at hlk
  exact Or.inr ⟨w', hlk, rfl, rfl, by rw [hu]⟩

/-- A pointwise window update that keeps the owner, the unused flag and
the context list preserves well-formedness. -/
theorem WF_windows_aupd (s : MMapCache) (wid : Nat) (g : Window → Window)
    (hfd : ∀ v, (g v).fd = v.fd) (hiu : ∀ v, (g v).in_unused = v.in_unused)
    (hct : ∀ v, (g v).contexts = v.contexts) (hW : WF s) :
    WF { s with windows := aupd s.windows wid g } := by
  refine ⟨?_, hW.nodup_f, hW.nodup_c, hW.nodup_u, ?_, ?_, ?_, ?_, hW.c_id,
    hW.c_lt, ?_, ?_, hW.f_fd, hW.f_nodup, ?_, ?_, ?_⟩
  · rw [akeys_aupd]
    exact hW.nodup_w
  · intro x hx
    have horig := hW.unused_mem x hx
    rw [alookup_aupd]
    by_cases hxw : x = wid
    · rw [if_pos hxw]
      cases hlk : alookup s.windows x with
      | none =>
        rw [hlk] at horig
        cases horig
      | some v =>
        rw [hlk] at horig
        simp only [Option.map_some', hiu v]
        simp only [Option.map_some'] at horig
        exact horig
    · rw [if_neg hxw]
      exact horig
  · intro p hp hfl
    have hp' := mem_alookup _ _ _
      (by rw [akeys_aupd]; exact hW.nodup_w) hp
    rw [alookup_aupd] at hp'
    by_cases hx : p.1 = wid
    · rw [if_pos hx] at hp'
      cases hlk : alookup s.windows p.1 with
      | none =>
        rw [hlk] at hp'
        cases hp'
      | some v =>
        rw [hlk] at hp'
        simp only [Option.map_some', Option.some.injEq] at hp'
        rw [← hp', hiu v] at hfl
        exact hW.flag_unused (p.1, v) (alookup_eq_some_mem _ _ _ hlk) hfl
    · rw [if_neg hx] at hp'
      exact hW.flag_unused p (alookup_eq_some_mem _ _ _ hp') hfl
  · intro p hp
    have hp' := mem_alookup _ _ _
      (by rw [akeys_aupd]; exact hW.nodup_w) hp
    rw [alookup_aupd] at hp'
    by_cases hx : p.1 = wid
    · rw [if_pos hx] at hp'
      cases hlk : alookup s.windows p.1 with
      | none =>
        rw [hlk] at hp'
        cases hp'
      | some v =>
        rw [hlk] at hp'
        simp only [Option.map_some', Option.some.injEq] at hp'
        rw [← hp', hct v]
        exact hW.wc_nodup (p.1, v) (alookup_eq_some_mem _ _ _ hlk)
    · rw [if_neg hx] at hp'
      exact hW.wc_nodup p (alookup_eq_some_mem _ _ _ hp')
  · intro p hp cid hcid
    have hp' := mem_alookup _ _ _
      (by rw [akeys_aupd]; exact hW.nodup_w) hp
    rw [alookup_aupd] at hp'
    by_cases hx : p.1 = wid
    · rw [if_pos hx] at hp'
      cases hlk : alookup s.windows p.1 with
      | none =>
        rw [hlk] at hp'
        cases hp'
      | some v =>
        rw [hlk] at hp'
        simp only [Option.map_some', Option.some.injEq] at hp'
        rw [← hp', hct v] at hcid
        exact hW.wc_back (p.1, v) (alookup_eq_some_mem _ _ _ hlk) cid hcid
    · rw [if_neg hx] at hp'
      exact hW.wc_back p (alookup_eq_some_mem _ _ _ hp') cid hcid
  · intro q hq
    have horig := hW.c_back q hq
    unfold ctx_ok_in at horig ⊢
    cases hqw : q.2.window with
    | none => rfl
    | some wq =>
      rw [hqw] at horig
      dsimp only at horig ⊢
      rw [alookup_aupd]
      by_cases hwq : wq = wid
      · rw [if_pos hwq]
        cases hlq : alookup s.windows wq with
        | none =>
          rw [hlq] at horig
          cases horig
        | some wv =>
          rw [hlq] at horig
          dsimp only at horig
          simp only [Option.map_some']
          show decide (q.1 ∈ (g wv).contexts) = true
          rw [hct wv]
          exact horig
      · rw [if_neg hwq]
        exact horig
  · intro p hp
    have hp' := mem_alookup _ _ _
      (by rw [akeys_aupd]; exact hW.nodup_w) hp
    rw [alookup_aupd] at hp'
    by_cases hx : p.1 = wid
    · rw [if_pos hx] at hp'
      cases hlk : alookup s.windows p.1 with
      | none =>
        rw [hlk] at hp'
        cases hp'
      | some v =>
        rw [hlk] at hp'
        simp only [Option.map_some', Option.some.injEq] at hp'
        have horig := hW.w_fd (p.1, v) (alookup_eq_some_mem _ _ _ hlk)
        unfold win_fd_ok at horig ⊢
        rw [← hp', hfd v]
        exact horig
    · rw [if_neg hx] at hp'
      exact hW.w_fd p (alookup_eq_some_mem _ _ _ hp')
  · intro q hq wid' hwid'
    have horig := hW.f_back q hq wid' hwid'
    rw [alookup_aupd]
    by_cases hx : wid' = wid
    · rw [if_pos hx]
      cases hlq : alookup s.windows wid' with
      | none =>
        rw [hlq] at horig
        cases horig
      | some wv =>
        rw [hlq] at horig
        simp only [Option.map_some', hfd wv]
        simp only [Option.map_some'] at horig
        exact horig
    · rw [if_neg hx]
      exact horig
  · intro p hp
    have hp' := mem_alookup _ _ _
      (by rw [akeys_aupd]; exact hW.nodup_w) hp
    rw [alookup_aupd] at hp'
    by_cases hx : p.1 = wid
    · cases hlk : alookup s.windows p.1 with
      | none =>
        rw [if_pos hx, hlk] at hp'
        cases hp'
      | some v =>
        exact hW.fresh (p.1, v) (alookup_eq_some_mem _ _ _ hlk)
    · rw [if_neg hx] at hp'
      exact hW.fresh p (alookup_eq_some_mem _ _ _ hp')
  · show s.n_windows = (aupd s.windows wid g).length
    rw [aupd_length]
    exact hW.count

/-- A pointwise window update that keeps the context list and the pin
preserves the one-sided unused-list invariant. -/
theorem UC_windows_aupd (s : MMapCache) (wid : Nat) (g : Window → Window)
    (hct : ∀ v, (g v).contexts = v.contexts)
    (hk : ∀ v, (g v).keep_always = v.keep_always) (hU : UC s) :
    UC { s with windows := aupd s.windows wid g } := by
  intro x hx wv hlk
  show wv.contexts = [] ∧ wv.keep_always = false
  rw [alookup_aupd] at hlk
  by_cases hxw : x = wid
  · rw [if_pos hxw] at hlk
    cases hlk2 : alookup s.windows x with
    | none =>
      rw [hlk2] at hlk
      cases hlk
    | some v =>
      rw [hlk2] at hlk
      simp only [Option.map_some', Option.some.injEq] at hlk
      rw [← hlk, hct v, hk v]
      exact hU x hx v hlk2
  · rw [if_neg hxw] at hlk
    exact hU x hx wv hlk

/-- A pointwise window update that keeps the context list and the pin
transfers the invariant pointwise. -/
theorem PInv_windows_aupd (s : MMapCache) (wid : Nat) (g : Window → Window)
    (hct : ∀ v, (g v).contexts = v.contexts)
    (hk : ∀ v, (g v).keep_always = v.keep_always) :
    PInv s { s with windows := aupd s.windows wid g } := by
  intro x w' hlk
  show _ ∨ ∃ w, alookup s.windows x = some w ∧ w.contexts = w'.contexts ∧
    w.keep_always = w'.keep_always ∧ (x ∈ s.unused ↔ x ∈ s.unused)
  rw [alookup_aupd] at hlk
  by_cases hxw : x = wid
  · rw [if_pos hxw] at hlk
    cases hlk2 : alookup s.windows x with
    | none =>
      rw [hlk2] at hlk
      cases hlk
    | some v =>
      rw [hlk2] at hlk
      simp only [Option.map_some', Option.some.injEq] at hlk
      exact Or.inr ⟨v, rfl, by rw [← hlk, hct v], by rw [← hlk, hk v],
        Iff.rfl⟩
  · rw [if_neg hxw] at hlk
    exact Or.inr ⟨w', hlk, rfl, rfl, Iff.rfl⟩

/-- `window_invalidate` preserves well-formedness and the invariants. -/
theorem window_invalidate_pres (s : MMapCache) (wid : Nat) (hW : WF s)
    (hU : UC s) :
    WF (window_invalidate s wid) ∧ UC (window_invalidate s wid) ∧
      PInv s (window_invalidate s wid) := by
  unfold window_invalidate
  cases hw : alookup s.windows wid with
  | none => exact ⟨hW, hU, PInv_refl s⟩
  | some w =>
    dsimp only
    by_cases hinv : w.invalidated = true
    · rw [if_pos hinv]
      exact ⟨hW, hU, PInv_refl s⟩
    · rw [if_neg hinv]
      exact ⟨WF_windows_aupd s wid _ (fun v => rfl) (fun v => rfl)
          (fun v => rfl) hW,
        UC_windows_aupd s wid _ (fun v => rfl) (fun v => rfl) hU,
        PInv_windows_aupd s wid _ (fun v => rfl) (fun v => rfl)⟩

/-- Folding the pin of a window attached to at least one context preserves
well-formedness and the invariants. -/
theorem orin_pres (s : MMapCache) (wid : Nat) (keep : Bool) (w : Window)
    (hW : WF s) (hU : UC s) (hw : alookup s.windows wid = some w)
    (hne : w.contexts ≠ []) :
    WF { s with windows := aupd s.windows wid fun v =>
        { v with keep_always := v.keep_always || keep } } ∧
    UC { s with windows := aupd s.windows wid fun v =>
        { v with keep_always := v.keep_always || keep } } ∧
    PInv s { s with windows := aupd s.windows wid fun v =>
        { v with keep_always := v.keep_always || keep } } := by
  have hnu : ¬ wid ∈ s.unused := by
    intro hmem
    exact hne (hU wid hmem w hw).1
  refine ⟨WF_windows_aupd s wid _ (fun v => rfl) (fun v => rfl)
      (fun v => rfl) hW, ?_, ?_⟩
  · intro x hx wv hlk
    show wv.contexts = [] ∧ wv.keep_always = false
    rw [alookup_aupd] at hlk
    by_cases hxw : x = wid
    · exact absurd (hxw ▸ hx) hnu
    · rw [if_neg hxw] at hlk
      exact hU x hx wv hlk
  · intro x w' hlk
    rw [alookup_aupd] at hlk
    by_cases hxw : x = wid
    · subst hxw
      rw [if_pos rfl, hw] at hlk
      simp only [Option.map_some', Option.some.injEq] at hlk
      left
      constructor
      · intro hmem
        exact absurd hmem hnu
      · intro h2
        exfalso
        apply hne
        have h3 := h2.1
        rw [← hlk] at h3
        exact h3
    · rw [if_neg hxw] at hlk
      exact Or.inr ⟨w', hlk, rfl, rfl, Iff.rfl⟩

/-- A pointwise fd update that keeps the fd number and the window list
preserves well-formedness. -/
theorem WF_fds_aupd (s : MMapCache) (k : Nat)
    (g : MMapFileDescriptor → MMapFileDescriptor)
    (hfd : ∀ v, (g v).fd = v.fd) (hwl : ∀ v, (g v).windows = v.windows)
    (hW : WF s) : WF { s with fds := aupd s.fds k g } := by
  refine ⟨hW.nodup_w, ?_, hW.nodup_c, hW.nodup_u, hW.unused_mem,
    hW.flag_unused, hW.wc_nodup, hW.wc_back, hW.c_id, hW.c_lt, hW.c_back,
    ?_, ?_, ?_, ?_, hW.fresh, hW.count⟩
  · rw [akeys_aupd]
    exact hW.nodup_f
  · intro p hp
    have horig := hW.w_fd p hp
    unfold win_fd_ok at horig ⊢
    rw [alookup_aupd]
    by_cases hx : p.2.fd = k
    · rw [if_pos hx]
      cases hlf : alookup s.fds p.2.fd with
      | none =>
        rw [hlf] at horig
        cases horig
      | some f =>
        rw [hlf] at horig
        dsimp only at horig
        simp only [Option.map_some']
        show decide (p.1 ∈ (g f).windows) = true
        rw [hwl f]
        exact horig
    · rw [if_neg hx]
      exact horig
  · intro q hq
    have hq' : q ∈ aupd s.fds k g := hq
    rcases mem_aupd _ _ _ q hq' with ⟨b, hb, ⟨_, h⟩ | ⟨_, h⟩⟩
    · rw [h]
      exact hW.f_fd (q.1, b) hb
    · rw [h, hfd b]
      exact hW.f_fd (q.1, b) hb
  · intro q hq
    have hq' : q ∈ aupd s.fds k g := hq
    rcases mem_aupd _ _ _ q hq' with ⟨b, hb, ⟨_, h⟩ | ⟨_, h⟩⟩
    · rw [h]
      exact hW.f_nodup (q.1, b) hb
    · rw [h, hwl b]
      exact hW.f_nodup (q.1, b) hb
  · intro q hq wid' hwid'
    have hq' : q ∈ aupd s.fds k g := hq
    rcases mem_aupd _ _ _ q hq' with ⟨b, hb, ⟨_, h⟩ | ⟨_, h⟩⟩
    · rw [h] at hwid'
      exact hW.f_back (q.1, b) hb wid' hwid'
    · rw [h, hwl b] at hwid'
      exact hW.f_back (q.1, b) hb wid' hwid'

/-- `context_add` preserves well-formedness and the invariants, and
guarantees the context slot is populated. -/
theorem context_add_pres (s : MMapCache) (id : Nat) (ok : Bool)
    (s' : MMapCache) (hlt : id < MMAP_CACHE_MAX_CONTEXTS) (hW : WF s)
    (hU : UC s) (h : context_add s id ok = some s') :
    WF s' ∧ UC s' ∧ PInv s s' ∧ (alookup s'.contexts id).isSome ∧
      s'.windows = s.windows ∧ s'.unused = s.unused ∧ s'.fds = s.fds := by
  unfold context_add at h
  revert h
  cases hcl : alookup s.contexts id with
  | some c =>
    intro h
    cases h
    exact ⟨hW, hU, PInv_refl s, by rw [hcl]; rfl, rfl, rfl, rfl⟩
  | none =>
    dsimp only
    by_cases hok : ok = true
    · rw [if_pos hok]
      intro h
      cases h
      refine ⟨⟨hW.nodup_w, hW.nodup_f, ?_, hW.nodup_u, hW.unused_mem,
        hW.flag_unused, hW.wc_nodup, ?_, ?_, ?_, ?_, hW.w_fd, hW.f_fd,
        hW.f_nodup, hW.f_back, hW.fresh, hW.count⟩, hU,
        PInv_same _ _ rfl rfl, ?_, rfl, rfl, rfl⟩
      · refine List.nodup_cons.mpr ⟨?_, hW.nodup_c⟩
        intro hmem
        have h2 := (mem_akeys s.contexts id).mp hmem
        rw [hcl] at h2
        cases h2
      · intro p hp cid hcid
        have horig := hW.wc_back p hp cid hcid
        have hne : id ≠ cid := by
          intro hcx
          subst hcx
          rw [hcl] at horig
          cases horig
        show (alookup ((id, ⟨id, none⟩) :: s.contexts) cid).map
          Context.window = some (some p.1)
        simp only [alookup, if_neg hne]
        exact horig
      · intro q hq
        rcases List.mem_cons.mp hq with rfl | hq2
        · rfl
        · exact hW.c_id q hq2
      · intro q hq
        rcases List.mem_cons.mp hq with rfl | hq2
        · exact hlt
        · exact hW.c_lt q hq2
      · intro q hq
        rcases List.mem_cons.mp hq with rfl | hq2
        · rfl
        · exact hW.c_back q hq2
      · show (alookup ((id, ⟨id, none⟩) :: s.contexts) id).isSome
        simp [alookup]
    · rw [if_neg hok]
      intro h
      cases h

/-- The fresh-window constructor inside `window_add`: adds a window with
an empty context list, owned by `fdk`, off the unused list. -/
theorem window_add_mk_pres (s₀ : MMapCache) (fdk : Nat) (keep : Bool)
    (off sz ptr : Nat) (hW : WF s₀) (hU : UC s₀)
    (hfd : (alookup s₀.fds fdk).isSome) :
    WF { s₀ with
         windows := (s₀.next_wid,
           (⟨fdk, false, keep, false, ptr, off, sz, []⟩ : Window)) ::
             s₀.windows,
         next_wid := s₀.next_wid + 1,
         n_windows := s₀.n_windows + 1,
         fds := aupd s₀.fds fdk fun f =>
           { f with windows := s₀.next_wid :: f.windows } } ∧
    UC { s₀ with
         windows := (s₀.next_wid,
           (⟨fdk, false, keep, false, ptr, off, sz, []⟩ : Window)) ::
             s₀.windows,
         next_wid := s₀.next_wid + 1,
         n_windows := s₀.n_windows + 1,
         fds := aupd s₀.fds fdk fun f =>
           { f with windows := s₀.next_wid :: f.windows } } ∧
    (∀ x w', ¬ x = s₀.next_wid →
      alookup ((s₀.next_wid,
          (⟨fdk, false, keep, false, ptr, off, sz, []⟩ : Window)) ::
          s₀.windows) x = some w' →
      alookup s₀.windows x = some w') := by
  have hfresh : alookup s₀.windows s₀.next_wid = none :=
    alookup_none_of_lt _ _ _ hW.fresh (Nat.le_refl _)
  have hfreshu : ¬ s₀.next_wid ∈ s₀.unused := by
    intro hmem
    have h2 := hW.unused_mem _ hmem
    rw [hfresh] at h2
    cases h2
  have hnin : ¬ s₀.next_wid ∈ akeys s₀.windows := by
    intro hmem
    have h2 := (mem_akeys _ _).mp hmem
    rw [hfresh] at h2
    cases h2
  have htail : ∀ (x : Nat) (w' : Window), ¬ x = s₀.next_wid →
      (alookup ((s₀.next_wid,
          (⟨fdk, false, keep, false, ptr, off, sz, []⟩ : Window)) ::
          s₀.windows) x = some w' ↔ alookup s₀.windows x = some w') := by
    intro x w' hx
    have hne : s₀.next_wid ≠ x := fun hcx => hx hcx.symm
    show (if s₀.next_wid = x then _ else alookup s₀.windows x) = some w' ↔ _
    rw [if_neg hne]
  refine ⟨⟨?_, ?_, hW.nodup_c, hW.nodup_u, ?_, ?_, ?_, ?_, hW.c_id,
    hW.c_lt, ?_, ?_, ?_, ?_, ?_, ?_, ?_⟩, ?_, ?_⟩
  · exact List.nodup_cons.mpr ⟨hnin, hW.nodup_w⟩
  · rw [akeys_aupd]
    exact hW.nodup_f
  · intro x hx
    have hxw : ¬ x = s₀.next_wid := fun hcx => hfreshu (hcx ▸ hx)
    have horig := hW.unused_mem x hx
    cases hlk : alookup s₀.windows x with
    | none =>
      rw [hlk] at horig
      cases horig
    | some v =>
      rw [hlk] at horig
      rw [show alookup ((s₀.next_wid,
          (⟨fdk, false, keep, false, ptr, off, sz, []⟩ : Window)) ::
          s₀.windows) x = some v from (htail x v hxw).mpr hlk]
      exact horig
  · intro p hp hfl
    rcases List.mem_cons.mp hp with rfl | hp2
    · cases hfl
    · exact hW.flag_unused p hp2 hfl
  · intro p hp
    rcases List.mem_cons.mp hp with rfl | hp2
    · exact List.nodup_nil
    · exact hW.wc_nodup p hp2
  · intro p hp cid hcid
    rcases List.mem_cons.mp hp with rfl | hp2
    · cases hcid
    · exact hW.wc_back p hp2 cid hcid
  · intro q hq
    have horig := hW.c_back q hq
    unfold ctx_ok_in at horig ⊢
    cases hqw : q.2.window with
    | none => rfl
    | some wq =>
      rw [hqw] at horig
      dsimp only at horig ⊢
      cases hlq : alookup s₀.windows wq with
      | none =>
        rw [hlq] at horig
        cases horig
      | some wv =>
        rw [hlq] at horig
        have hne : ¬ wq = s₀.next_wid := by
          intro hcx
          rw [hcx, hfresh] at hlq
          cases hlq
        rw [(htail wq wv hne).mpr hlq]
        exact horig
  · intro p hp
    rcases List.mem_cons.mp hp with rfl | hp2
    · show win_fd_ok _ s₀.next_wid
        (⟨fdk, false, keep, false, ptr, off, sz, []⟩ : Window) = true
      unfold win_fd_ok
      dsimp only
      rw [alookup_aupd, if_pos rfl]
      cases hlf : alookup s₀.fds fdk with
      | none =>
        rw [hlf] at hfd
        cases hfd
      | some f =>
        simp only [Option.map_some']
        apply decide_eq_true
        exact List.mem_cons_self _ _
    · have horig := hW.w_fd p hp2
      unfold win_fd_ok at horig ⊢
      rw [alookup_aupd]
      by_cases hx : p.2.fd = fdk
      · rw [if_pos hx]
        cases hlf : alookup s₀.fds p.2.fd with
        | none =>
          rw [hlf] at horig
          cases horig
        | some f =>
          rw [hlf] at horig
          dsimp only at horig
          simp only [Option.map_some']
          apply decide_eq_true
          exact List.mem_cons_of_mem _ (of_decide_eq_true horig)
      · rw [if_neg hx]
        exact horig
  · intro q hq
    have hq' : q ∈ aupd s₀.fds fdk (fun f =>
      { f with windows := s₀.next_wid :: f.windows }) := hq
    rcases mem_aupd _ _ _ q hq' with ⟨b, hb, ⟨_, h⟩ | ⟨_, h⟩⟩
    · rw [h]
      exact hW.f_fd (q.1, b) hb
    · rw [h]
      exact hW.f_fd (q.1, b) hb
  · intro q hq
    have hq' : q ∈ aupd s₀.fds fdk (fun f =>
      { f with windows := s₀.next_wid :: f.windows }) := hq
    rcases mem_aupd _ _ _ q hq' with ⟨b, hb, ⟨_, h⟩ | ⟨_, h⟩⟩
    · rw [h]
      exact hW.f_nodup (q.1, b) hb
    · rw [h]
      refine List.nodup_cons.mpr ⟨?_, hW.f_nodup (q.1, b) hb⟩
      intro hmem
      have h2 := hW.f_back (q.1, b) hb _ hmem
      rw [hfresh] at h2
      cases h2
  · intro q hq wid' hwid'
    have hq' : q ∈ aupd s₀.fds fdk (fun f =>
      { f with windows := s₀.next_wid :: f.windows }) := hq
    rcases mem_aupd _ _ _ q hq' with ⟨b, hb, ⟨hkey, h⟩ | ⟨hkey, h⟩⟩
    · rw [h] at hwid'
      have horig := hW.f_back (q.1, b) hb wid' hwid'
      have hne : ¬ wid' = s₀.next_wid := by
        intro hcx
        rw [hcx, hfresh] at horig
        cases horig
      cases hlk : alookup s₀.windows wid' with
      | none =>
        rw [hlk] at horig
        cases horig
      | some wv =>
        rw [(htail wid' wv hne).mpr hlk]
        rw [hlk] at horig
        exact horig
    · rw [h] at hwid'
      rcases List.mem_cons.mp hwid' with rfl | hwid2
      · show (alookup ((s₀.next_wid,
            (⟨fdk, false, keep, false, ptr, off, sz, []⟩ : Window)) ::
            s₀.windows) s₀.next_wid).map Window.fd = some q.1
        simp only [alookup, eq_self_iff_true, if_true, Option.map_some']
        rw [hkey]
      · have horig := hW.f_back (q.1, b) hb wid' hwid2
        have hne : ¬ wid' = s₀.next_wid := by
          intro hcx
          rw [hcx, hfresh] at horig
          cases horig
        cases hlk : alookup s₀.windows wid' with
        | none =>
          rw [hlk] at horig
          cases horig
        | some wv =>
          rw [(htail wid' wv hne).mpr hlk]
          rw [hlk] at horig
          exact horig
  · intro p hp
    rcases List.mem_cons.mp hp with rfl | hp2
    · exact Nat.lt_succ_self _
    · exact Nat.lt_succ_of_lt (hW.fresh p hp2)
  · show s₀.n_windows + 1 = ((s₀.next_wid,
      (⟨fdk, false, keep, false, ptr, off, sz, []⟩ : Window)) ::
      s₀.windows).length
    rw [List.length_cons, hW.count]
  · intro x hx wv hlk
    have hxw : ¬ x = s₀.next_wid := fun hcx => hfreshu (hcx ▸ hx)
    exact hU x hx wv ((htail x wv hxw).mp hlk)
  · intro x w' hx hlk
    exact (htail x w' hx).mp hlk

/-- `window_add` preserves well-formedness and the one-sided invariant;
every other window is transferred pointwise; the new window has an empty
context list, the requested pin, and sits off the unused list; the
context array keeps its keys. -/
theorem window_add_pres (s : MMapCache) (fdk : Nat) (keep : Bool)
    (off sz ptr : Nat) (ok : Bool) (wid : Nat) (s' : MMapCache)
    (hW : WF s) (hU : UC s) (hfd : (alookup s.fds fdk).isSome)
    (h : window_add s fdk keep off sz ptr ok = some (wid, s')) :
    WF s' ∧ UC s' ∧
    (∀ x w', ¬ x = wid → alookup s'.windows x = some w' →
      (x ∈ s'.unused ↔ (w'.contexts = [] ∧ w'.keep_always = false)) ∨
      (∃ w, alookup s.windows x = some w ∧ w.contexts = w'.contexts ∧
        w.keep_always = w'.keep_always ∧ (x ∈ s'.unused ↔ x ∈ s.unused))) ∧
    alookup s'.windows wid =
      some (⟨fdk, false, keep, false, ptr, off, sz, []⟩ : Window) ∧
    ¬ wid ∈ s'.unused ∧ akeys s'.contexts = akeys s.contexts := by
  unfold window_add at h
  revert h
  dsimp only
  by_cases hbr : (s.unused.isEmpty || decide (s.n_windows ≤ WINDOWS_MIN))
    = true
  · rw [if_pos hbr]
    by_cases hok : ok = true
    · rw [if_pos hok]
      intro h
      injection h with h2
      injection h2 with h3 h4
      subst h3
      subst h4
      obtain ⟨hW1, hU1, ht1⟩ := window_add_mk_pres s fdk keep off sz ptr
        hW hU hfd
      refine ⟨hW1, hU1, ?_, ?_, ?_, rfl⟩
      · intro x w' hx hlk
        exact Or.inr ⟨w', ht1 x w' hx hlk, rfl, rfl, Iff.rfl⟩
      · show (if s.next_wid = s.next_wid then _ else _) = _
        rw [if_pos rfl]
      · intro hmem
        have h2 := hW.unused_mem _ hmem
        rw [alookup_none_of_lt _ _ _ hW.fresh (Nat.le_refl _)] at h2
        cases h2
    · rw [if_neg hok]
      intro h
      cases h
  · rw [if_neg hbr]
    cases hgl : s.unused.getLast? with
    | none =>
      intro h
      cases h
    | some victim =>
      dsimp only
      intro h
      have hv : victim ∈ s.unused := List.mem_of_getLast?_eq_some hgl
      have hvl := hW.unused_mem victim hv
      cases hw : alookup s.windows victim with
      | none =>
        rw [hw] at hvl
        cases hvl
      | some wv =>
        obtain ⟨hWf, hUf, hPf⟩ := window_free_pres s victim wv hw hW hU
        have hfd1 : (alookup (window_free s victim).fds fdk).isSome := by
          rw [window_free_eq s victim wv hw]
          dsimp only
          rw [alookup_aupd]
          by_cases hx : fdk = wv.fd
          · rw [if_pos hx]
            cases hlf : alookup s.fds fdk with
            | none =>
              rw [hlf] at hfd
              cases hfd
            | some f => rfl
          · rw [if_neg hx]
            exact hfd
        obtain ⟨hW1, hU1, ht1⟩ := window_add_mk_pres (window_free s victim)
          fdk keep off sz ptr hWf hUf hfd1
        injection h with h2
        injection h2 with h3 h4
        subst h3
        subst h4
        refine ⟨hW1, hU1, ?_, ?_, ?_, ?_⟩
        · intro x w' hx hlk
          exact hPf x w' (ht1 x w' hx hlk)
        · show (if (window_free s victim).next_wid =
            (window_free s victim).next_wid then _ else _) = _
          rw [if_pos rfl]
        · intro hmem
          have h2 := hWf.unused_mem _ hmem
          rw [alookup_none_of_lt _ _ _ hWf.fresh (Nat.le_refl _)] at h2
          cases h2
        · show akeys (window_free s victim).contexts = akeys s.contexts
          rw [window_free_eq s victim wv hw]
          exact akeys_mapIf s.contexts (fun x => x ∈ wv.contexts)
            (fun c => { c with window := none })

/-- The `mmap` retry loop preserves well-formedness and the invariants,
and never touches the fd registry keys. -/
theorem try_harder_go_pres (wsize : Nat) (mres : Nat → MmapRes) :
    ∀ (fuel attempt : Nat) (s : MMapCache), WF s → UC s →
      WF (mmap_try_harder_go wsize mres attempt fuel s).2 ∧
      UC (mmap_try_harder_go wsize mres attempt fuel s).2 ∧
      PInv s (mmap_try_harder_go wsize mres attempt fuel s).2 ∧
      akeys (mmap_try_harder_go wsize mres attempt fuel s).2.fds =
        akeys s.fds := by
  intro fuel
  induction fuel with
  | zero =>
    intro attempt s hW hU
    exact ⟨hW, hU, PInv_refl s, rfl⟩
  | succ n ih =>
    intro attempt s hW hU
    unfold mmap_try_harder_go
    cases hm : mres attempt with
    | ok addr =>
      dsimp only
      exact ⟨WF_upd _ _ _ _ _ hW, hU, PInv_same _ _ rfl rfl, rfl⟩
    | err e =>
      dsimp only
      by_cases he : e ≠ ENOMEM
      · rw [if_pos he]
        exact ⟨hW, hU, PInv_refl s, rfl⟩
      · rw [if_neg he]
        unfold make_room
        cases hgl : s.unused.getLast? with
        | none =>
          dsimp only
          rw [if_pos rfl]
          exact ⟨hW, hU, PInv_refl s, rfl⟩
        | some victim =>
          dsimp only
          rw [if_neg (by decide : ¬ (1 : Nat) = 0)]
          have hv : victim ∈ s.unused := List.mem_of_getLast?_eq_some hgl
          have hvl := hW.unused_mem victim hv
          cases hw : alookup s.windows victim with
          | none =>
            rw [hw] at hvl
            cases hvl
          | some wv =>
            obtain ⟨hWf, hUf, hPf⟩ := window_free_pres s victim wv hw hW hU
            obtain ⟨h1, h2, h3, h4⟩ := ih (attempt + 1)
              (window_free s victim) hWf hUf
            refine ⟨h1, h2, PInv_trans _ _ _ hPf h3, ?_⟩
            rw [h4, window_free_eq s victim wv hw]
            dsimp only
            rw [akeys_aupd]

/-- `mmap_try_harder` preserves well-formedness and the invariants. -/
theorem try_harder_pres (s : MMapCache) (wsize : Nat) (mres : Nat → MmapRes)
    (hW : WF s) (hU : UC s) :
    WF (mmap_try_harder s wsize mres).2 ∧
    UC (mmap_try_harder s wsize mres).2 ∧
    PInv s (mmap_try_harder s wsize mres).2 ∧
    akeys (mmap_try_harder s wsize mres).2.fds = akeys s.fds :=
  try_harder_go_pres wsize mres (s.unused.length + 1) 0 s hW hU

/-- Folding `window_invalidate` over a list of window ids preserves
well-formedness and the invariants; the fd registry is untouched. -/
theorem invalidate_fold_pres (l : List Nat) :
    ∀ s : MMapCache, WF s → UC s →
      WF (l.foldl window_invalidate s) ∧ UC (l.foldl window_invalidate s) ∧
      PInv s (l.foldl window_invalidate s) ∧
      (l.foldl window_invalidate s).fds = s.fds := by
  induction l with
  | nil =>
    intro s hW hU
    exact ⟨hW, hU, PInv_refl s, rfl⟩
  | cons x rest ih =>
    intro s hW hU
    obtain ⟨h1, h2, h3⟩ := window_invalidate_pres s x hW hU
    obtain ⟨h4, h5, h6, h7⟩ := ih (window_invalidate s x) h1 h2
    refine ⟨h4, h5, PInv_trans _ _ _ h3 h6, ?_⟩
    rw [show (x :: rest).foldl window_invalidate s =
      rest.foldl window_invalidate (window_invalidate s x) from rfl, h7,
      (invalidate_frames s x).1]

/-- The phase-two loop of `process_sigbus` (invalidate every window of
every poisoned fd) preserves well-formedness and the invariants. -/
theorem outer_fold_pres (l : List (Nat × MMapFileDescriptor)) :
    ∀ s : MMapCache, WF s → UC s →
      WF (l.foldl (fun s' p => if p.2.sigbus then
          p.2.windows.foldl window_invalidate s' else s') s) ∧
      UC (l.foldl (fun s' p => if p.2.sigbus then
          p.2.windows.foldl window_invalidate s' else s') s) ∧
      PInv s (l.foldl (fun s' p => if p.2.sigbus then
          p.2.windows.foldl window_invalidate s' else s') s) ∧
      (l.foldl (fun s' p => if p.2.sigbus then
          p.2.windows.foldl window_invalidate s' else s') s).fds = s.fds
    := by
  induction l with
  | nil =>
    intro s hW hU
    exact ⟨hW, hU, PInv_refl s, rfl⟩
  | cons q rest ih =>
    intro s hW hU
    simp only [List.foldl_cons]
    by_cases hs : q.2.sigbus = true
    · rw [if_pos hs]
      obtain ⟨h1, h2, h3, h7⟩ := invalidate_fold_pres q.2.windows s hW hU
      obtain ⟨h4, h5, h6, h8⟩ := ih (q.2.windows.foldl window_invalidate s)
        h1 h2
      exact ⟨h4, h5, PInv_trans _ _ _ h3 h6, h8.trans h7⟩
    · rw [if_neg hs]
      exact ih s hW hU

/-- The SIGBUS drain loop preserves well-formedness and the invariants;
it only flips sigbus flags. -/
theorem sigbus_drain_pres (queue : List Nat) :
    ∀ (s : MMapCache) (found b : Bool) (s' : MMapCache), WF s → UC s →
      sigbus_drain s found queue = some (b, s') →
      WF s' ∧ UC s' ∧ PInv s s' ∧ s'.windows = s.windows ∧
        s'.unused = s.unused ∧ akeys s'.fds = akeys s.fds := by
  induction queue with
  | nil =>
    intro s found b s' hW hU h
    unfold sigbus_drain at h
    injection h with h2
    injection h2 with h3 h4
    subst h4
    exact ⟨hW, hU, PInv_refl s, rfl, rfl, rfl⟩
  | cons addr rest ih =>
    intro s found b s' hW hU h
    unfold sigbus_drain at h
    revert h
    cases hf : find_sigbus_fd s addr with
    | none =>
      intro h
      cases h
    | some fdk =>
      dsimp only
      intro h
      have hW1 := WF_fds_aupd s fdk (fun f => { f with sigbus := true })
        (fun v => rfl) (fun v => rfl) hW
      have hU1 : UC { s with fds := aupd s.fds fdk fun f =>
        { f with sigbus := true } } := hU
      obtain ⟨h1, h2, h3, h4, h5, h6⟩ := ih _ true b s' hW1 hU1 h
      refine ⟨h1, h2, PInv_trans _ _ _ (PInv_same _ _ rfl rfl) h3, h4, h5,
        ?_⟩
      rw [h6]
      dsimp only
      rw [akeys_aupd]

/-- `mmap_cache_process_sigbus` preserves well-formedness and the
invariants; fd registry keys are untouched. -/
theorem process_sigbus_pres (s : MMapCache) (queue : List Nat)
    (s' : MMapCache) (hW : WF s) (hU : UC s)
    (h : mmap_cache_process_sigbus s queue = some s') :
    WF s' ∧ UC s' ∧ PInv s s' ∧ akeys s'.fds = akeys s.fds := by
  unfold mmap_cache_process_sigbus at h
  revert h
  cases hd : sigbus_drain s false queue with
  | none =>
    intro h
    cases h
  | some pr =>
    obtain ⟨found, s₁⟩ := pr
    dsimp only
    intro h
    obtain ⟨h1, h2, h3, h4, h5, h6⟩ := sigbus_drain_pres queue s false found
      s₁ hW hU hd
    by_cases hf : ¬ found = true
    · rw [if_pos hf] at h
      cases h
      exact ⟨h1, h2, h3, h6⟩
    · rw [if_neg hf] at h
      cases h
      obtain ⟨h7, h8, h9, h10⟩ := outer_fold_pres s₁.fds s₁ h1 h2
      exact ⟨h7, h8, PInv_trans _ _ _ h3 h9, (by rw [h10]; exact h6)⟩

/-- The window-freeing loop of `mmap_cache_fd_free` preserves
well-formedness and the invariants. -/
theorem free_fd_loop_pres (fdk : Nat) :
    ∀ (n : Nat) (s : MMapCache), WF s → UC s →
      WF (free_fd_windows fdk n s) ∧ UC (free_fd_windows fdk n s) ∧
        PInv s (free_fd_windows fdk n s) := by
  intro n
  induction n with
  | zero =>
    intro s hW hU
    exact ⟨hW, hU, PInv_refl s⟩
  | succ m ih =>
    intro s hW hU
    unfold free_fd_windows
    cases hlf : alookup s.fds fdk with
    | none => exact ⟨hW, hU, PInv_refl s⟩
    | some f =>
      dsimp only
      cases hws : f.windows with
      | nil => exact ⟨hW, hU, PInv_refl s⟩
      | cons wid rest =>
        dsimp only
        have hmf : (fdk, f) ∈ s.fds := alookup_eq_some_mem _ _ _ hlf
        have hb := hW.f_back (fdk, f) hmf wid
          (by rw [hws]; exact List.mem_cons_self _ _)
        cases hw : alookup s.windows wid with
        | none =>
          rw [hw] at hb
          cases hb
        | some w =>
          obtain ⟨h1, h2, h3⟩ := window_free_pres s wid w hw hW hU
          obtain ⟨h4, h5, h6⟩ := ih (window_free s wid) h1 h2
          exact ⟨h4, h5, PInv_trans _ _ _ h3 h6⟩

/-- With fuel equal to the length of the handle's window list, the
freeing loop empties that list. -/
theorem free_fd_loop_empty (fdk : Nat) :
    ∀ (n : Nat) (s : MMapCache) (f : MMapFileDescriptor), WF s → UC s →
      alookup s.fds fdk = some f → f.windows.length = n →
      ∃ f', alookup (free_fd_windows fdk n s).fds fdk = some f' ∧
        f'.windows = [] := by
  intro n
  induction n with
  | zero =>
    intro s f hW hU hlf hlen
    exact ⟨f, hlf, List.length_eq_zero.mp hlen⟩
  | succ m ih =>
    intro s f hW hU hlf hlen
    unfold free_fd_windows
    rw [hlf]
    dsimp only
    cases hws : f.windows with
    | nil =>
      rw [hws] at hlen
      cases hlen
    | cons wid rest =>
      dsimp only
      have hb := hW.f_back (fdk, f) (alookup_eq_some_mem _ _ _ hlf) wid
        (by rw [hws]; exact List.mem_cons_self _ _)
      cases hw : alookup s.windows wid with
      | none =>
        rw [hw] at hb
        cases hb
      | some w =>
        rw [hw] at hb
        simp only [Option.map_some', Option.some.injEq] at hb
        obtain ⟨hW1, hU1, _⟩ := window_free_pres s wid w hw hW hU
        have hlf1 : alookup (window_free s wid).fds fdk =
            some { f with windows := rest } := by
          rw [window_free_eq s wid w hw]
          dsimp only
          rw [alookup_aupd, hb, if_pos rfl, hlf]
          simp only [Option.map_some', Option.some.injEq]
          rw [hws, List.erase_cons_head]
        have hlen1 :
            ({ f with windows := rest } : MMapFileDescriptor).windows.length
              = m := by
          rw [hws] at hlen
          simp only [List.length_cons] at hlen
          show rest.length = m
          omega
        exact ih (window_free s wid) { f with windows := rest } hW1 hU1
          hlf1 hlen1

/-- `try_context` preserves well-formedness and the invariants; the fd
registry is untouched. -/
theorem try_context_pres (s : MMapCache) (fdk ctx : Nat) (keep : Bool)
    (off sz : Nat) (hW : WF s) (hU : UC s) :
    WF (try_context s fdk ctx keep off sz).2.2 ∧
    UC (try_context s fdk ctx keep off sz).2.2 ∧
    PInv s (try_context s fdk ctx keep off sz).2.2 ∧
    (try_context s fdk ctx keep off sz).2.2.fds = s.fds := by
  unfold try_context
  cases hc : alookup s.contexts ctx with
  | none => exact ⟨hW, hU, PInv_refl s, rfl⟩
  | some c =>
    dsimp only
    cases hcw : c.window with
    | none => exact ⟨hW, hU, PInv_refl s, rfl⟩
    | some wid =>
      dsimp only
      cases hw : alookup s.windows wid with
      | none => exact ⟨hW, hU, PInv_refl s, rfl⟩
      | some w =>
        dsimp only
        by_cases hm : ¬ window_matches_fd w fdk off sz = true
        · rw [if_pos hm]
          obtain ⟨h1, h2, h3⟩ := context_detach_pres s ctx hW hU
          exact ⟨h1, h2, h3, (detach_frames s ctx).1⟩
        · rw [if_neg hm]
          cases hf : alookup s.fds w.fd with
          | none => exact ⟨hW, hU, PInv_refl s, rfl⟩
          | some f =>
            dsimp only
            by_cases hsb : f.sigbus = true
            · rw [if_pos hsb]
              exact ⟨hW, hU, PInv_refl s, rfl⟩
            · rw [if_neg hsb]
              dsimp only
              have hmc : (ctx, c) ∈ s.contexts :=
                alookup_eq_some_mem _ _ _ hc
              have hok := hW.c_back (ctx, c) hmc
              unfold ctx_ok_in at hok
              rw [hcw] at hok
              dsimp only at hok
              rw [hw] at hok
              dsimp only at hok
              have hcin := of_decide_eq_true hok
              have hne : w.contexts ≠ [] := by
                intro hc2
                rw [hc2] at hcin
                cases hcin
              obtain ⟨h1, h2, h3⟩ := orin_pres s wid keep w hW hU hw hne
              exact ⟨WF_upd _ _ _ _ _ h1, h2, h3, rfl⟩

/-- `find_mmap` preserves well-formedness and the invariants; the fd
registry is untouched. -/
theorem find_mmap_pres (s : MMapCache) (fdk ctx : Nat) (keep : Bool)
    (off sz : Nat) (ctx_ok : Bool) (hlt : ctx < MMAP_CACHE_MAX_CONTEXTS)
    (hW : WF s) (hU : UC s) :
    WF (find_mmap s fdk ctx keep off sz ctx_ok).2.2 ∧
    UC (find_mmap s fdk ctx keep off sz ctx_ok).2.2 ∧
    PInv s (find_mmap s fdk ctx keep off sz ctx_ok).2.2 ∧
    (find_mmap s fdk ctx keep off sz ctx_ok).2.2.fds = s.fds := by
  unfold find_mmap
  cases hf : alookup s.fds fdk with
  | none => exact ⟨hW, hU, PInv_refl s, rfl⟩
  | some f =>
    dsimp only
    by_cases hsb : f.sigbus = true
    · rw [if_pos hsb]
      exact ⟨hW, hU, PInv_refl s, rfl⟩
    · rw [if_neg hsb]
      cases hfind : f.windows.find? (fun wid =>
          match alookup s.windows wid with
          | some w => window_matches w off sz
          | none => false) with
      | none => exact ⟨hW, hU, PInv_refl s, rfl⟩
      | some wid =>
        dsimp only
        cases hca : context_add s ctx ctx_ok with
        | none => exact ⟨hW, hU, PInv_refl s, rfl⟩
        | some s₁ =>
          dsimp only
          obtain ⟨hW1, hU1, hP1, hcs, hwin1, hun1, hfds1⟩ :=
            context_add_pres s ctx ctx_ok s₁ hlt hW hU hca
          have hfw := List.find?_some hfind
          have hw0 : ∃ w0, alookup s.windows wid = some w0 := by
            revert hfw
            cases hlw : alookup s.windows wid with
            | none =>
              intro hfw
              dsimp only at hfw
              cases hfw
            | some w0 =>
              intro _
              exact ⟨w0, rfl⟩
          obtain ⟨w0, hw0⟩ := hw0
          have hw1 : alookup s₁.windows wid = some w0 := by
            rw [hwin1]
            exact hw0
          obtain ⟨hW2, hU2, hP2, w2, hw2, hcin2, hnu2⟩ :=
            context_attach_pres s₁ ctx wid w0 hW1 hU1 hw1 hcs
          have hne2 : w2.contexts ≠ [] := by
            intro hc2
            rw [hc2] at hcin2
            cases hcin2
          obtain ⟨hW3, hU3, hP3⟩ := orin_pres
            (context_attach_window s₁ ctx wid) wid keep w2 hW2 hU2 hw2 hne2
          have hlk3 : alookup (aupd
              (context_attach_window s₁ ctx wid).windows wid fun v =>
              { v with keep_always := v.keep_always || keep }) wid =
              some { w2 with keep_always := w2.keep_always || keep } := by
            rw [alookup_aupd_self, hw2]
            rfl
          rw [hlk3]
          dsimp only
          refine ⟨WF_upd _ _ _ _ _ hW3, hU3,
            PInv_trans _ _ _ hP1 (PInv_trans _ _ _ hP2 hP3), ?_⟩
          show (context_attach_window s₁ ctx wid).fds = s.fds
          rw [(attach_frames s₁ ctx wid).1, hfds1]

/-- `add_mmap` preserves well-formedness and the invariants. -/
theorem add_mmap_pres (k : Nat) (s : MMapCache) (fdk ctx : Nat)
    (keep : Bool) (off sz : Nat) (st : Option Nat) (o : GetOracle)
    (hlt : ctx < MMAP_CACHE_MAX_CONTEXTS)
    (hfd : (alookup s.fds fdk).isSome) (hW : WF s) (hU : UC s) :
    WF (add_mmap k s fdk ctx keep off sz st o).2.2 ∧
    UC (add_mmap k s fdk ctx keep off sz st o).2.2 ∧
    PInv s (add_mmap k s fdk ctx keep off sz st o).2.2 := by
  unfold add_mmap
  cases hg : add_mmap_geometry k off sz st with
  | error e => exact ⟨hW, hU, PInv_refl s⟩
  | ok pr =>
    obtain ⟨woff, wsz⟩ := pr
    dsimp only
    have hpres := try_harder_pres s wsz o.mres hW hU
    cases hth : mmap_try_harder s wsz o.mres with
    | mk r s₁ =>
      rw [hth] at hpres
      obtain ⟨hW1, hU1, hP1, hk1⟩ := hpres
      cases r with
      | error e =>
        dsimp only
        exact ⟨hW1, hU1, hP1⟩
      | ok d =>
        dsimp only
        have hfd1 : (alookup s₁.fds fdk).isSome :=
          (mem_akeys _ _).mp (by
            rw [show akeys s₁.fds = akeys s.fds from hk1]
            exact (mem_akeys _ _).mpr hfd)
        cases hca : context_add s₁ ctx o.ctx_ok with
        | none =>
          dsimp only
          exact ⟨WF_upd _ _ _ _ _ hW1, hU1,
            PInv_trans _ _ _ hP1 (PInv_same _ _ rfl rfl)⟩
        | some s₂ =>
          dsimp only
          obtain ⟨hW2, hU2, hP2, hcs2, hwin2, hun2, hfds2⟩ :=
            context_add_pres s₁ ctx o.ctx_ok s₂ hlt hW1 hU1 hca
          have hfd2 : (alookup s₂.fds fdk).isSome := by
            rw [hfds2]
            exact hfd1
          cases hwa : window_add s₂ fdk keep woff wsz d o.win_ok with
          | none =>
            dsimp only
            exact ⟨WF_upd _ _ _ _ _ hW2, hU2,
              PInv_trans _ _ _ (PInv_trans _ _ _ hP1 hP2)
                (PInv_same _ _ rfl rfl)⟩
          | some pr2 =>
            obtain ⟨wid, s₃⟩ := pr2
            dsimp only
            obtain ⟨hW3, hU3, htr3, hwin3, hnu3, hck3⟩ :=
              window_add_pres s₂ fdk keep woff wsz d o.win_ok wid s₃ hW2
                hU2 hfd2 hwa
            have hcs3 : (alookup s₃.contexts ctx).isSome :=
              (mem_akeys _ _).mp (by
                rw [hck3]
                exact (mem_akeys _ _).mpr hcs2)
            obtain ⟨hW4, hU4, hP4, w4, hw4, hcin4, hnu4⟩ :=
              context_attach_pres s₃ ctx wid
                (⟨fdk, false, keep, false, d, woff, wsz, []⟩ : Window)
                hW3 hU3 hwin3 hcs3
            refine ⟨hW4, hU4,
              PInv_trans _ _ _ (PInv_trans _ _ _ hP1 hP2) ?_⟩
            intro x w' hlk
            by_cases hx : x = wid
            · subst hx
              rw [hw4] at hlk
              injection hlk with hlk2
              subst hlk2
              left
              constructor
              · intro hmem
                exact absurd hmem hnu4
              · intro h2
                rw [h2.1] at hcin4
                cases hcin4
            · rcases hP4 x w' hlk with h5 | ⟨w₃, hlkw3, pc, pk, pm⟩
              · exact Or.inl h5
              · rcases htr3 x w₃ hx hlkw3 with h6 | ⟨w₂v, hlkw2, qc, qk, qm⟩
                · left
                  rw [pm, ← pc, ← pk]
                  exact h6
                · exact Or.inr ⟨w₂v, hlkw2, qc.trans pc, qk.trans pk,
                    pm.trans qm⟩

/-- `mmap_cache_fd_get` preserves well-formedness and the invariants. -/
theorem get_pres (k : Nat) (s : MMapCache) (fdk ctx : Nat) (keep : Bool)
    (off sz : Nat) (st : Option Nat) (o : GetOracle)
    (hlt : ctx < MMAP_CACHE_MAX_CONTEXTS)
    (hfd : (alookup s.fds fdk).isSome) (hW : WF s) (hU : UC s) :
    WF (mmap_cache_fd_get k s fdk ctx keep off sz st o).2.2 ∧
    UC (mmap_cache_fd_get k s fdk ctx keep off sz st o).2.2 ∧
    PInv s (mmap_cache_fd_get k s fdk ctx keep off sz st o).2.2 := by
  unfold mmap_cache_fd_get
  have hpres1 := try_context_pres s fdk ctx keep off sz hW hU
  cases htc : try_context s fdk ctx keep off sz with
  | mk r pr =>
    obtain ⟨ret, s₁⟩ := pr
    rw [htc] at hpres1
    obtain ⟨hW1, hU1, hP1, hfds1⟩ := hpres1
    dsimp only
    by_cases hr : ¬ r = 0
    · rw [if_pos hr]
      exact ⟨hW1, hU1, hP1⟩
    · rw [if_neg hr]
      have hpres2 := find_mmap_pres s₁ fdk ctx keep off sz o.ctx_ok hlt
        hW1 hU1
      cases hfm : find_mmap s₁ fdk ctx keep off sz o.ctx_ok with
      | mk r2 pr2 =>
        obtain ⟨ret2, s₂⟩ := pr2
        rw [hfm] at hpres2
        obtain ⟨hW2, hU2, hP2, hfds2⟩ := hpres2
        dsimp only
        by_cases hr2 : ¬ r2 = 0
        · rw [if_pos hr2]
          exact ⟨hW2, hU2, PInv_trans _ _ _ hP1 hP2⟩
        · rw [if_neg hr2]
          have hfd2 : (alookup s₂.fds fdk).isSome := by
            rw [show s₂.fds = s.fds from by rw [hfds2, hfds1]]
            exact hfd
          obtain ⟨h1, h2, h3⟩ := add_mmap_pres k
            { s₂ with n_missed := s₂.n_missed + 1 } fdk ctx keep off sz st
            o hlt hfd2 (WF_upd _ _ _ _ _ hW2) hU2
          exact ⟨h1, h2, PInv_trans _ _ _ (PInv_trans _ _ _ hP1 hP2) h3⟩

/-- `mmap_cache_add_fd` preserves well-formedness and the invariants. -/
theorem add_fd_pres (s : MMapCache) (fd prot : Nat) (o : AllocOracle)
    (hW : WF s) (hU : UC s) :
    WF (mmap_cache_add_fd s fd prot o).2 ∧
    UC (mmap_cache_add_fd s fd prot o).2 ∧
    PInv s (mmap_cache_add_fd s fd prot o).2 := by
  unfold mmap_cache_add_fd
  cases hf : alookup s.fds fd with
  | some f => exact ⟨hW, hU, PInv_refl s⟩
  | none =>
    by_cases h1 : ¬ o.ensure_ok = true
    · rw [if_pos h1]
      exact ⟨hW, hU, PInv_refl s⟩
    · rw [if_neg h1]
      by_cases h2 : ¬ o.new_ok = true
      · rw [if_pos h2]
        exact ⟨hW, hU, PInv_refl s⟩
      · rw [if_neg h2]
        dsimp only
        by_cases h3 : ¬ o.put_ok = true
        · rw [if_pos h3]
          exact ⟨hW, hU, PInv_refl s⟩
        · rw [if_neg h3]
          refine ⟨⟨hW.nodup_w, ?_, hW.nodup_c, hW.nodup_u, hW.unused_mem,
            hW.flag_unused, hW.wc_nodup, hW.wc_back, hW.c_id, hW.c_lt,
            hW.c_back, ?_, ?_, ?_, ?_, hW.fresh, hW.count⟩, hU,
            PInv_same _ _ rfl rfl⟩
          · refine List.nodup_cons.mpr ⟨?_, hW.nodup_f⟩
            intro hmem
            have h4 := (mem_akeys s.fds fd).mp hmem
            rw [hf] at h4
            cases h4
          · intro p hp
            have horig := hW.w_fd p hp
            unfold win_fd_ok at horig ⊢
            have hne : ¬ fd = p.2.fd := by
              intro hcx
              rw [← hcx, hf] at horig
              cases horig
            show (match alookup ((fd, ⟨fd, prot, false, []⟩) :: s.fds)
              p.2.fd with
              | none => false
              | some f => decide (p.1 ∈ f.windows)) = true
            simp only [alookup, if_neg hne]
            exact horig
          · intro q hq
            rcases List.mem_cons.mp hq with rfl | hq2
            · rfl
            · exact hW.f_fd q hq2
          · intro q hq
            rcases List.mem_cons.mp hq with rfl | hq2
            · exact List.nodup_nil
            · exact hW.f_nodup q hq2
          · intro q hq wid' hwid'
            rcases List.mem_cons.mp hq with rfl | hq2
            · cases hwid'
            · exact hW.f_back q hq2 wid' hwid'

/-- `mmap_cache_fd_free` preserves well-formedness and the invariants. -/
theorem fd_free_pres (s : MMapCache) (fdk : Nat) (queue : List Nat)
    (s' : MMapCache) (hW : WF s) (hU : UC s)
    (hfd : (alookup s.fds fdk).isSome)
    (h : mmap_cache_fd_free s fdk queue = some s') :
    WF s' ∧ UC s' ∧ PInv s s' := by
  unfold mmap_cache_fd_free at h
  revert h
  cases hp : mmap_cache_process_sigbus s queue with
  | none =>
    intro h
    cases h
  | some s₁ =>
    dsimp only
    intro h
    obtain ⟨hW1, hU1, hP1, hks⟩ := process_sigbus_pres s queue s₁ hW hU hp
    have hfd1 : (alookup s₁.fds fdk).isSome := (mem_akeys _ _).mp (by
      rw [hks]
      exact (mem_akeys _ _).mpr hfd)
    cases hlf : alookup s₁.fds fdk with
    | none =>
      rw [hlf] at hfd1
      cases hfd1
    | some f =>
      rw [hlf] at h
      dsimp only at h
      obtain ⟨hW2, hU2, hP2⟩ := free_fd_loop_pres fdk f.windows.length s₁
        hW1 hU1
      obtain ⟨f', hlf2, hfw2⟩ := free_fd_loop_empty fdk f.windows.length s₁
        f hW1 hU1 hlf rfl
      injection h with h2
      subst h2
      refine ⟨⟨hW2.nodup_w, ?_, hW2.nodup_c, hW2.nodup_u, hW2.unused_mem,
        hW2.flag_unused, hW2.wc_nodup, hW2.wc_back, hW2.c_id, hW2.c_lt,
        hW2.c_back, ?_, ?_, ?_, ?_, hW2.fresh, hW2.count⟩, hU2,
        PInv_trans _ _ _ hP1 (PInv_trans _ _ _ hP2
          (PInv_same _ _ rfl rfl))⟩
      · exact nodup_akeys_aerase _ _ hW2.nodup_f
      · intro p hp
        have horig := hW2.w_fd p hp
        unfold win_fd_ok at horig ⊢
        rw [alookup_aerase]
        by_cases hx : p.2.fd = fdk
        · exfalso
          rw [hx, hlf2] at horig
          dsimp only at horig
          rw [hfw2] at horig
          have h5 := of_decide_eq_true horig
          cases h5
        · rw [if_neg hx]
          exact horig
      · intro q hq
        exact hW2.f_fd q (mem_aerase _ _ _ hq).1
      · intro q hq
        exact hW2.f_nodup q (mem_aerase _ _ _ hq).1
      · intro q hq wid' hwid'
        exact hW2.f_back q (mem_aerase _ _ _ hq).1 wid' hwid'

/-- One public operation preserves well-formedness and the unused-list
invariant. -/
theorem stepSt_pres (k : Nat) (op : CacheOp) (s s' : MMapCache)
    (hW : WF s) (hI : Inv s) (h : stepSt k op s = some s') :
    WF s' ∧ Inv s' := by
  have hU := UC_of_Inv s hI
  cases op with
  | get fdk ctx keep off sz st ctx_ok win_ok mres =>
    simp only [stepSt] at h
    by_cases hreg : (alookup s.fds fdk).isSome
    case neg =>
      rw [if_neg hreg] at h
      cases h
    rw [if_pos hreg] at h
    by_cases hctx : ctx < MMAP_CACHE_MAX_CONTEXTS
    case neg =>
      rw [if_neg hctx] at h
      cases h
    rw [if_pos hctx] at h
    simp only [Option.some.injEq] at h
    obtain ⟨h1, h2, h3⟩ := get_pres k s fdk ctx keep off sz st
      ⟨ctx_ok, win_ok, mres⟩ hctx hreg hW hU
    subst h
    exact ⟨h1, Inv_of_PInv _ _ h1.nodup_w hI h3⟩
  | addFd fd prot o =>
    simp only [stepSt, Option.some.injEq] at h
    obtain ⟨h1, h2, h3⟩ := add_fd_pres s fd prot o hW hU
    subst h
    exact ⟨h1, Inv_of_PInv _ _ h1.nodup_w hI h3⟩
  | fdFree fdk q =>
    simp only [stepSt] at h
    by_cases hreg : (alookup s.fds fdk).isSome
    case neg =>
      rw [if_neg hreg] at h
      cases h
    rw [if_pos hreg] at h
    obtain ⟨h1, h2, h3⟩ := fd_free_pres s fdk q s' hW hU hreg h
    exact ⟨h1, Inv_of_PInv _ _ h1.nodup_w hI h3⟩
  | gotSigbus fdk q =>
    simp only [stepSt] at h
    by_cases hreg : (alookup s.fds fdk).isSome
    case neg =>
      rw [if_neg hreg] at h
      cases h
    rw [if_pos hreg] at h
    cases hg : mmap_cache_fd_got_sigbus s fdk q with
    | none =>
      rw [hg] at h
      cases h
    | some pr =>
      obtain ⟨b, s₁⟩ := pr
      rw [hg] at h
      simp only [Option.map_some', Option.some.injEq] at h
      subst h
      have hps := got_sigbus_state s fdk q b s₁ hg
      obtain ⟨h1, h2, h3, _⟩ := process_sigbus_pres s q s₁ hW hU hps
      exact ⟨h1, Inv_of_PInv _ _ h1.nodup_w hI h3⟩

/-- A sequence of public operations preserves well-formedness and the
unused-list invariant. -/
theorem runOps_pres (k : Nat) (ops : List CacheOp) :
    ∀ (s s' : MMapCache), WF s → Inv s → runOps k ops s = some s' →
      WF s' ∧ Inv s' := by
  induction ops with
  | nil =>
    intro s s' hW hI h
    injection h with h2
    subst h2
    exact ⟨hW, hI⟩
  | cons op rest ih =>
    intro s s' hW hI h
    have hnone : ∀ (l : List CacheOp),
        List.foldl (fun os o2 => os.bind (stepSt k o2)) none l = none := by
      intro l
      induction l with
      | nil => rfl
      | cons o2 r2 ih2 => exact ih2
    cases hs1 : stepSt k op s with
    | none =>
      have h2 : runOps k (op :: rest) s = none := by
        show List.foldl (fun os o2 => os.bind (stepSt k o2))
          (stepSt k op s) rest = none
        rw [hs1]
        exact hnone rest
      rw [h2] at h
      cases h
    | some s₁ =>
      have h2 : runOps k rest s₁ = some s' := by
        have h3 : runOps k (op :: rest) s = runOps k rest s₁ := by
          show List.foldl (fun os o2 => os.bind (stepSt k o2))
            (stepSt k op s) rest = _
          rw [hs1]
          rfl
        rw [← h3]
        exact h
      obtain ⟨hW1, hI1⟩ := stepSt_pres k op s s₁ hW hI hs1
      exact ih s₁ s' hW1 hI1 h2

/-- C7: a window sits on the unused (LRU) list iff it has no attached
contexts and its `keep_always` pin is clear.  The invariant holds of the
fresh cache, is preserved by every single public cache operation (get,
add-fd, fd-free, got-sigbus), and therefore holds after every sequence of
public cache operations run from a fresh cache. -/
theorem C7_unused_invariant :
    (WF exEmpty ∧ Inv exEmpty) ∧
    (∀ (k : Nat) (op : CacheOp) (s s' : MMapCache), WF s → Inv s →
      stepSt k op s = some s' → WF s' ∧ Inv s') ∧
    (∀ (k : Nat) (ops : List CacheOp) (s' : MMapCache),
      runOps k ops exEmpty = some s' → WF s' ∧ Inv s') := by
  have hWe : WF exEmpty :=
    (by constructor <;> decide)
  have hIe : Inv exEmpty := by
    unfold Inv
    decide
  exact ⟨⟨hWe, hIe⟩, stepSt_pres,
    fun k ops s' h => runOps_pres k ops exEmpty s' hWe hIe h⟩

/-- Witness for C7 at a concrete state and operation: the invariant of
`exCache` survives a `got_sigbus` query, and a two-operation run from the
fresh cache (register fd 3, then query it) lands in an invariant state. -/
theorem C7_unused_invariant_witness :
    (WF exCache ∧ Inv exCache) ∧ (WF exReg ∧ Inv exReg) :=
  ⟨C7_unused_invariant.2.1 12 (CacheOp.gotSigbus 3 []) exCache exCache
      (by constructor <;> decide)
      (by unfold Inv; decide) rfl,
    C7_unused_invariant.2.2 12
      [CacheOp.addFd 3 1 ⟨true, true, true⟩, CacheOp.gotSigbus 3 []]
      exReg rfl⟩

/-! ### C2: the sigbus invariant -/

theorem aupd_invalidated (l : List (Nat × Window)) (wid : Nat)
    (g : Window → Window) (hg : ∀ v, (g v).invalidated = v.invalidated)
    (x : Nat) : (alookup (aupd l wid g) x).map Window.invalidated =
      (alookup l x).map Window.invalidated := by
  rw [alookup_aupd]
  by_cases hx : x = wid
  · rw [if_pos hx]
    cases alookup l x with
    | none => rfl
    | some v => simp only [Option.map_some', hg v]
  · rw [if_neg hx]

theorem aupd_fd_sigbus (l : List (Nat × MMapFileDescriptor)) (k : Nat)
    (g : MMapFileDescriptor → MMapFileDescriptor)
    (hg : ∀ v, (g v).sigbus = v.sigbus) (x : Nat) :
    (alookup (aupd l k g) x).map MMapFileDescriptor.sigbus =
      (alookup l x).map MMapFileDescriptor.sigbus := by
  rw [alookup_aupd]
  by_cases hx : x = k
  · rw [if_pos hx]
    cases alookup l x with
    | none => rfl
    | some v => simp only [Option.map_some', hg v]
  · rw [if_neg hx]

/-- Transfer of the sigbus invariant along a state change that keeps the
fd registry and the per-window invalidation flags. -/
theorem SigbusInv_congr (s t : MMapCache) (hf : t.fds = s.fds)
    (hw : ∀ x, (alookup t.windows x).map Window.invalidated =
      (alookup s.windows x).map Window.invalidated)
    (h : SigbusInv s) : SigbusInv t := by
  intro q hq hsb wid' hwid'
  rw [hw wid']
  exact h q (hf ▸ hq) hsb wid' hwid'

/-- `context_detach_window` does not change any invalidation flag. -/
theorem detach_invalidated (s : MMapCache) (cid : Nat) (x : Nat) :
    (alookup (context_detach_window s cid).windows x).map
      Window.invalidated =
    (alookup s.windows x).map Window.invalidated := by
  unfold context_detach_window
  cases hc : alookup s.contexts cid with
  | none => rfl
  | some c =>
    dsimp only
    cases hcw : c.window with
    | none => rfl
    | some wid =>
      dsimp only
      cases hw : alookup s.windows wid with
      | none => rfl
      | some w =>
        dsimp only
        by_cases hcond : ((w.contexts.erase cid).isEmpty && !w.keep_always)
          = true
        · rw [if_pos hcond]
          dsimp only
          rw [aupd_invalidated _ _ _ (by intro v; rfl) x,
            aupd_invalidated _ _ _ (by intro v; rfl) x]
        · rw [if_neg hcond]
          dsimp only
          rw [aupd_invalidated _ _ _ (by intro v; rfl) x]

/-- `context_attach_window` does not change any invalidation flag. -/
theorem attach_invalidated (s : MMapCache) (cid wid : Nat) (x : Nat) :
    (alookup (context_attach_window s cid wid).windows x).map
      Window.invalidated =
    (alookup s.windows x).map Window.invalidated := by
  unfold context_attach_window
  cases hc : alookup s.contexts cid with
  | none => rfl
  | some c =>
    dsimp only
    by_cases heq : c.window = some wid
    · rw [if_pos heq]
    · rw [if_neg heq]
      cases hwd : alookup (context_detach_window s cid).windows wid with
      | none =>
        dsimp only
        rw [aupd_invalidated _ _ _ (by intro v; rfl) x,
          detach_invalidated s cid x]
      | some wd =>
        dsimp only
        by_cases hbu : wd.in_unused = true
        · rw [if_pos hbu]
          dsimp only
          rw [aupd_invalidated _ _ _ (by intro v; rfl) x,
            aupd_invalidated _ _ _ (by intro v; rfl) x,
            detach_invalidated s cid x]
        · rw [if_neg hbu]
          rw [aupd_invalidated _ _ _ (by intro v; rfl) x,
            detach_invalidated s cid x]

/-- `window_free` preserves the sigbus invariant. -/
theorem window_free_sb (s : MMapCache) (wid : Nat) (w : Window)
    (hw : alookup s.windows wid = some w) (hW : WF s) (hS : SigbusInv s) :
    SigbusInv (window_free s wid) := by
  rw [window_free_eq s wid w hw]
  intro q hq hsb wid' hwid'
  have hq' : q ∈ aupd s.fds w.fd (fun f =>
    { f with windows := f.windows.erase wid }) := hq
  rcases mem_aupd _ _ _ q hq' with ⟨b, hb, ⟨hkey, h⟩ | ⟨hkey, h⟩⟩
  · rw [h] at hwid' hsb
    have horig := hS (q.1, b) hb hsb wid' hwid'
    have hne : wid' ≠ wid := by
      intro hcx
      subst hcx
      have h2 := hW.f_back (q.1, b) hb wid' hwid'
      rw [hw] at h2
      simp only [Option.map_some', Option.some.injEq] at h2
      exact hkey h2.symm
    show (alookup (aerase s.windows wid) wid').map Window.invalidated =
      some true
    rw [alookup_aerase, if_neg hne]
    exact horig
  · rw [h] at hwid' hsb
    have h2 := (hW.f_nodup (q.1, b) hb).mem_erase_iff.mp hwid'
    show (alookup (aerase s.windows wid) wid').map Window.invalidated =
      some true
    rw [alookup_aerase, if_neg h2.1]
    exact hS (q.1, b) hb hsb wid' h2.2

/-- `window_invalidate` marks a live target invalidated. -/
theorem invalidate_sets (s : MMapCache) (wid : Nat)
    (h : (alookup s.windows wid).isSome) :
    (alookup (window_invalidate s wid).windows wid).map Window.invalidated
      = some true := by
  unfold window_invalidate
  cases hw : alookup s.windows wid with
  | none =>
    rw [hw] at h
    cases h
  | some w =>
    dsimp only
    by_cases hinv : w.invalidated = true
    · rw [if_pos hinv, hw]
      simp only [Option.map_some', hinv]
    · rw [if_neg hinv]
      dsimp only
      rw [alookup_aupd_self, hw]
      rfl

/-- `window_invalidate` never clears an invalidation flag. -/
theorem invalidate_mono (s : MMapCache) (x y : Nat)
    (h : (alookup s.windows y).map Window.invalidated = some true) :
    (alookup (window_invalidate s x).windows y).map Window.invalidated
      = some true := by
  unfold window_invalidate
  cases hw : alookup s.windows x with
  | none => exact h
  | some w =>
    dsimp only
    by_cases hinv : w.invalidated = true
    · rw [if_pos hinv]
      exact h
    · rw [if_neg hinv]
      dsimp only
      rw [alookup_aupd]
      by_cases hy : y = x
      · rw [if_pos hy, hy, hw]
        rfl
      · rw [if_neg hy]
        exact h

theorem fold_inval_mono (l : List Nat) :
    ∀ (s : MMapCache) (y : Nat),
      (alookup s.windows y).map Window.invalidated = some true →
      (alookup (l.foldl window_invalidate s).windows y).map
        Window.invalidated = some true := by
  induction l with
  | nil =>
    intro s y h
    exact h
  | cons a rest ih =>
    intro s y h
    exact ih _ y (invalidate_mono s a y h)

theorem fold_inval_keys (l : List Nat) :
    ∀ s : MMapCache, akeys (l.foldl window_invalidate s).windows =
      akeys s.windows := by
  induction l with
  | nil =>
    intro s
    rfl
  | cons a rest ih =>
    intro s
    exact (ih _).trans (invalidate_frames s a).2.2.2.2.2.2

theorem fold_inval_hits (l : List Nat) :
    ∀ (s : MMapCache) (y : Nat), y ∈ l → (alookup s.windows y).isSome →
      (alookup (l.foldl window_invalidate s).windows y).map
        Window.invalidated = some true := by
  induction l with
  | nil =>
    intro s y hy
    cases hy
  | cons a rest ih =>
    intro s y hy hs
    rcases List.mem_cons.mp hy with rfl | hy2
    · exact fold_inval_mono rest _ y (invalidate_sets s y hs)
    · have hs2 : (alookup (window_invalidate s a).windows y).isSome :=
        (mem_akeys _ _).mp (by
          rw [(invalidate_frames s a).2.2.2.2.2.2]
          exact (mem_akeys _ _).mpr hs)
      exact ih _ y hy2 hs2

theorem outer_fold_mono (l : List (Nat × MMapFileDescriptor)) :
    ∀ (s : MMapCache) (y : Nat),
      (alookup s.windows y).map Window.invalidated = some true →
      (alookup (l.foldl (fun s' p => if p.2.sigbus then
          p.2.windows.foldl window_invalidate s' else s') s).windows y).map
        Window.invalidated = some true := by
  induction l with
  | nil =>
    intro s y h
    exact h
  | cons a rest ih =>
    intro s y h
    simp only [List.foldl_cons]
    by_cases hsa : a.2.sigbus = true
    · rw [if_pos hsa]
      exact ih _ y (fold_inval_mono a.2.windows s y h)
    · rw [if_neg hsa]
      exact ih s y h

/-- After the phase-two loop, every window of every poisoned fd listed in
the folded registry is invalidated. -/
theorem outer_fold_hits (l : List (Nat × MMapFileDescriptor)) :
    ∀ s : MMapCache,
      (∀ q ∈ l, ∀ wid ∈ q.2.windows, (alookup s.windows wid).isSome) →
      ∀ q ∈ l, q.2.sigbus = true → ∀ wid ∈ q.2.windows,
        (alookup (l.foldl (fun s' p => if p.2.sigbus then
            p.2.windows.foldl window_invalidate s' else s') s).windows
          wid).map Window.invalidated = some true := by
  induction l with
  | nil =>
    intro s _ q hq
    cases hq
  | cons a rest ih =>
    intro s hlive q hq hsb wid hwid
    simp only [List.foldl_cons]
    rcases List.mem_cons.mp hq with rfl | hq2
    · rw [if_pos hsb]
      exact outer_fold_mono rest _ wid (fold_inval_hits q.2.windows s wid
        hwid (hlive q (List.mem_cons_self _ _) wid hwid))
    · have hlive2 : ∀ q2 ∈ rest, ∀ wid2 ∈ q2.2.windows,
          (alookup (if a.2.sigbus then
            a.2.windows.foldl window_invalidate s else s).windows
            wid2).isSome := by
        intro q2 hq2' wid2 hwid2
        have h2 := hlive q2 (List.mem_cons_of_mem _ hq2') wid2 hwid2
        by_cases hsa : a.2.sigbus = true
        · rw [if_pos hsa]
          exact (mem_akeys _ _).mp (by
            rw [fold_inval_keys]
            exact (mem_akeys _ _).mpr h2)
        · rw [if_neg hsa]
          exact h2
      have h3 := ih (if a.2.sigbus then
        a.2.windows.foldl window_invalidate s else s) hlive2 q hq2 hsb wid
        hwid
      by_cases hsa : a.2.sigbus = true
      · rw [if_pos hsa]
        rw [if_pos hsa] at h3
        exact h3
      · rw [if_neg hsa]
        rw [if_neg hsa] at h3
        exact h3

/-- Once the drain loop has matched an address, the found flag stays. -/
theorem drain_true_found (queue : List Nat) :
    ∀ (s : MMapCache) (b : Bool) (s' : MMapCache),
      sigbus_drain s true queue = some (b, s') → b = true := by
  induction queue with
  | nil =>
    intro s b s' h
    unfold sigbus_drain at h
    injection h with h2
    injection h2 with h3 h4
    exact h3.symm
  | cons addr rest ih =>
    intro s b s' h
    unfold sigbus_drain at h
    revert h
    cases hf : find_sigbus_fd s addr with
    | none =>
      intro h
      cases h
    | some fdk =>
      dsimp only
      intro h
      exact ih _ b s' h

/-- A drain that reports no match leaves the state unchanged. -/
theorem drain_false_id (queue : List Nat) :
    ∀ (s s' : MMapCache),
      sigbus_drain s false queue = some (false, s') → s' = s := by
  induction queue with
  | nil =>
    intro s s' h
    unfold sigbus_drain at h
    injection h with h2
    injection h2 with h3 h4
    exact h4.symm
  | cons addr rest ih =>
    intro s s' h
    unfold sigbus_drain at h
    revert h
    cases hf : find_sigbus_fd s addr with
    | none =>
      intro h
      cases h
    | some fdk =>
      dsimp only
      intro h
      have := drain_true_found rest _ false s' h
      cases this

/-- `mmap_cache_process_sigbus` (re-)establishes the sigbus invariant:
afterwards every window of every poisoned fd is invalidated, provided
the invariant held of the windows poisoned before this call. -/
theorem process_sigbus_sb (s : MMapCache) (queue : List Nat)
    (s' : MMapCache) (hW : WF s) (hU : UC s) (hS : SigbusInv s)
    (h : mmap_cache_process_sigbus s queue = some s') : SigbusInv s' := by
  unfold mmap_cache_process_sigbus at h
  revert h
  cases hd : sigbus_drain s false queue with
  | none =>
    intro h
    cases h
  | some pr =>
    obtain ⟨found, s₁⟩ := pr
    dsimp only
    intro h
    by_cases hf : ¬ found = true
    · rw [if_pos hf] at h
      cases h
      have hb : found = false := by
        cases found
        · rfl
        · exact absurd rfl hf
      rw [hb] at hd
      have h2 := drain_false_id queue s s' hd
      rw [h2]
      exact hS
    · rw [if_neg hf] at h
      cases h
      obtain ⟨hW1, hU1, _, _, _, _⟩ := sigbus_drain_pres queue s false
        found s₁ hW hU hd
      intro q hq hsb wid hwid
      obtain ⟨_, _, _, hfds⟩ := outer_fold_pres s₁.fds s₁ hW1 hU1
      rw [hfds] at hq
      refine outer_fold_hits s₁.fds s₁ ?_ q hq hsb wid hwid
      intro q2 hq2 wid2 hwid2
      have h2 := hW1.f_back q2 hq2 wid2 hwid2
      cases hlk : alookup s₁.windows wid2 with
      | none =>
        rw [hlk] at h2
        cases h2
      | some v => rfl

/-- The fresh-window constructor preserves the sigbus invariant when the
owner is not poisoned. -/
theorem window_add_mk_sb (s₀ : MMapCache) (fdk : Nat) (keep : Bool)
    (off sz ptr : Nat) (hW : WF s₀) (hS : SigbusInv s₀)
    (hnp : ∀ f, alookup s₀.fds fdk = some f → f.sigbus = false) :
    SigbusInv { s₀ with
      windows := (s₀.next_wid,
        (⟨fdk, false, keep, false, ptr, off, sz, []⟩ : Window)) ::
          s₀.windows,
      next_wid := s₀.next_wid + 1,
      n_windows := s₀.n_windows + 1,
      fds := aupd s₀.fds fdk fun f =>
        { f with windows := s₀.next_wid :: f.windows } } := by
  have hfresh : alookup s₀.windows s₀.next_wid = none :=
    alookup_none_of_lt _ _ _ hW.fresh (Nat.le_refl _)
  intro q hq hsb wid' hwid'
  have hq' : q ∈ aupd s₀.fds fdk (fun f =>
    { f with windows := s₀.next_wid :: f.windows }) := hq
  rcases mem_aupd _ _ _ q hq' with ⟨b, hb, ⟨hkey, h⟩ | ⟨hkey, h⟩⟩
  · rw [h] at hwid' hsb
    have horig := hS (q.1, b) hb hsb wid' hwid'
    have hne : ¬ s₀.next_wid = wid' := by
      intro hcx
      have h2 := hW.f_back (q.1, b) hb wid' hwid'
      rw [← hcx, hfresh] at h2
      cases h2
    show (alookup ((s₀.next_wid,
      (⟨fdk, false, keep, false, ptr, off, sz, []⟩ : Window)) ::
        s₀.windows) wid').map Window.invalidated = some true
    simp only [alookup, if_neg hne]
    exact horig
  · exfalso
    have hsb' : b.sigbus = true := by
      rw [h] at hsb
      exact hsb
    have hlk : alookup s₀.fds fdk = some b := by
      rw [← hkey]
      exact mem_alookup _ _ _ hW.nodup_f hb
    rw [hnp b hlk] at hsb'
    exact Bool.noConfusion hsb'

/-- `window_add` preserves the sigbus invariant when the owner is not
poisoned. -/
theorem window_add_sb (s : MMapCache) (fdk : Nat) (keep : Bool)
    (off sz ptr : Nat) (ok : Bool) (wid : Nat) (s' : MMapCache)
    (hW : WF s) (hU : UC s) (hS : SigbusInv s)
    (hnp : ∀ f, alookup s.fds fdk = some f → f.sigbus = false)
    (h : window_add s fdk keep off sz ptr ok = some (wid, s')) :
    SigbusInv s' := by
  unfold window_add at h
  revert h
  dsimp only
  by_cases hbr : (s.unused.isEmpty || decide (s.n_windows ≤ WINDOWS_MIN))
    = true
  · rw [if_pos hbr]
    by_cases hok : ok = true
    · rw [if_pos hok]
      intro h
      injection h with h2
      injection h2 with h3 h4
      subst h4
      exact window_add_mk_sb s fdk keep off sz ptr hW hS hnp
    · rw [if_neg hok]
      intro h
      cases h
  · rw [if_neg hbr]
    cases hgl : s.unused.getLast? with
    | none =>
      intro h
      cases h
    | some victim =>
      dsimp only
      intro h
      have hv := List.mem_of_getLast?_eq_some hgl
      have hvl := hW.unused_mem victim hv
      cases hw : alookup s.windows victim with
      | none =>
        rw [hw] at hvl
        cases hvl
      | some wv =>
        obtain ⟨hWf, hUf, _⟩ := window_free_pres s victim wv hw hW hU
        have hSf := window_free_sb s victim wv hw hW hS
        have hnpf : ∀ f, alookup (window_free s victim).fds fdk = some f →
            f.sigbus = false := by
          intro f hf
          have hmap : (alookup (window_free s victim).fds fdk).map
              MMapFileDescriptor.sigbus =
              (alookup s.fds fdk).map MMapFileDescriptor.sigbus := by
            rw [window_free_eq s victim wv hw]
            dsimp only
            exact aupd_fd_sigbus _ _ _ (by intro v; rfl) fdk
          rw [hf] at hmap
          cases hlk : alookup s.fds fdk with
          | none =>
            rw [hlk] at hmap
            cases hmap
          | some f₀ =>
            rw [hlk] at hmap
            simp only [Option.map_some', Option.some.injEq] at hmap
            rw [hmap]
            exact hnp f₀ hlk
        injection h with h2
        injection h2 with h3 h4
        subst h4
        exact window_add_mk_sb (window_free s victim) fdk keep off sz ptr
          hWf hSf hnpf

/-- `context_add` preserves the sigbus invariant. -/
theorem context_add_sb (s : MMapCache) (id : Nat) (ok : Bool)
    (s' : MMapCache) (hS : SigbusInv s)
    (h : context_add s id ok = some s') : SigbusInv s' := by
  obtain ⟨hf, _, hwin, _, _, _⟩ := context_add_frames s id ok s' h
  exact SigbusInv_congr s s' hf (fun x => by rw [hwin]) hS

/-- The `mmap` retry loop preserves the sigbus invariant and the per-fd
poison flags. -/
theorem try_harder_go_sb (wsize : Nat) (mres : Nat → MmapRes) :
    ∀ (fuel attempt : Nat) (s : MMapCache), WF s → UC s → SigbusInv s →
      SigbusInv (mmap_try_harder_go wsize mres attempt fuel s).2 ∧
      ∀ x, (alookup (mmap_try_harder_go wsize mres attempt fuel
          s).2.fds x).map MMapFileDescriptor.sigbus =
        (alookup s.fds x).map MMapFileDescriptor.sigbus := by
  intro fuel
  induction fuel with
  | zero =>
    intro attempt s hW hU hS
    exact ⟨hS, fun x => rfl⟩
  | succ n ih =>
    intro attempt s hW hU hS
    unfold mmap_try_harder_go
    cases hm : mres attempt with
    | ok addr =>
      dsimp only
      exact ⟨hS, fun x => rfl⟩
    | err e =>
      dsimp only
      by_cases he : e ≠ ENOMEM
      · rw [if_pos he]
        exact ⟨hS, fun x => rfl⟩
      · rw [if_neg he]
        unfold make_room
        cases hgl : s.unused.getLast? with
        | none =>
          dsimp only
          rw [if_pos rfl]
          exact ⟨hS, fun x => rfl⟩
        | some victim =>
          dsimp only
          rw [if_neg (by decide : ¬ (1 : Nat) = 0)]
          have hv : victim ∈ s.unused := List.mem_of_getLast?_eq_some hgl
          have hvl := hW.unused_mem victim hv
          cases hw : alookup s.windows victim with
          | none =>
            rw [hw] at hvl
            cases hvl
          | some wv =>
            obtain ⟨hWf, hUf, _⟩ := window_free_pres s victim wv hw hW hU
            have hSf := window_free_sb s victim wv hw hW hS
            obtain ⟨h1, h2⟩ := ih (attempt + 1) (window_free s victim)
              hWf hUf hSf
            refine ⟨h1, fun x => ?_⟩
            rw [h2 x, window_free_eq s victim wv hw]
            dsimp only
            exact aupd_fd_sigbus _ _ _ (by intro v; rfl) x

/-- `find_mmap` returns 0 only when the handle is not poisoned. -/
theorem find_mmap_zero_not_poisoned (s : MMapCache) (fdk ctx : Nat)
    (keep : Bool) (off sz : Nat) (ctx_ok : Bool) (f : MMapFileDescriptor)
    (hf : alookup s.fds fdk = some f)
    (hr : (find_mmap s fdk ctx keep off sz ctx_ok).1 = 0) :
    f.sigbus = false := by
  by_cases hsb : f.sigbus = true
  · exfalso
    unfold find_mmap at hr
    rw [hf] at hr
    dsimp only at hr
    rw [if_pos hsb] at hr
    norm_num [ EIO] at hr
  · cases h2 : f.sigbus
    · rfl
    · exact absurd h2 hsb

/-- `try_context` preserves the sigbus invariant. -/
theorem try_context_sb (s : MMapCache) (fdk ctx : Nat) (keep : Bool)
    (off sz : Nat) (hW : WF s) (hS : SigbusInv s) :
    SigbusInv (try_context s fdk ctx keep off sz).2.2 := by
  unfold try_context
  cases hc : alookup s.contexts ctx with
  | none => exact hS
  | some c =>
    dsimp only
    cases hcw : c.window with
    | none => exact hS
    | some wid =>
      dsimp only
      cases hw : alookup s.windows wid with
      | none => exact hS
      | some w =>
        dsimp only
        by_cases hm : ¬ window_matches_fd w fdk off sz = true
        · rw [if_pos hm]
          exact SigbusInv_congr s _ (detach_frames s ctx).1
            (fun x => detach_invalidated s ctx x) hS
        · rw [if_neg hm]
          cases hf : alookup s.fds w.fd with
          | none => exact hS
          | some f =>
            dsimp only
            by_cases hsb : f.sigbus = true
            · rw [if_pos hsb]
              exact hS
            · rw [if_neg hsb]
              dsimp only
              refine SigbusInv_congr s _ rfl ?_ hS
              intro x
              dsimp only
              exact aupd_invalidated _ _ _ (by intro v; rfl) x

/-- `find_mmap` preserves the sigbus invariant. -/
theorem find_mmap_sb (s : MMapCache) (fdk ctx : Nat) (keep : Bool)
    (off sz : Nat) (ctx_ok : Bool) (hS : SigbusInv s) :
    SigbusInv (find_mmap s fdk ctx keep off sz ctx_ok).2.2 := by
  unfold find_mmap
  cases hf : alookup s.fds fdk with
  | none => exact hS
  | some f =>
    dsimp only
    by_cases hsb : f.sigbus = true
    · rw [if_pos hsb]
      exact hS
    · rw [if_neg hsb]
      cases hfind : f.windows.find? (fun wid =>
          match alookup s.windows wid with
          | some w => window_matches w off sz
          | none => false) with
      | none => exact hS
      | some wid =>
        dsimp only
        cases hca : context_add s ctx ctx_ok with
        | none => exact hS
        | some s₁ =>
          dsimp only
          have hS1 := context_add_sb s ctx ctx_ok s₁ hS hca
          have hS2 : SigbusInv (context_attach_window s₁ ctx wid) :=
            SigbusInv_congr s₁ _ (attach_frames s₁ ctx wid).1
              (fun x => attach_invalidated s₁ ctx wid x) hS1
          cases hlk3 : alookup (aupd
              (context_attach_window s₁ ctx wid).windows wid fun v =>
              { v with keep_always := v.keep_always || keep }) wid with
          | none =>
            dsimp only
            refine SigbusInv_congr (context_attach_window s₁ ctx wid) _
              rfl ?_ hS2
            intro x
            dsimp only
            exact aupd_invalidated _ _ _ (by intro v; rfl) x
          | some wfin =>
            dsimp only
            refine SigbusInv_congr (context_attach_window s₁ ctx wid) _
              rfl ?_ hS2
            intro x
            dsimp only
            exact aupd_invalidated _ _ _ (by intro v; rfl) x

/-- `add_mmap` preserves the sigbus invariant (the requesting handle is
not poisoned on this path). -/
theorem add_mmap_sb (k : Nat) (s : MMapCache) (fdk ctx : Nat)
    (keep : Bool) (off sz : Nat) (st : Option Nat) (o : GetOracle)
    (hlt : ctx < MMAP_CACHE_MAX_CONTEXTS)
    (hW : WF s) (hU : UC s) (hS : SigbusInv s)
    (hnp : ∀ f, alookup s.fds fdk = some f → f.sigbus = false) :
    SigbusInv (add_mmap k s fdk ctx keep off sz st o).2.2 := by
  unfold add_mmap
  cases hg : add_mmap_geometry k off sz st with
  | error e => exact hS
  | ok pr =>
    obtain ⟨woff, wsz⟩ := pr
    dsimp only
    have hpres := try_harder_pres s wsz o.mres hW hU
    have hsbp := try_harder_go_sb wsz o.mres (s.unused.length + 1) 0 s hW
      hU hS
    cases hth : mmap_try_harder s wsz o.mres with
    | mk r s₁ =>
      rw [hth] at hpres
      have hsbp2 : SigbusInv s₁ ∧ ∀ x,
          (alookup s₁.fds x).map MMapFileDescriptor.sigbus =
          (alookup s.fds x).map MMapFileDescriptor.sigbus := by
        have h9 : mmap_try_harder_go wsz o.mres 0 (s.unused.length + 1) s
            = (r, s₁) := hth
        rw [h9] at hsbp
        exact hsbp
      obtain ⟨hW1, hU1, _, _⟩ := hpres
      obtain ⟨hS1, hmap1⟩ := hsbp2
      have hnp1 : ∀ f, alookup s₁.fds fdk = some f → f.sigbus = false := by
        intro f hf
        have h2 := hmap1 fdk
        rw [hf] at h2
        cases hlk : alookup s.fds fdk with
        | none =>
          rw [hlk] at h2
          cases h2
        | some f₀ =>
          rw [hlk] at h2
          simp only [Option.map_some', Option.some.injEq] at h2
          rw [h2]
          exact hnp f₀ hlk
      cases r with
      | error e =>
        dsimp only
        exact hS1
      | ok d =>
        dsimp only
        cases hca : context_add s₁ ctx o.ctx_ok with
        | none =>
          dsimp only
          exact hS1
        | some s₂ =>
          dsimp only
          obtain ⟨hfds2, _, hwin2eq, _, _, _⟩ :=
            context_add_frames s₁ ctx o.ctx_ok s₂ hca
          have hS2 := context_add_sb s₁ ctx o.ctx_ok s₂ hS1 hca
          have hnp2 : ∀ f, alookup s₂.fds fdk = some f →
              f.sigbus = false := by
            intro f hf
            rw [hfds2] at hf
            exact hnp1 f hf
          cases hwa : window_add s₂ fdk keep woff wsz d o.win_ok with
          | none =>
            dsimp only
            exact hS2
          | some pr2 =>
            obtain ⟨wid, s₃⟩ := pr2
            dsimp only
            obtain ⟨hW2, hU2, _, _, _, _, _⟩ := context_add_pres s₁ ctx
              o.ctx_ok s₂ hlt hW1 hU1 hca
            have hS3 := window_add_sb s₂ fdk keep woff wsz d o.win_ok wid
              s₃ hW2 hU2 hS2 hnp2 hwa
            exact SigbusInv_congr s₃ _ (attach_frames s₃ ctx wid).1
              (fun x => attach_invalidated s₃ ctx wid x) hS3

/-- `mmap_cache_fd_get` preserves the sigbus invariant. -/
theorem get_sb (k : Nat) (s : MMapCache) (fdk ctx : Nat) (keep : Bool)
    (off sz : Nat) (st : Option Nat) (o : GetOracle)
    (hlt : ctx < MMAP_CACHE_MAX_CONTEXTS) (hW : WF s) (hU : UC s)
    (hS : SigbusInv s) :
    SigbusInv (mmap_cache_fd_get k s fdk ctx keep off sz st o).2.2 := by
  unfold mmap_cache_fd_get
  have hpres1 := try_context_pres s fdk ctx keep off sz hW hU
  have hsb1 := try_context_sb s fdk ctx keep off sz hW hS
  cases htc : try_context s fdk ctx keep off sz with
  | mk r pr =>
    obtain ⟨ret, s₁⟩ := pr
    rw [htc] at hpres1 hsb1
    obtain ⟨hW1, hU1, _, hfds1⟩ := hpres1
    dsimp only
    by_cases hr : ¬ r = 0
    · rw [if_pos hr]
      exact hsb1
    · rw [if_neg hr]
      have hpres2 := find_mmap_pres s₁ fdk ctx keep off sz o.ctx_ok hlt
        hW1 hU1
      have hsb2 := find_mmap_sb s₁ fdk ctx keep off sz o.ctx_ok hsb1
      cases hfm : find_mmap s₁ fdk ctx keep off sz o.ctx_ok with
      | mk r2 pr2 =>
        obtain ⟨ret2, s₂⟩ := pr2
        rw [hfm] at hpres2 hsb2
        obtain ⟨hW2, hU2, _, hfds2⟩ := hpres2
        dsimp only
        by_cases hr2 : ¬ r2 = 0
        · rw [if_pos hr2]
          exact hsb2
        · rw [if_neg hr2]
          have hr2' : r2 = 0 := of_not_not hr2
          have hnp2 : ∀ f, alookup s₂.fds fdk = some f →
              f.sigbus = false := by
            intro f hf
            rw [show s₂.fds = s₁.fds from hfds2] at hf
            refine find_mmap_zero_not_poisoned s₁ fdk ctx keep off sz
              o.ctx_ok f hf ?_
            rw [hfm]
            exact hr2'
          exact add_mmap_sb k { s₂ with n_missed := s₂.n_missed + 1 } fdk
            ctx keep off sz st o hlt (WF_upd _ _ _ _ _ hW2) hU2 hsb2 hnp2

/-- `mmap_cache_add_fd` preserves the sigbus invariant. -/
theorem add_fd_sb (s : MMapCache) (fd prot : Nat) (o : AllocOracle)
    (hS : SigbusInv s) : SigbusInv (mmap_cache_add_fd s fd prot o).2 := by
  unfold mmap_cache_add_fd
  cases hf : alookup s.fds fd with
  | some f => exact hS
  | none =>
    by_cases h1 : ¬ o.ensure_ok = true
    · rw [if_pos h1]
      exact hS
    · rw [if_neg h1]
      by_cases h2 : ¬ o.new_ok = true
      · rw [if_pos h2]
        exact hS
      · rw [if_neg h2]
        dsimp only
        by_cases h3 : ¬ o.put_ok = true
        · rw [if_pos h3]
          exact hS
        · rw [if_neg h3]
          intro q hq hsb wid hwid
          rcases List.mem_cons.mp hq with rfl | hq2
          · exact Bool.noConfusion hsb
          · exact hS q hq2 hsb wid hwid

/-- The window-freeing loop of `mmap_cache_fd_free` preserves the sigbus
invariant. -/
theorem free_fd_loop_sb (fdk : Nat) :
    ∀ (n : Nat) (s : MMapCache), WF s → UC s → SigbusInv s →
      SigbusInv (free_fd_windows fdk n s) := by
  intro n
  induction n with
  | zero =>
    intro s hW hU hS
    exact hS
  | succ m ih =>
    intro s hW hU hS
    unfold free_fd_windows
    cases hlf : alookup s.fds fdk with
    | none => exact hS
    | some f =>
      dsimp only
      cases hws : f.windows with
      | nil => exact hS
      | cons wid rest =>
        dsimp only
        have hmf : (fdk, f) ∈ s.fds := alookup_eq_some_mem _ _ _ hlf
        have hb := hW.f_back (fdk, f) hmf wid
          (by rw [hws]; exact List.mem_cons_self _ _)
        cases hw : alookup s.windows wid with
        | none =>
          rw [hw] at hb
          cases hb
        | some w =>
          obtain ⟨h1, h2, _⟩ := window_free_pres s wid w hw hW hU
          exact ih (window_free s wid) h1 h2
            (window_free_sb s wid w hw hW hS)

/-- `mmap_cache_fd_free` preserves the sigbus invariant. -/
theorem fd_free_sb (s : MMapCache) (fdk : Nat) (queue : List Nat)
    (s' : MMapCache) (hW : WF s) (hU : UC s) (hS : SigbusInv s)
    (hfd : (alookup s.fds fdk).isSome)
    (h : mmap_cache_fd_free s fdk queue = some s') : SigbusInv s' := by
  unfold mmap_cache_fd_free at h
  revert h
  cases hp : mmap_cache_process_sigbus s queue with
  | none =>
    intro h
    cases h
  | some s₁ =>
    dsimp only
    intro h
    obtain ⟨hW1, hU1, _, hks⟩ := process_sigbus_pres s queue s₁ hW hU hp
    have hS1 := process_sigbus_sb s queue s₁ hW hU hS hp
    have hfd1 : (alookup s₁.fds fdk).isSome := (mem_akeys _ _).mp (by
      rw [hks]
      exact (mem_akeys _ _).mpr hfd)
    cases hlf : alookup s₁.fds fdk with
    | none =>
      rw [hlf] at hfd1
      cases hfd1
    | some f =>
      rw [hlf] at h
      dsimp only at h
      obtain ⟨hW2, hU2, _⟩ := free_fd_loop_pres fdk f.windows.length s₁
        hW1 hU1
      have hS2 := free_fd_loop_sb fdk f.windows.length s₁ hW1 hU1 hS1
      injection h with h2
      subst h2
      intro q hq hsb wid hwid
      exact hS2 q (mem_aerase _ _ _ hq).1 hsb wid hwid

/-- Every public cache operation preserves the sigbus invariant. -/
theorem stepSt_sb (k : Nat) (op : CacheOp) (s s' : MMapCache)
    (hW : WF s) (hI : Inv s) (hS : SigbusInv s)
    (h : stepSt k op s = some s') : SigbusInv s' := by
  have hU := UC_of_Inv s hI
  cases op with
  | get fdk ctx keep off sz st ctx_ok win_ok mres =>
    simp only [stepSt] at h
    by_cases hreg : (alookup s.fds fdk).isSome
    case neg =>
      rw [if_neg hreg] at h
      cases h
    rw [if_pos hreg] at h
    by_cases hctx : ctx < MMAP_CACHE_MAX_CONTEXTS
    case neg =>
      rw [if_neg hctx] at h
      cases h
    rw [if_pos hctx] at h
    simp only [Option.some.injEq] at h
    subst h
    exact get_sb k s fdk ctx keep off sz st ⟨ctx_ok, win_ok, mres⟩ hctx hW
      hU hS
  | addFd fd prot o =>
    simp only [stepSt, Option.some.injEq] at h
    subst h
    exact add_fd_sb s fd prot o hS
  | fdFree fdk q =>
    simp only [stepSt] at h
    by_cases hreg : (alookup s.fds fdk).isSome
    case neg =>
      rw [if_neg hreg] at h
      cases h
    rw [if_pos hreg] at h
    exact fd_free_sb s fdk q s' hW hU hS hreg h
  | gotSigbus fdk q =>
    simp only [stepSt] at h
    by_cases hreg : (alookup s.fds fdk).isSome
    case neg =>
      rw [if_neg hreg] at h
      cases h
    rw [if_pos hreg] at h
    cases hg : mmap_cache_fd_got_sigbus s fdk q with
    | none =>
      rw [hg] at h
      cases h
    | some pr =>
      obtain ⟨b, s₁⟩ := pr
      rw [hg] at h
      simp only [Option.map_some', Option.some.injEq] at h
      subst h
      exact process_sigbus_sb s q s₁ hW hU hS
        (got_sigbus_state s fdk q b s₁ hg)

/-- `mmap_cache_fd_got_sigbus` reports exactly the handle's poison flag
in the post-processing state. -/
theorem got_sigbus_flag (s : MMapCache) (fdk : Nat) (queue : List Nat)
    (b : Bool) (s' : MMapCache)
    (h : mmap_cache_fd_got_sigbus s fdk queue = some (b, s')) :
    (alookup s'.fds fdk).map MMapFileDescriptor.sigbus = some b ∨
      (alookup s'.fds fdk = none ∧ b = false) := by
  unfold mmap_cache_fd_got_sigbus at h
  revert h
  cases hp : mmap_cache_process_sigbus s queue with
  | none =>
    intro h
    cases h
  | some s₁ =>
    dsimp only
    cases hlf : alookup s₁.fds fdk with
    | none =>
      intro h
      injection h with h2
      injection h2 with h3 h4
      subst h4
      exact Or.inr ⟨hlf, h3.symm⟩
    | some f =>
      intro h
      injection h with h2
      injection h2 with h3 h4
      subst h4
      left
      rw [hlf]
      simp only [Option.map_some', h3]

/-- Invalidating an already-invalidated window is a no-op. -/
theorem invalidate_idem (s : MMapCache) (wid : Nat) (w : Window)
    (hw : alookup s.windows wid = some w) (hinv : w.invalidated = true) :
    window_invalidate s wid = s := by
  unfold window_invalidate
  rw [hw]
  dsimp only
  rw [if_pos hinv]

/-- C2: whenever bus-fault processing runs to completion — directly, via
`mmap_cache_fd_got_sigbus`, or at the start of `mmap_cache_fd_free` —
afterwards every window of every poisoned handle is invalidated (the
sigbus invariant is re-established by processing and preserved by every
public operation); `mmap_cache_fd_got_sigbus` returns exactly the
handle's poison flag in the post-processing state; and invalidating an
already-invalidated window is a no-op. -/
theorem C2_sigbus_invalidation :
    (∀ (s : MMapCache) (queue : List Nat) (s' : MMapCache),
      WF s → Inv s → SigbusInv s →
      mmap_cache_process_sigbus s queue = some s' → SigbusInv s') ∧
    (∀ (k : Nat) (op : CacheOp) (s s' : MMapCache),
      WF s → Inv s → SigbusInv s → stepSt k op s = some s' →
      SigbusInv s') ∧
    (∀ (s : MMapCache) (fdk : Nat) (queue : List Nat) (b : Bool)
      (s' : MMapCache),
      mmap_cache_fd_got_sigbus s fdk queue = some (b, s') →
      (alookup s'.fds fdk).map MMapFileDescriptor.sigbus = some b ∨
        (alookup s'.fds fdk = none ∧ b = false)) ∧
    (∀ (s : MMapCache) (wid : Nat) (w : Window),
      alookup s.windows wid = some w → w.invalidated = true →
      window_invalidate s wid = s) :=
  ⟨fun s queue s' hW hI hS h =>
      process_sigbus_sb s queue s' hW (UC_of_Inv s hI) hS h,
    stepSt_sb, got_sigbus_flag, invalidate_idem⟩

/-- Witness for C2 on concrete states: processing and a public operation
on the poisoned one-window cache keep the sigbus invariant, the flag
query on the clean cache reports `false`, and re-invalidating the
already-invalidated window is the identity. -/
theorem C2_sigbus_invalidation_witness :
    SigbusInv exCacheP ∧ SigbusInv exCacheP ∧
    ((alookup exCache.fds 3).map MMapFileDescriptor.sigbus = some false ∨
      (alookup exCache.fds 3 = none ∧ false = false)) ∧
    window_invalidate exCacheP 0 = exCacheP :=
  ⟨C2_sigbus_invalidation.1 exCacheP [] exCacheP
      (by constructor <;> decide)
      (by unfold Inv; decide) (by unfold SigbusInv; decide) rfl,
    C2_sigbus_invalidation.2.1 12 (CacheOp.gotSigbus 3 []) exCacheP
      exCacheP
      (by constructor <;> decide)
      (by unfold Inv; decide) (by unfold SigbusInv; decide) rfl,
    C2_sigbus_invalidation.2.2.1 exCache 3 [] false exCache rfl,
    C2_sigbus_invalidation.2.2.2 exCacheP 0
      ⟨3, true, true, false, 4096, 0, 8388608, [0]⟩ rfl rfl⟩

/-! ### C3: teardown -/

theorem alookup_all_none_nil {α : Type} (l : List (Nat × α))
    (h : ∀ j, alookup l j = none) : l = [] := by
  cases l with
  | nil => rfl
  | cons hd tl =>
    obtain ⟨a, b⟩ := hd
    have h2 := h a
    simp [alookup] at h2

theorem detach_contexts_other (s : MMapCache) (cid j : Nat)
    (hj : ¬ j = cid) :
    alookup (context_detach_window s cid).contexts j =
      alookup s.contexts j := by
  unfold context_detach_window
  cases hc : alookup s.contexts cid with
  | none => rfl
  | some c =>
    dsimp only
    cases hcw : c.window with
    | none => rfl
    | some wid =>
      dsimp only
      cases hw : alookup s.windows wid with
      | none =>
        dsimp only
        exact alookup_aupd_other _ _ _ _ hj
      | some w =>
        dsimp only
        by_cases hcond : ((w.contexts.erase cid).isEmpty && !w.keep_always)
          = true
        · rw [if_pos hcond]
          dsimp only
          exact alookup_aupd_other _ _ _ _ hj
        · rw [if_neg hcond]
          dsimp only
          exact alookup_aupd_other _ _ _ _ hj

/-- `context_free` preserves well-formedness and the invariants, and
clears exactly its slot. -/
theorem context_free_pres (s : MMapCache) (cid : Nat) (hW : WF s)
    (hU : UC s) :
    WF (context_free s cid) ∧ UC (context_free s cid) ∧
    PInv s (context_free s cid) ∧
    alookup (context_free s cid).contexts cid = none ∧
    ∀ j, ¬ j = cid → alookup (context_free s cid).contexts j =
      alookup s.contexts j := by
  obtain ⟨hWd, hUd, hPd⟩ := context_detach_pres s cid hW hU
  have hno : ∀ (x : Nat) (wv : Window),
      alookup (context_detach_window s cid).windows x = some wv →
      ¬ cid ∈ wv.contexts := by
    cases hc : alookup s.contexts cid with
    | none =>
      have hid : context_detach_window s cid = s := by
        unfold context_detach_window
        rw [hc]
      intro x wv hlk hmem
      have h2 := hWd.wc_back (x, wv) (alookup_eq_some_mem _ _ _ hlk) cid
        hmem
      rw [hid, hc] at h2
      cases h2
    | some c =>
      obtain ⟨cd, hcdl, hcdw⟩ := detach_context_none s cid c hc
      intro x wv hlk hmem
      have h2 := hWd.wc_back (x, wv) (alookup_eq_some_mem _ _ _ hlk) cid
        hmem
      rw [hcdl] at h2
      simp only [Option.map_some'] at h2
      rw [hcdw] at h2
      injection h2 with h3
      cases h3
  unfold context_free
  dsimp only
  refine ⟨⟨hWd.nodup_w, hWd.nodup_f, ?_, hWd.nodup_u, hWd.unused_mem,
    hWd.flag_unused, hWd.wc_nodup, ?_, ?_, ?_, ?_, hWd.w_fd, hWd.f_fd,
    hWd.f_nodup, hWd.f_back, hWd.fresh, hWd.count⟩, hUd, hPd, ?_, ?_⟩
  · exact nodup_akeys_aerase _ _ hWd.nodup_c
  · intro p hp cid' hcid'
    have hne : cid' ≠ cid := by
      intro hcx
      subst hcx
      exact hno p.1 p.2 (mem_alookup _ _ _ hWd.nodup_w hp) hcid'
    show (alookup (aerase (context_detach_window s cid).contexts cid)
      cid').map Context.window = some (some p.1)
    rw [alookup_aerase, if_neg hne]
    exact hWd.wc_back p hp cid' hcid'
  · intro q hq
    exact hWd.c_id q (mem_aerase _ _ _ hq).1
  · intro q hq
    exact hWd.c_lt q (mem_aerase _ _ _ hq).1
  · intro q hq
    exact hWd.c_back q (mem_aerase _ _ _ hq).1
  · show alookup (aerase (context_detach_window s cid).contexts cid) cid
      = none
    rw [alookup_aerase, if_pos rfl]
  · intro j hj
    show alookup (aerase (context_detach_window s cid).contexts cid) j
      = alookup s.contexts j
    rw [alookup_aerase, if_neg hj]
    exact detach_contexts_other s cid j hj

/-- The context-slot loop of `mmap_cache_free` clears every visited slot
and touches no other. -/
theorem free_slots_fold (l : List Nat) :
    ∀ s : MMapCache, WF s → UC s →
      WF (l.foldl (fun s' i => if (alookup s'.contexts i).isSome then
        context_free s' i else s') s) ∧
      UC (l.foldl (fun s' i => if (alookup s'.contexts i).isSome then
        context_free s' i else s') s) ∧
      PInv s (l.foldl (fun s' i => if (alookup s'.contexts i).isSome then
        context_free s' i else s') s) ∧
      (∀ j ∈ l, alookup (l.foldl (fun s' i =>
        if (alookup s'.contexts i).isSome then context_free s' i else s')
          s).contexts j = none) ∧
      (∀ j, ¬ j ∈ l → alookup (l.foldl (fun s' i =>
        if (alookup s'.contexts i).isSome then context_free s' i else s')
          s).contexts j = alookup s.contexts j) := by
  induction l with
  | nil =>
    intro s hW hU
    exact ⟨hW, hU, PInv_refl s, fun j hj => absurd hj (List.not_mem_nil j),
      fun j _ => rfl⟩
  | cons i rest ih =>
    intro s hW hU
    simp only [List.foldl_cons]
    by_cases hp : (alookup s.contexts i).isSome
    · rw [if_pos hp]
      obtain ⟨hW1, hU1, hP1, hnone1, hother1⟩ := context_free_pres s i hW
        hU
      obtain ⟨hW2, hU2, hP2, hmem2, hother2⟩ := ih (context_free s i) hW1
        hU1
      refine ⟨hW2, hU2, PInv_trans _ _ _ hP1 hP2, ?_, ?_⟩
      · intro j hj
        rcases List.mem_cons.mp hj with rfl | hj2
        · by_cases hjr : j ∈ rest
          · exact hmem2 j hjr
          · rw [hother2 j hjr]
            exact hnone1
        · exact hmem2 j hj2
      · intro j hj
        have hji : ¬ j = i := fun hc => hj (hc ▸ List.mem_cons_self _ _)
        have hjr : ¬ j ∈ rest := fun hc => hj (List.mem_cons_of_mem _ hc)
        rw [hother2 j hjr]
        exact hother1 j hji
    · rw [if_neg hp]
      obtain ⟨hW2, hU2, hP2, hmem2, hother2⟩ := ih s hW hU
      refine ⟨hW2, hU2, hP2, ?_, ?_⟩
      · intro j hj
        rcases List.mem_cons.mp hj with rfl | hj2
        · by_cases hjr : j ∈ rest
          · exact hmem2 j hjr
          · rw [hother2 j hjr]
            cases hlk : alookup s.contexts j with
            | none => rfl
            | some c =>
              rw [hlk] at hp
              exact absurd rfl hp
        · exact hmem2 j hj2
      · intro j hj
        exact hother2 j (fun hc => hj (List.mem_cons_of_mem _ hc))

/-- The final loop of `mmap_cache_free` empties the unused list, freeing
exactly the windows on it. -/
theorem free_unused_loop :
    ∀ (n : Nat) (s : MMapCache), (akeys s.windows).Nodup →
      s.unused.Nodup →
      (∀ x ∈ s.unused, (alookup s.windows x).map Window.in_unused =
        some true) →
      s.unused.length = n →
      (free_unused_windows n s).unused = [] ∧
      (s.contexts = [] → (free_unused_windows n s).contexts = []) ∧
      (s.fds = [] → (free_unused_windows n s).fds = []) ∧
      ∀ p ∈ (free_unused_windows n s).windows,
        p ∈ s.windows ∧ ¬ p.1 ∈ s.unused := by
  intro n
  induction n with
  | zero =>
    intro s hndw hndu hmem hlen
    have hnil : s.unused = [] := List.length_eq_zero.mp hlen
    exact ⟨hnil, fun h => h, fun h => h, fun p hp =>
      ⟨hp, by rw [hnil]; exact List.not_mem_nil _⟩⟩
  | succ m ih =>
    intro s hndw hndu hmem hlen
    unfold free_unused_windows
    cases hun : s.unused with
    | nil =>
      rw [hun] at hlen
      simp at hlen
    | cons h rest =>
      dsimp only
      have hndu2 := hun ▸ hndu
      have hhm : h ∈ s.unused := by
        rw [hun]
        exact List.mem_cons_self _ _
      have hh := hmem h hhm
      cases hw : alookup s.windows h with
      | none =>
        rw [hw] at hh
        cases hh
      | some wh =>
        rw [hw] at hh
        simp only [Option.map_some', Option.some.injEq] at hh
        have hfeq := window_free_eq s h wh hw
        have hu1 : (window_free s h).unused = rest := by
          rw [hfeq]
          dsimp only
          rw [if_pos hh, hun, List.erase_cons_head]
        have hw1 : (window_free s h).windows = aerase s.windows h := by
          rw [hfeq]
        have hlen1 : rest.length = m := by
          rw [hun] at hlen
          simp only [List.length_cons] at hlen
          omega
        obtain ⟨h1, h2, h3, h4⟩ := ih (window_free s h)
          (by rw [hw1]; exact nodup_akeys_aerase _ _ hndw)
          (by rw [hu1]; exact (List.nodup_cons.mp hndu2).2)
          (by
            intro x hx
            rw [hu1] at hx
            have hxs : x ∈ s.unused := by
              rw [hun]
              exact List.mem_cons_of_mem _ hx
            have hne : x ≠ h := fun hc =>
              (List.nodup_cons.mp hndu2).1 (hc ▸ hx)
            rw [hw1, alookup_aerase, if_neg hne]
            exact hmem x hxs)
          (by rw [hu1]; exact hlen1)
        refine ⟨h1, ?_, ?_, ?_⟩
        · intro hc
          apply h2
          rw [hfeq]
          dsimp only
          rw [hc]
          rfl
        · intro hc
          apply h3
          rw [hfeq]
          dsimp only
          rw [hc]
          rfl
        · intro p hp
          obtain ⟨hp1, hp2⟩ := h4 p hp
          rw [hw1] at hp1
          obtain ⟨hp3, hp4⟩ := mem_aerase _ _ _ hp1
          refine ⟨hp3, ?_⟩
          intro hcon
          rcases List.mem_cons.mp hcon with hc2 | hc2
          · exact hp4 hc2
          · rw [hu1] at hp2
            exact hp2 hc2

/-- Refutation of the original teardown claim on a state reached from the
fresh cache by two public operations (register fd 3, then read it with
`keep_always` set): after `mmap_cache_free`, a window record of this
cache remains, its mapping is still mapped, and the live window count is
not zero — the registered handle's pinned window is never visited by the
teardown path. -/
theorem C3_teardown_counterexample :
    ∃ s', runOps 12 [CacheOp.addFd 3 1 ⟨true, true, true⟩,
        CacheOp.get 3 0 true 0 10 none true true
          (fun _ => MmapRes.ok 4096)] exEmpty = some s' ∧
      (mmap_cache_free s').windows ≠ [] ∧
      (mmap_cache_free s').mapped ≠ [] ∧
      (mmap_cache_free s').n_windows ≠ 0 := by
  refine ⟨_, rfl, ?_, ?_, ?_⟩ <;> decide

/-- C3 (amended): when the reference count drops to zero, teardown frees
every context slot, empties the fd registry container without visiting
the registered handles or the windows they own, and then frees exactly
the windows sitting on the unused (LRU) list; under the cache invariants
every window record that survives teardown is pinned (`keep_always`), and
pinned windows of registered handles do survive together with their
mappings. -/
theorem C3_teardown_amended (s : MMapCache) (hW : WF s) (hI : Inv s) :
    (mmap_cache_free s).contexts = [] ∧ (mmap_cache_free s).fds = [] ∧
    (mmap_cache_free s).unused = [] ∧
    ∀ p ∈ (mmap_cache_free s).windows, p.2.keep_always = true := by
  have hU := UC_of_Inv s hI
  obtain ⟨hW1, hU1, hP1, hmem1, hother1⟩ :=
    free_slots_fold (List.range MMAP_CACHE_MAX_CONTEXTS) s hW hU
  unfold mmap_cache_free
  dsimp only
  set s₁ := (List.range MMAP_CACHE_MAX_CONTEXTS).foldl (fun s' i =>
    if (alookup s'.contexts i).isSome then context_free s' i else s') s
    with hs₁
  have hnilc : s₁.contexts = [] := by
    apply alookup_all_none_nil
    intro j
    by_cases hj : j < MMAP_CACHE_MAX_CONTEXTS
    · exact hmem1 j (List.mem_range.mpr hj)
    · rw [hother1 j (fun hc => hj (List.mem_range.mp hc))]
      cases hlk : alookup s.contexts j with
      | none => rfl
      | some c =>
        exact absurd (hW.c_lt (j, c) (alookup_eq_some_mem _ _ _ hlk)) hj
  have hwc : ∀ p ∈ s₁.windows, p.2.contexts = [] := by
    intro p hp
    cases hc : p.2.contexts with
    | nil => rfl
    | cons a t =>
      exfalso
      have hma : a ∈ p.2.contexts := by
        rw [hc]
        exact List.mem_cons_self a t
      have h2 := hW1.wc_back p hp a hma
      rw [hnilc] at h2
      exact Option.noConfusion h2
  have hI1 : Inv s₁ := Inv_of_PInv s s₁ hW1.nodup_w hI hP1
  obtain ⟨h1, h2, h3, h4⟩ := free_unused_loop s₁.unused.length
    { s₁ with fds := [] } hW1.nodup_w hW1.nodup_u hW1.unused_mem rfl
  refine ⟨h2 hnilc, h3 rfl, h1, ?_⟩
  intro p hp
  obtain ⟨hp1, hp2⟩ := h4 p hp
  have hiv := hI1 p hp1
  have hc := hwc p hp1
  rw [hc] at hiv
  cases hk : p.2.keep_always with
  | true => rfl
  | false =>
    exact absurd (hiv.mpr ⟨rfl, hk⟩) hp2

/-- Witness for the amended C3 on the concrete one-pinned-window cache:
contexts, registry and unused list are emptied and the surviving window
is pinned. -/
theorem C3_teardown_amended_witness :
    (mmap_cache_free exCache).contexts = [] ∧
    (mmap_cache_free exCache).fds = [] ∧
    (mmap_cache_free exCache).unused = [] ∧
    ∀ p ∈ (mmap_cache_free exCache).windows, p.2.keep_always = true :=
  C3_teardown_amended exCache
    (by constructor <;> decide)
    (by unfold Inv; decide)

end MmapCacheModel
